import Mathlib

/-!
# diary-cli: the doubly linked collection, its array encoder/decoder and the record codec

A shallow embedding of `src/linked_list.c`, of the record codec and the date input of
`src/main.c`, and of the translation map of `src/i18n.c`.

* Memory is an arena: a node pointer is an index into a list of cells, `none` is `NULL`,
  a freed cell is `none`, and a new node gets the first address past the arena.  Reading a
  cell that holds no node is undefined behaviour, which the operations report by returning
  `none`.  A node stores its element directly where the C node stores a pointer to it.
* `malloc`, `calloc` and `realloc` are modelled by a predicate `malloc_ok` on the requested
  size: the request succeeds exactly when the predicate holds.
* A C string is the list of its characters before the terminator; one `Char` stands for one
  byte.
* Loops that follow pointers or scan text take a `fuel` bound; running out of fuel is
  reported as `none`.  The recursive `ll_free_list` takes a bound on the depth of its nested
  calls in the same way.
* The scan of the decoder is modelled twice: on the characters left of the text, and on the
  array of bytes with the terminator, where a read outside the array is reported as `none`;
  the two are proved to agree.
* A chain of the translation map is the list of its entries, the one the bucket points to
  first.
* The encoder logs its appends, the decoder its deserializer calls and `ll_delete_node` its
  `free_data` calls; the logs are read by the theorems only and steer nothing.
* Sizes and counters (`size_t`, `int`) are unbounded numbers: the values at which they would
  wrap are out of reach of a text held in memory.
* The integer directives of `sscanf` convert as glibc does: the numeral goes through `strtol`,
  which saturates at the range of `long`, and the result is narrowed to the type of the
  argument.  ISO C leaves a numeral outside that type undefined.
-/

namespace DiaryCli

/-! ## Nodes and memory -/

/-- The struct `Node` of `linked_list.h`: a data pointer and the two neighbour pointers. -/
structure Node (α : Type) where
  data : Option α
  prev : Option Nat
  next : Option Nat
deriving DecidableEq, Repr

/-- The node arena: cell `p` holds the node at address `p`, or nothing. -/
abbrev Heap (α : Type) := List (Option (Node α))

/-- Dereference of a node pointer; `none` when no node lives at `p`. -/
def Heap.read {α : Type} (h : Heap α) (p : Nat) : Option (Node α) :=
  (h[p]?).join

/-- Store to the node at `p`. -/
def Heap.write {α : Type} (h : Heap α) (p : Nat) (n : Node α) : Heap α :=
  h.set p (some n)

/-- The call `free(p)` on a node. -/
def Heap.free {α : Type} (h : Heap α) (p : Nat) : Heap α :=
  h.set p none

/-- The size `sizeof(Node)` requested by `ll_create_node` (three pointers, LP64). -/
def sizeof_Node : Nat := 24

/-- The function `ll_create_node`: returns the memory after the call and the new node,
or `none` for `NULL` when `malloc` fails. -/
def ll_create_node {α : Type} (malloc_ok : Nat → Bool) (h : Heap α) (data : Option α) :
    Heap α × Option Nat :=
  if malloc_ok sizeof_Node then
    (h ++ [some { data := data, prev := none, next := none }], some h.length)
  else
    (h, none)

/-- The variables the list operations of `main.c` work on: memory, `head`, `tail`, the cursor
`current`, and the log of the `free_data` calls made so far (their arguments, in order). -/
structure ListState (α : Type) where
  heap : Heap α
  head : Option Nat
  tail : Option Nat
  current : Option Nat
  released : List (Option α)
deriving DecidableEq, Repr

/-- Lines 55-59 of `ll_delete_node`: when the node `nd` being deleted has a forward neighbour,
that neighbour's backward reference is redirected and it becomes the new cursor. -/
def unlink_next {α : Type} (h : Heap α) (nd : Node α) (new_current : Option Nat) :
    Option (Heap α × Option Nat) :=
  match nd.next with
  | none => some (h, new_current)
  | some nx => do
    let nn ← h.read nx
    some (h.write nx { nn with prev := nd.prev }, some nx)

/-- Lines 60-64 of `ll_delete_node`: when the node `nd` being deleted has a backward neighbour,
that neighbour's forward reference is redirected and it becomes the new cursor. -/
def unlink_prev {α : Type} (h : Heap α) (nd : Node α) (new_current : Option Nat) :
    Option (Heap α × Option Nat) :=
  match nd.prev with
  | none => some (h, new_current)
  | some pv => do
    let pn ← h.read pv
    some (h.write pv { pn with next := nd.next }, some pv)

/-- The function `ll_delete_node(&current, &head, &tail, free_data)`. -/
def ll_delete_node {α : Type} (s : ListState α) : Option (ListState α) :=
  match s.current with
  | none => some s
  | some to_delete => do
    let nd ← s.heap.read to_delete
    let (h1, c1) ← unlink_next s.heap nd none
    let nd1 ← h1.read to_delete
    let (h2, c2) ← unlink_prev h1 nd1 c1
    let nd2 ← h2.read to_delete
    let head1 := if s.head = some to_delete then nd2.next else s.head
    let tail1 := if s.tail = some to_delete then nd2.prev else s.tail
    some { heap := h2.free to_delete, head := head1, tail := tail1, current := c2,
           released := s.released ++ [nd2.data] }

/-- The function `ll_prev_node(&current)`. -/
def ll_prev_node {α : Type} (h : Heap α) (current : Option Nat) : Option (Option Nat) :=
  match current with
  | none => some none
  | some c => do
    let nd ← h.read c
    match nd.prev with
    | some p => some (some p)
    | none => some (some c)

/-- The function `ll_next_node(&current)`. -/
def ll_next_node {α : Type} (h : Heap α) (current : Option Nat) : Option (Option Nat) :=
  match current with
  | none => some none
  | some c => do
    let nd ← h.read c
    match nd.next with
    | some n => some (some n)
    | none => some (some c)

/-- Forward traversal: the addresses met from `p` along `next`, at most `fuel` of them. -/
def forward {α : Type} (h : Heap α) : Nat → Option Nat → Option (List Nat)
  | _, none => some []
  | 0, some _ => none
  | fuel + 1, some p => do
    let nd ← h.read p
    let rest ← forward h fuel nd.next
    some (p :: rest)

/-- Backward traversal: the addresses met from `p` along `prev`, at most `fuel` of them. -/
def backward {α : Type} (h : Heap α) : Nat → Option Nat → Option (List Nat)
  | _, none => some []
  | 0, some _ => none
  | fuel + 1, some p => do
    let nd ← h.read p
    let rest ← backward h fuel nd.prev
    some (p :: rest)

/-- The data pointer stored in the node at `p` (`none` also when there is no such node). -/
def dataAt {α : Type} (h : Heap α) (p : Nat) : Option α :=
  (h.read p).bind Node.data

/-- The first address of `ps`, or `d` when `ps` is empty. -/
def headOr : List Nat → Option Nat → Option Nat
  | [], d => d
  | p :: _, _ => some p

/-- The last address of `ps`, or `d` when `ps` is empty. -/
def lastOr : List Nat → Option Nat → Option Nat
  | [], d => d
  | p :: rest, _ => lastOr rest (some p)

/-- A chain segment: the nodes at `ps`, in this order, are linked to each other in both
directions; the first one has `pv` as backward reference and the last one `nx` as forward
reference. -/
def seg {α : Type} (h : Heap α) : Option Nat → List Nat → Option Nat → Prop
  | _, [], _ => True
  | pv, p :: rest, nx =>
    ∃ nd, h.read p = some nd ∧ nd.prev = pv ∧ nd.next = headOr rest nx ∧
      seg h (some p) rest nx

/-- A well-formed collection: `head` and `tail` delimit a chain of distinct nodes `ps` whose
first backward and last forward reference are empty. -/
structure WellFormed {α : Type} (h : Heap α) (head tail : Option Nat) (ps : List Nat) :
    Prop where
  nodup : ps.Nodup
  links : seg h none ps none
  head_eq : head = ps.head?
  tail_eq : tail = ps.getLast?

/-- A three-node collection holding 10, 11, 12 at the addresses 0, 1, 2. -/
def threeNodes : Heap Nat :=
  [some { data := some 10, prev := none, next := some 1 },
   some { data := some 11, prev := some 0, next := some 2 },
   some { data := some 12, prev := some 1, next := none }]

/-- The variables of a program holding `threeNodes` with the cursor on the node `c`. -/
def threeNodesAt (c : Nat) : ListState Nat :=
  { heap := threeNodes, head := some 0, tail := some 2, current := some c, released := [] }

/-! ## The array encoder -/

/-- One `strcpy`/`strcat` into the output buffer: the text already there, the number of
characters appended, and the capacity of the buffer at that moment. -/
structure Write where
  used_size : Nat
  len : Nat
  total_size : Nat
deriving DecidableEq, Repr

/-- The appended characters and the terminator lie inside the buffer. -/
def Write.fits (w : Write) : Prop := w.used_size + w.len + 1 ≤ w.total_size

instance (w : Write) : Decidable w.fits := by unfold Write.fits; infer_instance

/-- The encoder's local variables; `writes` logs every append, oldest first. -/
structure EncState where
  total_size : Nat
  used_size : Nat
  json_str : List Char
  writes : List Write
deriving DecidableEq, Repr

/-- What `ll_to_json_string` hands back: the return value, `*json_str` (`none` when it is
`NULL` or was never set) and the log of the appends made. -/
structure EncOut where
  ret : Int
  json_str : Option (List Char)
  writes : List Write
deriving DecidableEq, Repr

/-- A serializer in the sense of `json_serializer`: given the data pointer and the buffer size
it returns the C string left in the buffer when it returns `0`, and `none` otherwise. -/
abbrev json_serializer (α : Type) := Option α → Nat → Option (List Char)

/-- The call `strcat(*json_str, text)`, with the append logged. -/
def EncState.strcat (st : EncState) (text : List Char) : EncState :=
  { st with json_str := st.json_str ++ text,
            writes := st.writes ++ [{ used_size := st.used_size, len := text.length,
                                      total_size := st.total_size }] }

/-- The `realloc` branches: `none` when the reallocation fails. -/
def EncState.realloc (malloc_ok : Nat → Bool) (st : EncState) (new_size : Nat) :
    Option EncState :=
  if malloc_ok new_size then some { st with total_size := new_size } else none

/-- Lines 146-167: serialise the current element and append its fragment; `none` when
`realloc` fails. -/
def append_fragment {α : Type} (malloc_ok : Nat → Bool) (serializer : json_serializer α)
    (data : Option α) (st : EncState) : Option EncState :=
  match serializer data 512 with
  | some buffer =>
    let buffer_len := buffer.length
    if st.used_size + buffer_len + 2 > st.total_size then
      match st.realloc malloc_ok (st.total_size * 2) with
      | none => none
      | some st1 => some { st1.strcat buffer with used_size := st1.used_size + buffer_len }
    else
      some { st.strcat buffer with used_size := st.used_size + buffer_len }
  | none => some st

/-- Lines 170-187: append the separating comma; `none` when `realloc` fails. -/
def append_separator (malloc_ok : Nat → Bool) (st : EncState) : Option EncState :=
  if st.used_size + 1 > st.total_size then
    match st.realloc malloc_ok (st.total_size * 2) with
    | none => none
    | some st1 => some { st1.strcat [','] with used_size := st1.used_size + 1 }
  else
    some { st.strcat [','] with used_size := st.used_size + 1 }

/-- Lines 190-205: append the closing bracket and return. -/
def close_array (malloc_ok : Nat → Bool) (st : EncState) : EncOut :=
  if st.used_size + 1 > st.total_size then
    match st.realloc malloc_ok (st.total_size + 1) with
    | none => { ret := -1, json_str := none, writes := st.writes }
    | some st1 =>
      let st2 := st1.strcat [']']
      { ret := 0, json_str := some st2.json_str, writes := st2.writes }
  else
    let st2 := st.strcat [']']
    { ret := 0, json_str := some st2.json_str, writes := st2.writes }

/-- The `while (current != NULL)` loop of `ll_to_json_string` followed by the closing of the
array. -/
def to_json_loop {α : Type} (malloc_ok : Nat → Bool) (serializer : json_serializer α)
    (h : Heap α) : Nat → Option Nat → EncState → Option EncOut
  | _, none, st => some (close_array malloc_ok st)
  | 0, some _, _ => none
  | fuel + 1, some current, st => do
    let nd ← h.read current
    match append_fragment malloc_ok serializer nd.data st with
    | none => some { ret := -1, json_str := none, writes := st.writes }
    | some st1 =>
      match nd.next with
      | none => to_json_loop malloc_ok serializer h fuel none st1
      | some nx =>
        match append_separator malloc_ok st1 with
        | none => some { ret := -1, json_str := none, writes := st1.writes }
        | some st2 => to_json_loop malloc_ok serializer h fuel (some nx) st2

/-- The function `ll_to_json_string(head, &json_str, serializer)`, for a non-`NULL`
`json_str` and `serializer`. -/
def ll_to_json_string {α : Type} (malloc_ok : Nat → Bool) (serializer : json_serializer α)
    (h : Heap α) (fuel : Nat) (head : Option Nat) : Option EncOut :=
  match head with
  | none => some { ret := -1, json_str := none, writes := [] }
  | some hd =>
    if malloc_ok 2048 then
      to_json_loop malloc_ok serializer h fuel (some hd)
        { total_size := 2048, used_size := 1, json_str := ['['],
          writes := [{ used_size := 0, len := 1, total_size := 2048 }] }
    else
      some { ret := -1, json_str := none, writes := [] }

/-- The naive reference concatenation of fragments: the fragments in order, separated by
single commas. -/
def join_fragments : List (List Char) → List Char
  | [] => []
  | [f] => f
  | f :: g :: rest => f ++ ',' :: join_fragments (g :: rest)

/-- The reference text of an array: the joined fragments between brackets. -/
def reference_text (frags : List (List Char)) : List Char :=
  '[' :: join_fragments frags ++ [']']

/-- An allocator that never fails. -/
def always : Nat → Bool := fun _ => true

/-! ## The array decoder -/

/-- The decoder's view of the caller's variables: memory, `*head`, `*tail`, `*length`, and the
log of the deserializer calls made so far (fragment and size passed, in order). -/
structure DecState (α : Type) where
  heap : Heap α
  head : Option Nat
  tail : Option Nat
  length : Int
  calls : List (List Char × Nat)
deriving DecidableEq, Repr

/-- A deserializer in the sense of `json_deserializer`, applied to a zero-filled element: given
the fragment and its size it returns the element it filled in when it returns `0`, and `none`
otherwise. -/
abbrev json_deserializer (α : Type) := List Char → Nat → Option α

/-- Lines 228-231: advance to the next opening brace or to the terminator. -/
def skip_to_brace : List Char → List Char
  | [] => []
  | c :: rest => if c = '{' then c :: rest else skip_to_brace rest

/-- Lines 241-248: the effect of one character on the brace counter. -/
def brace_step (brace_count : Int) (c : Char) : Int :=
  if c = '{' then brace_count + 1 else if c = '}' then brace_count - 1 else brace_count

/-- Lines 239-250, entered with the body about to run on the first character of the text:
the brace counter and the position when the `do … while` loop stops. -/
def brace_loop : Int → List Char → Int × List Char
  | brace_count, [] => (brace_count, [])
  | brace_count, c :: rest =>
    if brace_step brace_count c > 0 ∧ rest ≠ [] then brace_loop (brace_step brace_count c) rest
    else (brace_step brace_count c, rest)

/-- Lines 288-298: link `new_node` behind `*tail`, or make it the only node. -/
def link_tail {α : Type} (h : Heap α) (head tail : Option Nat) (new_node : Nat) :
    Option (Heap α × Option Nat × Option Nat) :=
  match head with
  | none => some (h, some new_node, some new_node)
  | some _ => do
    let t ← tail
    let tn ← h.read t
    let h1 := h.write t { tn with next := some new_node }
    let nn ← h1.read new_node
    some (h1.write new_node { nn with prev := some t }, head, some new_node)

/-- What the scan for the next object finds. -/
inductive Scan where
  /-- The terminator was reached without meeting an opening brace. -/
  | done
  /-- The text ended with the brace counter different from zero. -/
  | mismatch
  /-- An object was cut out: its text, its size and the position after it. -/
  | object (obj_str : List Char) (obj_size : Nat) (ptr : List Char)
deriving DecidableEq, Repr

/-- Lines 228-257 and the copy of lines 263-264: skip to the next opening brace, run the brace
counter, and cut out the object between `start` and the position reached. -/
def next_object (ptr : List Char) : Scan :=
  match skip_to_brace ptr with
  | [] => Scan.done
  | start@(_ :: _) =>
    let (brace_count, ptr1) := brace_loop 0 start
    if brace_count ≠ 0 then Scan.mismatch
    else
      let obj_size := start.length - ptr1.length
      Scan.object (start.take obj_size) obj_size ptr1

/-- How one pass through lines 258-301 ends: with `return -1`, or with the loop going on. -/
inductive Step (σ : Type) where
  | fail (st : σ)
  | next (st : σ)
deriving DecidableEq, Repr

/-- Lines 258-301: allocate the copy of the object and the element, deserialize, create the
node and link it behind the tail. -/
def store_object {α : Type} (malloc_ok : Nat → Bool) (deserializer : json_deserializer α)
    (data_size : Nat) (st : DecState α) (obj_str : List Char) (obj_size : Nat) :
    Option (Step (DecState α)) :=
  if ¬ malloc_ok (obj_size + 1) then some (Step.fail st)
  else if ¬ malloc_ok data_size then some (Step.fail st)
  else
    let st1 := { st with calls := st.calls ++ [(obj_str, obj_size)] }
    match deserializer obj_str obj_size with
    | none => some (Step.fail st1)
    | some data =>
      match ll_create_node malloc_ok st1.heap (some data) with
      | (_, none) => some (Step.fail st1)
      | (h1, some new_node) =>
        match link_tail h1 st1.head st1.tail new_node with
        | none => none
        | some (h2, head1, tail1) =>
          some (Step.next { st1 with heap := h2, head := head1, tail := tail1,
                                     length := st1.length + 1 })

/-- The `while (*ptr != 0)` loop of `ll_from_json_string`; `ptr` is the text from the
current position on. -/
def from_json_loop {α : Type} (malloc_ok : Nat → Bool) (deserializer : json_deserializer α)
    (data_size : Nat) : Nat → List Char → DecState α → Option (Int × DecState α)
  | 0, _, _ => none
  | fuel + 1, ptr, st =>
    match ptr with
    | [] => some (0, st)
    | _ :: _ =>
      match next_object ptr with
      | Scan.done => some (0, st)
      | Scan.mismatch => some (-1, st)
      | Scan.object obj_str obj_size ptr1 =>
        match store_object malloc_ok deserializer data_size st obj_str obj_size with
        | none => none
        | some (Step.fail st1) => some (-1, st1)
        | some (Step.next st1) =>
          from_json_loop malloc_ok deserializer data_size fuel ptr1 st1

/-- The objects the scan of `ll_from_json_string` cuts out of a text, in order, up to the end
of the text or to the first mismatch. -/
def scan_objects : Nat → List Char → List (List Char)
  | 0, _ => []
  | fuel + 1, ptr =>
    match next_object ptr with
    | Scan.object obj_str _ ptr1 => obj_str :: scan_objects fuel ptr1
    | _ => []

/-- The number of opening braces of a text that are still unmatched at its end, starting with
`depth` of them open; a closing brace with nothing open matches nothing. -/
def open_depth : Nat → List Char → Nat
  | depth, [] => depth
  | depth, c :: rest =>
    if c = '{' then open_depth (depth + 1) rest
    else if c = '}' then open_depth (depth - 1) rest
    else open_depth depth rest

/-- The function `ll_from_json_string(json_str, &head, &tail, deserializer, &length,
data_size)`, for non-`NULL` arguments. -/
def ll_from_json_string {α : Type} (malloc_ok : Nat → Bool)
    (deserializer : json_deserializer α) (data_size : Nat) (fuel : Nat)
    (json_str : List Char) (st : DecState α) : Option (Int × DecState α) :=
  if data_size = 0 then some (-1, st)
  else from_json_loop malloc_ok deserializer data_size fuel json_str st

/-! ## The record codec of `main.c` -/

/-- The struct `Record`: `day` and `month` are `char`, `year` is `short`, `note` is a C string
or `NULL`. -/
structure Record where
  day : Int
  month : Int
  year : Int
  note : Option (List Char)
deriving DecidableEq, Repr

/-- The values the C types of the fields can hold (`char` signed). -/
def Record.inRange (r : Record) : Prop :=
  -128 ≤ r.day ∧ r.day ≤ 127 ∧ -128 ≤ r.month ∧ r.month ≤ 127 ∧
  -32768 ≤ r.year ∧ r.year ≤ 32767

/-- Conversion to a signed integer type of `bits` bits, wrapping. -/
def wrap (bits : Nat) (v : Int) : Int :=
  (v + 2 ^ (bits - 1)) % 2 ^ bits - 2 ^ (bits - 1)

/-- The value `strtol` returns for a decimal numeral of value `v` (`long` of 64 bits): a
value out of range is replaced by `LONG_MIN` or `LONG_MAX`. -/
def strtol (v : Int) : Int :=
  if v < -2 ^ 63 then -2 ^ 63 else if 2 ^ 63 - 1 < v then 2 ^ 63 - 1 else v

/-- What a `%d` or `%hd` directive of `sscanf` stores for a numeral of value `v` (glibc): the
result of `strtol`, narrowed to the signed type of `bits` bits of the argument.  ISO C leaves
the conversion of a numeral outside that type undefined. -/
def store (bits : Nat) (v : Int) : Int :=
  wrap bits (strtol v)

/-- The character of a decimal digit. -/
def digit_char (d : Nat) : Char := Char.ofNat (48 + d)

/-- The decimal digits of `n`, most significant first, put in front of `acc`. -/
def dec_digits : Nat → Nat → List Char → List Char
  | 0, _, acc => acc
  | fuel + 1, n, acc =>
    if n < 10 then digit_char n :: acc
    else dec_digits fuel (n / 10) (digit_char (n % 10) :: acc)

/-- What `printf` writes for `%d`. -/
def fmt_d (v : Int) : List Char :=
  match v with
  | Int.ofNat n => dec_digits (n + 1) n []
  | Int.negSucc n => '-' :: dec_digits (n + 2) (n + 1) []

/-- The text `snprintf` formats for a record in `serialize_record`. -/
def record_text (rec : Record) : List Char :=
  ['{', '"', 'd', 'a', 'y', '"', ':', ' '] ++ fmt_d rec.day ++
  [',', ' ', '"', 'm', 'o', 'n', 't', 'h', '"', ':', ' '] ++ fmt_d rec.month ++
  [',', ' ', '"', 'y', 'e', 'a', 'r', '"', ':', ' '] ++ fmt_d rec.year ++
  [',', ' ', '"', 'n', 'o', 't', 'e', '"', ':', ' ', '"'] ++ rec.note.getD [] ++
  ['"', '}']

/-- The function `serialize_record`. -/
def serialize_record : json_serializer Record := fun data buffer_size =>
  match data with
  | none => none
  | some rec =>
    let result := (record_text rec).length
    if result ≥ buffer_size then none else some (record_text rec)

/-- The C predicate `isspace`. -/
def isspace (c : Char) : Bool :=
  c = ' ' ∨ c = '\t' ∨ c = '\n' ∨ c = Char.ofNat 11 ∨ c = Char.ofNat 12 ∨ c = '\r'

/-- The C predicate `isdigit`. -/
def isdigit (c : Char) : Bool := 48 ≤ c.toNat ∧ c.toNat ≤ 57

/-- A white-space directive of a `scanf` format: skips any white space. -/
def skip_space : List Char → List Char
  | [] => []
  | c :: rest => if isspace c then skip_space rest else c :: rest

/-- Ordinary characters of a `scanf` format: each must be the next input character. -/
def scan_lit : List Char → List Char → Option (List Char)
  | [], s => some s
  | _ :: _, [] => none
  | c :: fmt, d :: s => if c = d then scan_lit fmt s else none

/-- The digits of a decimal number, accumulated into `acc`. -/
def scan_digits : List Char → Nat → Nat × List Char
  | [], acc => (acc, [])
  | c :: rest, acc =>
    if isdigit c then scan_digits rest (acc * 10 + (c.toNat - 48)) else (acc, c :: rest)

/-- The optional sign of a number: whether it is a minus, and the text after it. -/
def scan_sign : List Char → Bool × List Char
  | '-' :: t => (true, t)
  | '+' :: t => (false, t)
  | t => (false, t)

/-- What a `%d` or `%hd` directive reads: white space, an optional sign, at least one digit.
The result is the value of the numeral and the text after it; `store` gives what is stored. -/
def scan_int (s : List Char) : Option (Int × List Char) :=
  let signed := scan_sign (skip_space s)
  match signed.2 with
  | [] => none
  | c :: rest =>
    if isdigit c then
      let r := scan_digits (c :: rest) 0
      some (if signed.1 then -(r.1 : Int) else (r.1 : Int), r.2)
    else none

/-- The directive `%511[^"]`: up to `width` characters other than the double quote. -/
def scan_notquote : Nat → List Char → List Char × List Char
  | 0, s => ([], s)
  | _ + 1, [] => ([], [])
  | width + 1, c :: rest =>
    if c = '"' then ([], c :: rest)
    else
      let (m, r) := scan_notquote width rest
      (c :: m, r)

/-- The `sscanf` call of `deserialize_record`: the four converted values when it returns 4,
`none` when it returns anything else. -/
def sscanf_record (json_str : List Char) : Option (Int × Int × Int × List Char) := do
  let s ← scan_lit ['{', '"', 'd', 'a', 'y', '"', ':'] json_str
  let (day, s) ← scan_int (skip_space s)
  let s ← scan_lit [','] s
  let s ← scan_lit ['"', 'm', 'o', 'n', 't', 'h', '"', ':'] (skip_space s)
  let (month, s) ← scan_int (skip_space s)
  let s ← scan_lit [','] s
  let s ← scan_lit ['"', 'y', 'e', 'a', 'r', '"', ':'] (skip_space s)
  let (year, s) ← scan_int (skip_space s)
  let s ← scan_lit [','] s
  let s ← scan_lit ['"', 'n', 'o', 't', 'e', '"', ':'] (skip_space s)
  let s ← scan_lit ['"'] (skip_space s)
  let (note_buffer, _) := scan_notquote 511 s
  if note_buffer = [] then none
  else some (store 32 day, store 32 month, store 16 year, note_buffer)

/-- The function `deserialize_record`, applied to a zero-filled record. -/
def deserialize_record (malloc_ok : Nat → Bool) : json_deserializer Record :=
  fun json_str _json_size =>
    match sscanf_record json_str with
    | none => none
    | some (day, month, year, note_buffer) =>
      if malloc_ok (note_buffer.length + 1) then
        some { day := wrap 8 day, month := wrap 8 month, year := year,
               note := some note_buffer }
      else none

/-- The records for which the round trip through the codec is stated: the note is present, not
empty, free of double quotes and braces, and the fragment fits the 512-byte element buffer. -/
def Record.codecable (r : Record) : Prop :=
  ∃ note, r.note = some note ∧ note ≠ [] ∧ '"' ∉ note ∧ '{' ∉ note ∧ '}' ∉ note ∧
    (record_text r).length ≤ 511

/-- A text that does not go on with a digit. -/
def noDigitAhead (rest : List Char) : Prop :=
  ∀ c ∈ rest.head?, isdigit c = false

/-! ## Insertion, cursor moves and teardown -/

/-- Lines 32-38 of `ll_insert_after`: hook `new_node` between `current` and the node that
followed it. -/
def splice_node {α : Type} (h : Heap α) (current new_node : Nat) : Option (Heap α) := do
  let cn ← h.read current
  let nn ← h.read new_node
  let h1 := h.write new_node { nn with next := cn.next }
  let nn1 ← h1.read new_node
  let h2 := h1.write new_node { nn1 with prev := some current }
  let cn2 ← h2.read current
  let h3 ← (match cn2.next with
    | none => some h2
    | some nx => do
      let nxn ← h2.read nx
      some (h2.write nx { nxn with prev := some new_node }))
  let cn3 ← h3.read current
  some (h3.write current { cn3 with next := some new_node })

/-- Lines 39-42 of `ll_insert_after`: the new node becomes the tail when nothing follows it
and a tail variable was passed. -/
def update_tail {α : Type} (h : Heap α) (new_node : Nat) (tail : Option (Option Nat)) :
    Option (Option (Option Nat)) := do
  let nn ← h.read new_node
  match nn.next, tail with
  | none, some _ => some (some (some new_node))
  | _, _ => some tail

/-- The function `ll_insert_after(current, data, tail)`.  The argument `tail` is `none` for a
`NULL` pointer and `some t` for a pointer to a variable holding `t`; the result is the memory
and that variable after the call. -/
def ll_insert_after {α : Type} (malloc_ok : Nat → Bool) (h : Heap α) (current : Option Nat)
    (data : Option α) (tail : Option (Option Nat)) :
    Option (Heap α × Option (Option Nat)) :=
  match current with
  | none => some (h, tail)
  | some cur =>
    match ll_create_node malloc_ok h data with
    | (h1, none) => some (h1, tail)
    | (h1, some new_node) => do
      let h2 ← splice_node h1 cur new_node
      let tail1 ← update_tail h2 new_node tail
      some (h2, tail1)

/-- The call `ll_prev_node(&current)` of `main.c` on the program's variables. -/
def cmd_prev {α : Type} (s : ListState α) : Option (ListState α) :=
  (ll_prev_node s.heap s.current).map (fun c => { s with current := c })

/-- The call `ll_next_node(&current)` of `main.c` on the program's variables. -/
def cmd_next {α : Type} (s : ListState α) : Option (ListState α) :=
  (ll_next_node s.heap s.current).map (fun c => { s with current := c })

/-- What `ll_free_list` works on: memory, the log of the `free_data` calls (their arguments,
in order) and the log of the nodes passed to `free` (in order). -/
structure FreeState (α : Type) where
  heap : Heap α
  released : List (Option α)
  freed : List Nat
deriving DecidableEq, Repr

/-- Lines 91-96 of `ll_free_list`: release the element if there is one, free the node. -/
def free_node {α : Type} (s : FreeState α) (p : Nat) : Option (FreeState α) := do
  let nd ← s.heap.read p
  let released1 := (match nd.data with
    | none => s.released
    | some d => s.released ++ [some d])
  some { heap := s.heap.free p, released := released1, freed := s.freed ++ [p] }

/-- The function `ll_free_list(head, free_data)`, for a non-`NULL` `head`: `head_value` is
`*head` before the call, the result holds `*head` after it.  The first argument bounds the
depth of the nested calls: each call on a node with a successor makes one nested call. -/
def ll_free_list {α : Type} : Nat → FreeState α → Option Nat →
    Option (FreeState α × Option Nat)
  | _, s, none => some (s, none)
  | 0, _, some _ => none
  | depth + 1, s, some p => do
    let nd ← s.heap.read p
    let s1 ← (match nd.next with
      | none => some s
      | some nx => do
        let r ← ll_free_list depth s (some nx)
        let nd1 ← r.1.heap.read p
        some { r.1 with heap := r.1.heap.write p { nd1 with next := r.2 } })
    let s2 ← free_node s1 p
    some (s2, none)

/-- The invariants of a collection in the words of the data model, for the collection at
`head` and `tail` in the memory `h`; `ps` are the nodes met from `head` along the forward
references. -/
structure Invariants {α : Type} (h : Heap α) (head tail : Option Nat) (ps : List Nat) :
    Prop where
  /-- The forward references lead from `head` through the nodes `ps` and end after them. -/
  chain : forward h ps.length head = some ps
  /-- Acyclic: no node is met twice. -/
  acyclic : ps.Nodup
  /-- The backward reference of the head is empty. -/
  head_prev : ∀ p nd, head = some p → h.read p = some nd → nd.prev = none
  /-- The tail is a node of the chain and its forward reference is empty. -/
  tail_next : ∀ p, tail = some p → p ∈ ps ∧ ∀ nd, h.read p = some nd → nd.next = none
  /-- Head and tail are empty together. -/
  ends : head = none ↔ tail = none
  /-- Symmetry: `a.next = b` exactly when `b.prev = a`, for the nodes of the chain. -/
  symmetric : ∀ a b na nb, a ∈ ps → b ∈ ps → h.read a = some na → h.read b = some nb →
    (na.next = some b ↔ nb.prev = some a)

/-! ## The fragment of a record in the words of the specification -/

/-- The fragment of the specification's scenario, for any field values: the four fields in
order, the numbers in decimal as `toString` writes them, the note between double quotes. -/
def fragment_of (day month year : Int) (note : List Char) : List Char :=
  "\x7b\"day\": ".toList ++ (toString day).toList ++
  ", \"month\": ".toList ++ (toString month).toList ++
  ", \"year\": ".toList ++ (toString year).toList ++
  ", \"note\": \"".toList ++ note ++ "\"\x7d".toList

/-- A run of white space, possibly empty. -/
def IsSpace (w : List Char) : Prop := ∀ c ∈ w, isspace c = true

/-- A decimal integer: an optional sign and at least one digit. -/
def IsNumber (d : List Char) : Prop :=
  ∃ sign digits, d = sign ++ digits ∧ (sign = [] ∨ sign = ['-'] ∨ sign = ['+']) ∧
    digits ≠ [] ∧ ∀ c ∈ digits, isdigit c = true

/-- The shape of a fragment up to the first character of the note: the opening brace, the
fields day, month and year in this order, each a decimal integer followed by a comma, the key
of the note, the opening double quote and a first character of the note; white space may
stand where the format of `deserialize_record` has a blank. -/
def RecordShape (t : List Char) : Prop :=
  ∃ w1 d w2 w3 m w4 w5 y w6 w7 c rest,
    t = ['{', '"', 'd', 'a', 'y', '"', ':'] ++ (w1 ++ (d ++ (',' :: (w2 ++
        (['"', 'm', 'o', 'n', 't', 'h', '"', ':'] ++ (w3 ++ (m ++ (',' :: (w4 ++
        (['"', 'y', 'e', 'a', 'r', '"', ':'] ++ (w5 ++ (y ++ (',' :: (w6 ++
        (['"', 'n', 'o', 't', 'e', '"', ':'] ++ (w7 ++ ('"' :: c :: rest))))))))))))))))) ∧
    IsSpace w1 ∧ IsSpace w2 ∧ IsSpace w3 ∧ IsSpace w4 ∧ IsSpace w5 ∧ IsSpace w6 ∧
    IsSpace w7 ∧ IsNumber d ∧ IsNumber m ∧ IsNumber y ∧ c ≠ '"'

/-! ## The translation map of `i18n.c` -/

/-- One step of the loop of `hash_string`: `hash = ((hash << 5) + hash) + c` in `unsigned long`
arithmetic (64 bits), `c` being the `char` read as `int` (`char` signed). -/
def hash_step (hash : Int) (c : Char) : Int :=
  (((hash * 32) % 2 ^ 64 + hash) % 2 ^ 64 + wrap 8 c.toNat) % 2 ^ 64

/-- The function `hash_string` (djb2). -/
def hash_string (str : List Char) : Int :=
  str.foldl hash_step 5381

/-- The struct `TranslationEntry` without its `next` pointer: a chain of entries is the list
of its entries, the one the bucket points to first. -/
structure TranslationEntry where
  key : List Char
  value : List Char
deriving DecidableEq, Repr

/-- The struct `TranslationMap`: `size` and the array `buckets` of chains. -/
structure TranslationMap where
  size : Int
  buckets : List (List TranslationEntry)
deriving DecidableEq, Repr

/-- The size `sizeof(TranslationMap)` (an `int` and a pointer, LP64). -/
def sizeof_TranslationMap : Nat := 16

/-- The size `sizeof(TranslationEntry)` (three pointers, LP64). -/
def sizeof_TranslationEntry : Nat := 24

/-- The function `i18n_create_map`; `none` is `NULL`. -/
def i18n_create_map (malloc_ok : Nat → Bool) (size : Int) : Option TranslationMap :=
  if size ≤ 0 then none
  else if ¬ malloc_ok sizeof_TranslationMap then none
  else if ¬ malloc_ok (size.toNat * 8) then none
  else some { size := size, buckets := List.replicate size.toNat [] }

/-- The statement `int index = hash % map->size;`: `map->size` is converted to
`unsigned long`, the remainder to `int`; `none` for the division by zero. -/
def bucket_index (map : TranslationMap) (key : List Char) : Option Int :=
  if map.size % 2 ^ 64 = 0 then none
  else some (wrap 32 (hash_string key % (map.size % 2 ^ 64)))

/-- The array access `map->buckets[index]`; `none` outside the array. -/
def bucket_at (map : TranslationMap) (index : Int) : Option (List TranslationEntry) :=
  if index < 0 then none else map.buckets[index.toNat]?

/-- The function `map_put`, for a non-`NULL` map, key and value: the map after the call. -/
def map_put (malloc_ok : Nat → Bool) (map : TranslationMap) (key value : List Char) :
    Option TranslationMap := do
  let index ← bucket_index map key
  if ¬ malloc_ok sizeof_TranslationEntry then some map
  else if ¬ malloc_ok (key.length + 1) ∨ ¬ malloc_ok (value.length + 1) then some map
  else
    let bucket ← bucket_at map index
    some ⟨map.size, map.buckets.set index.toNat (⟨key, value⟩ :: bucket)⟩

/-- The `while (entry)` loop of `i18n_get_string`: the value of the first entry of the chain
with the key, `none` when the end of the chain is reached. -/
def chain_find : List TranslationEntry → List Char → Option (List Char)
  | [], _ => none
  | entry :: next, key => if entry.key = key then some entry.value else chain_find next key

/-- The function `i18n_get_string`; a `NULL` argument or result is `none`. -/
def i18n_get_string (map : Option TranslationMap) (key : Option (List Char)) :
    Option (Option (List Char)) :=
  match map, key with
  | some m, some k => do
    let index ← bucket_index m k
    let bucket ← bucket_at m index
    match chain_find bucket k with
    | some value => some (some value)
    | none => some (some k)
  | _, _ => some key

/-- The successive `map_put` calls of a load: the map after all of them. -/
def map_put_all (malloc_ok : Nat → Bool) :
    TranslationMap → List (List Char × List Char) → Option TranslationMap
  | map, [] => some map
  | map, (key, value) :: rest => do
    let map1 ← map_put malloc_ok map key value
    map_put_all malloc_ok map1 rest

/-- The pairs for which `map_put` gets its three allocations. -/
def stored (malloc_ok : Nat → Bool) (puts : List (List Char × List Char)) :
    List (List Char × List Char) :=
  puts.filter (fun kv => malloc_ok sizeof_TranslationEntry && malloc_ok (kv.1.length + 1) &&
    malloc_ok (kv.2.length + 1))

/-- The value the map should give for a key after the pairs `puts` were stored, oldest first:
the value of the most recent pair with the key. -/
def latest (puts : List (List Char × List Char)) (key : List Char) : Option (List Char) :=
  (puts.reverse.find? (fun kv => kv.1 = key)).map Prod.snd

/-- The representation invariant of a map: its size is a positive `int`, it has that many
buckets, and looking a key up in its chain gives the latest value stored for it. -/
def MapHolds (m : TranslationMap) (hist : List (List Char × List Char)) : Prop :=
  0 < m.size ∧ m.size < 2 ^ 31 ∧ m.buckets.length = m.size.toNat ∧
  ∀ key, ∃ bucket, bucket_at m (hash_string key % m.size) = some bucket ∧
    chain_find bucket key = latest hist key

/-! ## Fragments in the words of the object-boundary rule -/

/-- The brace depth at the end of a text: the opening braces minus the closing ones. -/
def depth_of (s : List Char) : Int :=
  (s.count '{' : Int) - (s.count '}' : Int)

/-- A fragment: it starts with an opening brace, ends with a closing brace, is brace-balanced,
and its depth returns to zero at its last character and not before. -/
def IsFragment (f : List Char) : Prop :=
  f.head? = some '{' ∧ f.getLast? = some '}' ∧ depth_of f = 0 ∧
  ∀ k, k < f.length → 0 < k → 0 < depth_of (f.take k)

instance (f : List Char) : Decidable (IsFragment f) := by
  unfold IsFragment; infer_instance

/-! ## The capacity of the encoder's buffer, read off the log of appends -/

/-- The appends that follow a position with `used` characters in a buffer of `total` bytes,
one pair per fragment: the append of the fragment, before which the buffer was doubled at most
once and after which `used_size + 2 ≤ total_size`; then the append of one character (the
separator, or the closing bracket after the last fragment) into the same buffer, after which
`used_size + 1 ≤ total_size`. -/
def CapacityKept : Nat → Nat → List (List Char) → List Write → Prop
  | _, _, [], ws => ws = []
  | used, total, f :: rest, w1 :: w2 :: ws =>
    w1.used_size = used ∧ w1.len = f.length ∧
    (w1.total_size = total ∨ w1.total_size = total * 2) ∧
    (w1.used_size + w1.len) + 2 ≤ w1.total_size ∧
    w2.used_size = w1.used_size + w1.len ∧ w2.len = 1 ∧ w2.total_size = w1.total_size ∧
    (w2.used_size + w2.len) + 1 ≤ w2.total_size ∧
    CapacityKept (w2.used_size + w2.len) w2.total_size rest ws
  | _, _, _ :: _, _ => False

/-! ## The scan of the decoder on the bytes of the text

The functions above work on the characters that are left of the text.  Here the same lines
are modelled on the array of bytes, the terminator included, with `ptr` an index: reading
outside the array is undefined behaviour and reported as `none`. -/

/-- The terminator of a C string. -/
def NUL : Char := Char.ofNat 0

/-- The bytes of a C string: its characters followed by the terminator. -/
def c_str (s : List Char) : List Char := s ++ [NUL]

/-- Lines 228-231 on the bytes: advance `ptr` to the next opening brace or to the
terminator. -/
def skip_to_brace_at (buf : List Char) : Nat → Nat → Option Nat
  | 0, _ => none
  | fuel + 1, ptr => do
    let c ← buf[ptr]?
    if c ≠ '{' ∧ c ≠ NUL then skip_to_brace_at buf fuel (ptr + 1) else some ptr

/-- Lines 239-250 on the bytes: the body of the `do … while` loop runs on `*ptr`, then the
condition reads the next byte if the counter is positive. -/
def brace_loop_at (buf : List Char) : Nat → Int → Nat → Option (Int × Nat)
  | 0, _, _ => none
  | fuel + 1, brace_count, ptr => do
    let c ← buf[ptr]?
    if brace_step brace_count c > 0 then do
      let c1 ← buf[ptr + 1]?
      if c1 ≠ NUL then brace_loop_at buf fuel (brace_step brace_count c) (ptr + 1)
      else some (brace_step brace_count c, ptr + 1)
    else some (brace_step brace_count c, ptr + 1)

/-- What the scan for the next object finds, with the positions reached. -/
inductive ScanAt where
  /-- The terminator was reached, at `ptr`, without meeting an opening brace. -/
  | done (ptr : Nat)
  /-- The brace counter is different from zero when the loop stops at `ptr`. -/
  | mismatch (ptr : Nat)
  /-- An object lies between `start` and `ptr`. -/
  | object (start ptr : Nat)
deriving DecidableEq, Repr

/-- Lines 228-255 on the bytes. -/
def next_object_at (buf : List Char) (fuel ptr : Nat) : Option ScanAt := do
  let start ← skip_to_brace_at buf fuel ptr
  let c ← buf[start]?
  if c = NUL then some (ScanAt.done start)
  else do
    let r ← brace_loop_at buf fuel 0 start
    if r.1 ≠ 0 then some (ScanAt.mismatch r.2) else some (ScanAt.object start r.2)

/-- The calls `strncpy(obj_str, start, obj_size); obj_str[obj_size] = 0`: the C string left in
`obj_str`. -/
def strncpy (buf : List Char) (start obj_size : Nat) : List Char :=
  ((buf.drop start).take obj_size).takeWhile (fun c => c ≠ NUL)

/-- The `while (*ptr != 0)` loop of `ll_from_json_string` on the bytes. -/
def from_json_loop_at {α : Type} (malloc_ok : Nat → Bool) (deserializer : json_deserializer α)
    (data_size : Nat) (buf : List Char) :
    Nat → Nat → DecState α → Option (Int × DecState α)
  | 0, _, _ => none
  | fuel + 1, ptr, st => do
    let c ← buf[ptr]?
    if c = NUL then some (0, st)
    else
      match next_object_at buf buf.length ptr with
      | none => none
      | some (ScanAt.done _) => some (0, st)
      | some (ScanAt.mismatch _) => some (-1, st)
      | some (ScanAt.object start ptr1) =>
        match store_object malloc_ok deserializer data_size st
            (strncpy buf start (ptr1 - start)) (ptr1 - start) with
        | none => none
        | some (Step.fail st1) => some (-1, st1)
        | some (Step.next st1) =>
          from_json_loop_at malloc_ok deserializer data_size buf fuel ptr1 st1

/-- The function `ll_from_json_string` on the bytes of `json_str`, for non-`NULL`
arguments. -/
def ll_from_json_string_at {α : Type} (malloc_ok : Nat → Bool)
    (deserializer : json_deserializer α) (data_size : Nat) (fuel : Nat)
    (json_str : List Char) (st : DecState α) : Option (Int × DecState α) :=
  if data_size = 0 then some (-1, st)
  else from_json_loop_at malloc_ok deserializer data_size json_str fuel 0 st

/-- The positions a scan started at `ptr` in a text of `n` characters may report: it stops at
the terminator, or it cuts out an object of at least one character that ends at or before the
terminator. -/
def ScanAt.inside (ptr n : Nat) : ScanAt → Prop
  | ScanAt.done p => p = n
  | ScanAt.mismatch p => p = n
  | ScanAt.object start p => ptr ≤ start ∧ start < p ∧ p ≤ n

/-- The state after `k` successive calls `ll_next_node(&current)`. -/
def cmd_next_times {α : Type} : Nat → ListState α → Option (ListState α)
  | 0, s => some s
  | k + 1, s => (cmd_next s).bind (cmd_next_times k)

/-! ## The date input of `main.c` -/

/-- The function `rtrim`: the string with the white space at its end cut off. -/
def rtrim (str : List Char) : List Char :=
  (str.reverse.dropWhile isspace).reverse

/-- The call `sscanf(date, "%d.%d.%d%n", …)`: the three converted values and `chars_read`
when it returns 3, `none` when it returns anything else. -/
def sscanf_date (date : List Char) : Option (Int × Int × Int × Nat) := do
  let (sday, s) ← scan_int date
  let s ← scan_lit ['.'] s
  let (smonth, s) ← scan_int s
  let s ← scan_lit ['.'] s
  let (syear, s) ← scan_int s
  some (store 32 sday, store 32 smonth, store 32 syear, date.length - s.length)

/-- The array `days_in_month` of `get_date` after the leap-year test; `%` is the remainder of
C, which truncates. -/
def days_in_month (syear : Int) : List Int :=
  if (syear.tmod 4 = 0 ∧ syear.tmod 100 ≠ 0) ∨ syear.tmod 400 = 0 then
    [0, 31, 29, 31, 30, 31, 30, 31, 31, 30, 31, 30, 31]
  else
    [0, 31, 28, 31, 30, 31, 30, 31, 31, 30, 31, 30, 31]

/-- The function `get_date(date, &day, &month, &year)`: the return value and the three output
variables after the call; `day`, `month`, `year` are their values before it.  `none` stands
for an access outside `days_in_month`. -/
def get_date (date : List Char) (day month year : Int) : Option (Int × Int × Int × Int) :=
  match sscanf_date (rtrim date) with
  | none => some (0, day, month, year)
  | some (sday, smonth, syear, chars_read) =>
    if chars_read ≠ (rtrim date).length then some (0, day, month, year)
    else if syear < 1 then some (0, day, month, year)
    else if smonth < 1 ∨ smonth > 12 then some (0, day, month, year)
    else do
      let last ← (days_in_month syear)[smonth.toNat]?
      if sday < 1 ∨ sday > last then some (0, day, month, year)
      else some (1, sday, smonth, syear)

/-- A leap year of the Gregorian calendar: divisible by 4 and not by 100, or divisible by
400. -/
def IsLeap (y : Int) : Prop := (4 ∣ y ∧ ¬ 100 ∣ y) ∨ 400 ∣ y

instance (y : Int) : Decidable (IsLeap y) := by
  unfold IsLeap; infer_instance

/-- The number of days of the month `m` in the year `y`. -/
def days_of_month (m y : Int) : Int :=
  if m = 2 then (if IsLeap y then 29 else 28)
  else if m = 4 ∨ m = 6 ∨ m = 9 ∨ m = 11 then 30
  else 31

/-- A valid date of the Gregorian calendar. -/
def ValidDate (d m y : Int) : Prop :=
  1 ≤ y ∧ 1 ≤ m ∧ m ≤ 12 ∧ 1 ≤ d ∧ d ≤ days_of_month m y

instance (d m y : Int) : Decidable (ValidDate d m y) := by
  unfold ValidDate; infer_instance

/-- The line `d.m.y`: the three numbers in decimal as `toString` writes them, separated by
full stops. -/
def date_line (d m y : Int) : List Char :=
  (toString d).toList ++ '.' :: ((toString m).toList ++ '.' :: (toString y).toList)

/-! ## The call stack of the teardown

`ll_free_list` calls itself.  To make the depth of its call stack a quantity of the model, the
function is given a second time as a machine that runs one activation at a time and keeps the
activations that wait for a nested call to return on an explicit stack. -/

/-- Where the argument `head` of an activation points: to the variable of the caller of the
outermost call, or to the field `next` of a node (line 89 passes `&(*head)->next`). -/
inductive HeadPtr where
  | var
  | next_of (p : Nat)
deriving DecidableEq, Repr

/-- An activation of `ll_free_list`: its argument `head`, and whether it is at its beginning
(line 82) or past the place of the nested call (line 91). -/
structure Frame where
  head : HeadPtr
  resumed : Bool
deriving DecidableEq, Repr

/-- The memory the activations share: the caller's variable and what `ll_free_list` works
on. -/
structure FreeMem (α : Type) where
  head_var : Option Nat
  state : FreeState α
deriving DecidableEq, Repr

/-- The machine: the call stack, innermost activation first, the greatest height the stack has
had, and the memory. -/
structure FreeMachine (α : Type) where
  stack : List Frame
  peak : Nat
  mem : FreeMem α
deriving DecidableEq, Repr

/-- The value `*head`; `none` when `head` points into a node that is not there. -/
def FreeMem.deref {α : Type} (mem : FreeMem α) : HeadPtr → Option (Option Nat)
  | HeadPtr.var => some mem.head_var
  | HeadPtr.next_of p => (mem.state.heap.read p).map Node.next

/-- The statement `*head = NULL` (line 96). -/
def FreeMem.assign_null {α : Type} (mem : FreeMem α) : HeadPtr → Option (FreeMem α)
  | HeadPtr.var => some ⟨none, mem.state⟩
  | HeadPtr.next_of p => do
    let nd ← mem.state.heap.read p
    some ⟨mem.head_var, ⟨mem.state.heap.write p { nd with next := none },
      mem.state.released, mem.state.freed⟩⟩

/-- One step of the innermost activation.  At its beginning (lines 82-90) it returns if
`*head` is `NULL`, calls `ll_free_list(&(*head)->next, free_data)` if the node has a
successor, which puts a new activation on the stack, and goes on to line 91 otherwise.  Past
the call (lines 91-96) it releases the element, frees the node, clears `*head` and returns.
A machine with an empty stack has halted. -/
def ll_free_list_step {α : Type} (m : FreeMachine α) : Option (FreeMachine α) :=
  match m.stack with
  | [] => some m
  | f :: callers =>
    if f.resumed then do
      let p ← (← m.mem.deref f.head)
      let s1 ← free_node m.mem.state p
      let mem1 ← FreeMem.assign_null ⟨m.mem.head_var, s1⟩ f.head
      some ⟨callers, m.peak, mem1⟩
    else do
      match ← m.mem.deref f.head with
      | none => some ⟨callers, m.peak, m.mem⟩
      | some p => do
        let nd ← m.mem.state.heap.read p
        match nd.next with
        | none => some ⟨⟨f.head, true⟩ :: callers, m.peak, m.mem⟩
        | some _ =>
          some ⟨⟨HeadPtr.next_of p, false⟩ :: ⟨f.head, true⟩ :: callers,
            max m.peak (callers.length + 2), m.mem⟩

/-- The machine after `n` steps. -/
def ll_free_list_steps {α : Type} : Nat → FreeMachine α → Option (FreeMachine α)
  | 0, m => some m
  | n + 1, m => (ll_free_list_step m).bind (ll_free_list_steps n)

/-- The machine at the call `ll_free_list(&head, free_data)`: one activation. -/
def ll_free_list_call {α : Type} (s : FreeState α) (head : Option Nat) : FreeMachine α :=
  ⟨[⟨HeadPtr.var, false⟩], 1, ⟨head, s⟩⟩

/-! ## Sample diaries -/

/-- A note of `n` characters. -/
def noteOf (n : Nat) : Option (List Char) := some (List.replicate n 'x')

/-- A record whose fragment has `48 + n` characters. -/
def recordOf (n : Nat) : Record := { day := 1, month := 1, year := 2024, note := noteOf n }

/-- A one-record diary whose only record has a note of 500 characters. -/
def longDiary : Heap Record :=
  [some { data := some (recordOf 500), prev := none, next := none }]

/-- A six-record diary: four records whose fragments have 511, 511, 510 and 510 characters,
one whose fragment would have 548, and a short one. -/
def sixRecords : Heap Record :=
  [some { data := some (recordOf 463), prev := none, next := some 1 },
   some { data := some (recordOf 463), prev := some 0, next := some 2 },
   some { data := some (recordOf 462), prev := some 1, next := some 3 },
   some { data := some (recordOf 462), prev := some 2, next := some 4 },
   some { data := some (recordOf 500), prev := some 3, next := some 5 },
   some { data := some (recordOf 2), prev := some 4, next := none }]

/-- A five-record diary whose fragments have 511 characters each. -/
def fiveRecords : Heap Record :=
  [some { data := some (recordOf 463), prev := none, next := some 1 },
   some { data := some (recordOf 463), prev := some 0, next := some 2 },
   some { data := some (recordOf 463), prev := some 1, next := some 3 },
   some { data := some (recordOf 463), prev := some 2, next := some 4 },
   some { data := some (recordOf 463), prev := some 3, next := none }]

/-- The record of the specification's scenario: 1.2.2024 with the note "hi". -/
def hiRecord : Record := { day := 1, month := 2, year := 2024, note := some ['h', 'i'] }

/-- A one-record diary. -/
def diaryOf (r : Record) : Heap Record :=
  [some { data := some r, prev := none, next := none }]

/-- An empty collection in an empty memory, as `main` has it before loading. -/
def emptyDiary : DecState Record :=
  { heap := [], head := none, tail := none, length := 0, calls := [] }

/-- The variables of a program whose diary holds the one record `hiRecord`, the cursor on
it. -/
def soleDiary : ListState Record :=
  { heap := diaryOf hiRecord, head := some 0, tail := some 0, current := some 0,
    released := [] }

/-- An allocator that always fails. -/
def never : Nat → Bool := fun _ => false

/-- The fragment of `hiRecord` with the closing double quote and brace cut off. -/
def truncatedFragment : List Char :=
  "\x7b\"day\": 1, \"month\": 2, \"year\": 2024, \"note\": \"hi".toList

/-- The fragment of `hiRecord` with a fifth field after the note. -/
def extraFieldFragment : List Char :=
  "\x7b\"day\": 1, \"month\": 2, \"year\": 2024, \"note\": \"hi\", \"mood\": 5\x7d".toList

/-- A fragment without the month field. -/
def missingFieldFragment : List Char :=
  "\x7b\"day\": 1, \"year\": 2024, \"note\": \"hi\"\x7d".toList

/-- A fragment whose day is not a number. -/
def malformedDayFragment : List Char :=
  "\x7b\"day\": x, \"month\": 2, \"year\": 2024, \"note\": \"hi\"\x7d".toList

/-- The text of the specification's scenario. -/
def scenarioText : List Char :=
  "[\x7b\"day\": 1, \"month\": 2, \"year\": 2024, \"note\": \"hi\"\x7d]".toList

/-- The empty map of `main`: 21 buckets. -/
def sampleMap : TranslationMap := { size := 21, buckets := List.replicate 21 [] }

/-- Three pairs, the first key stored twice. -/
def samplePuts : List (List Char × List Char) :=
  [("help".toList, "Help".toList), ("date".toList, "Date".toList),
   ("help".toList, "Aide".toList)]

/-- A collection of `n` nodes at the addresses `0 .. n-1`, node `i` holding `i`. -/
def chainOf (n : Nat) : Heap Nat :=
  (List.range n).map (fun i =>
    some ⟨some i, if i = 0 then none else some (i - 1), if i + 1 < n then some (i + 1) else none⟩)

/-- Two fragments, the first with a nested object. -/
def nestedFragments : List (List Char) :=
  ["\x7b\"a\": \x7b\"b\": 1\x7d\x7d".toList, "\x7b\"c\": 2\x7d".toList]

/-- A deserializer that stores the size it is given. -/
def sizeOnly : json_deserializer Nat := fun _ obj_size => some obj_size

/-- An empty collection of numbers in an empty memory. -/
def emptyNumbers : DecState Nat :=
  { heap := [], head := none, tail := none, length := 0, calls := [] }

/-! ## Memory lemmas -/

theorem read_lt {α : Type} {h : Heap α} {p : Nat} {n : Node α} (hr : h.read p = some n) :
    p < h.length := by
  by_contra hlt
  have : h[p]? = none := List.getElem?_eq_none (by omega)
  simp [Heap.read, this] at hr

theorem read_write_same {α : Type} {h : Heap α} {p : Nat} (n : Node α) (hp : p < h.length) :
    (h.write p n).read p = some n := by
  simp [Heap.read, Heap.write, List.getElem?_set, hp]

theorem read_write_ne {α : Type} {h : Heap α} {p q : Nat} (n : Node α) (hpq : p ≠ q) :
    (h.write p n).read q = h.read q := by
  simp [Heap.read, Heap.write, List.getElem?_set, hpq]

theorem read_free_same {α : Type} {h : Heap α} {p : Nat} : (h.free p).read p = none := by
  simp only [Heap.read, Heap.free, List.getElem?_set]
  by_cases hp : p < h.length <;> simp [hp]

theorem read_free_ne {α : Type} {h : Heap α} {p q : Nat} (hpq : p ≠ q) :
    (h.free p).read q = h.read q := by
  simp [Heap.read, Heap.free, List.getElem?_set, hpq]

theorem read_append_left {α : Type} {h : Heap α} {p : Nat} (c : Option (Node α))
    (hp : p < h.length) : Heap.read (h ++ [c]) p = h.read p := by
  simp [Heap.read, List.getElem?_append_left hp]

theorem read_append_new {α : Type} {h : Heap α} (n : Node α) :
    Heap.read (h ++ [some n]) h.length = some n := by
  simp [Heap.read]


/-! ## Chain segments -/

theorem headOr_none (ps : List Nat) : headOr ps none = ps.head? := by
  cases ps <;> rfl

theorem lastOr_append_cons (l : List Nat) (p : Nat) (r : List Nat) (d : Option Nat) :
    lastOr (l ++ p :: r) d = lastOr r (some p) := by
  induction l generalizing d with
  | nil => rfl
  | cons a l ih => simpa [lastOr] using ih (some a)

theorem lastOr_none (ps : List Nat) : lastOr ps none = ps.getLast? := by
  induction ps using List.reverseRecOn with
  | nil => rfl
  | append_singleton l a _ => rw [lastOr_append_cons]; simp [lastOr]

theorem seg_congr {α : Type} {h h1 : Heap α} {ps : List Nat}
    (hag : ∀ p ∈ ps, h1.read p = h.read p) {pv nx : Option Nat} (hs : seg h pv ps nx) :
    seg h1 pv ps nx := by
  induction ps generalizing pv with
  | nil => trivial
  | cons p rest ih =>
    obtain ⟨nd, hr, hp, hn, hrest⟩ := hs
    refine ⟨nd, ?_, hp, hn, ih (fun q hq => hag q (List.mem_cons_of_mem _ hq)) hrest⟩
    rw [hag p (List.mem_cons_self _ _)]; exact hr

theorem seg_split {α : Type} {h : Heap α} {l : List Nat} {p : Nat} {r : List Nat}
    {pv nx : Option Nat} (hs : seg h pv (l ++ p :: r) nx) :
    seg h pv l (some p) ∧
      ∃ nd, h.read p = some nd ∧ nd.prev = lastOr l pv ∧ nd.next = headOr r nx ∧
        seg h (some p) r nx := by
  induction l generalizing pv with
  | nil => exact ⟨trivial, hs⟩
  | cons a l ih =>
    obtain ⟨nd, hr, hp, hn, hrest⟩ := hs
    obtain ⟨h1, h2⟩ := ih hrest
    refine ⟨⟨nd, hr, hp, ?_, h1⟩, h2⟩
    cases l <;> simpa [headOr] using hn

theorem seg_join {α : Type} {h : Heap α} {l r : List Nat} {pv nx : Option Nat}
    (hl : seg h pv l (headOr r nx)) (hr : seg h (lastOr l pv) r nx) :
    seg h pv (l ++ r) nx := by
  induction l generalizing pv with
  | nil => exact hr
  | cons a l ih =>
    obtain ⟨nd, hra, hp, hn, hrest⟩ := hl
    refine ⟨nd, hra, hp, ?_, ih hrest hr⟩
    cases l <;> simpa [headOr] using hn

theorem seg_set_last_next {α : Type} {h : Heap α} {l : List Nat} {a : Nat}
    {pv x : Option Nat} (y : Option Nat) {na : Node α} (hnd : (l ++ [a]).Nodup)
    (hs : seg h pv (l ++ [a]) x) (hra : h.read a = some na) :
    seg (h.write a { na with next := y }) pv (l ++ [a]) y := by
  have hla : a ∉ l := by
    intro hm
    have := List.nodup_append.mp hnd
    exact this.2.2 hm (List.mem_singleton_self a)
  obtain ⟨hl, nd, hr, hp, -, -⟩ := seg_split hs
  have hl1 : seg (h.write a { na with next := y }) pv l (some a) :=
    seg_congr (fun q hq => read_write_ne _ (fun e : a = q => hla (e ▸ hq))) hl
  refine seg_join (r := [a]) hl1 ⟨{ na with next := y }, read_write_same _ (read_lt hra), ?_,
    rfl, trivial⟩
  rw [hra] at hr; cases hr; exact hp

theorem seg_set_first_prev {α : Type} {h : Heap α} {b : Nat} {r : List Nat}
    {x nx : Option Nat} (y : Option Nat) {nb : Node α} (hnd : (b :: r).Nodup)
    (hs : seg h x (b :: r) nx) (hrb : h.read b = some nb) :
    seg (h.write b { nb with prev := y }) y (b :: r) nx := by
  obtain ⟨nd, hr, -, hn, hrest⟩ := hs
  rw [hrb] at hr; cases hr
  refine ⟨{ nb with prev := y }, read_write_same _ (read_lt hrb), rfl, hn, ?_⟩
  exact seg_congr (fun q hq => read_write_ne _
    (fun e : b = q => (List.nodup_cons.mp hnd).1 (e ▸ hq))) hrest

theorem seg_read {α : Type} {h : Heap α} {ps : List Nat} {pv nx : Option Nat}
    (hs : seg h pv ps nx) {p : Nat} (hp : p ∈ ps) : ∃ nd, h.read p = some nd := by
  obtain ⟨l, r, rfl⟩ := List.append_of_mem hp
  obtain ⟨-, nd, hr, -⟩ := seg_split hs
  exact ⟨nd, hr⟩

theorem forward_of_seg {α : Type} {h : Heap α} {ps : List Nat} {pv : Option Nat}
    (hs : seg h pv ps none) {fuel : Nat} (hf : ps.length ≤ fuel) :
    forward h fuel ps.head? = some ps := by
  induction ps generalizing pv fuel with
  | nil => cases fuel <;> rfl
  | cons p rest ih =>
    obtain ⟨nd, hr, -, hn, hrest⟩ := hs
    cases fuel with
    | zero => simp at hf
    | succ fuel =>
      have h1 : forward h fuel rest.head? = some rest := ih hrest (by simpa using hf)
      rw [headOr_none] at hn
      simp [forward, hr, hn, h1]

theorem backward_of_seg {α : Type} {h : Heap α} {ps : List Nat} {nx : Option Nat}
    (hs : seg h none ps nx) {fuel : Nat} (hf : ps.length ≤ fuel) :
    backward h fuel ps.getLast? = some ps.reverse := by
  induction ps using List.reverseRecOn generalizing nx fuel with
  | nil => cases fuel <;> rfl
  | append_singleton l a ih =>
    obtain ⟨hl, nd, hr, hp, -, -⟩ := seg_split hs
    cases fuel with
    | zero => simp at hf
    | succ fuel =>
      have h1 : backward h fuel l.getLast? = some l.reverse := ih hl (by simpa using hf)
      rw [lastOr_none] at hp
      simp [backward, hr, hp, h1]

theorem dataAt_write {α : Type} {h : Heap α} {b : Nat} {nb : Node α} (n1 : Node α)
    (hrb : h.read b = some nb) (hd : n1.data = nb.data) (q : Nat) :
    dataAt (h.write b n1) q = dataAt h q := by
  by_cases hq : b = q
  · subst hq
    simp [dataAt, read_write_same _ (read_lt hrb), hrb, hd]
  · simp [dataAt, read_write_ne _ hq]

/-! ## Deleting a node -/

theorem delete_spec {α : Type} (s : ListState α) (l r : List Nat) (p : Nat)
    (hwf : WellFormed s.heap s.head s.tail (l ++ p :: r)) (hc : s.current = some p) :
    ∃ s1, ll_delete_node s = some s1 ∧
      WellFormed s1.heap s1.head s1.tail (l ++ r) ∧
      s1.current = lastOr l (headOr r none) ∧
      (∀ q, q ≠ p → dataAt s1.heap q = dataAt s.heap q) ∧
      s1.heap.read p = none ∧
      s1.released = s.released ++ [dataAt s.heap p] := by
  obtain ⟨hnd, hlinks, hhead, htail⟩ := hwf
  obtain ⟨hl, nd, hrp, hprev, hnext, hr⟩ := seg_split hlinks
  have hnd1 := List.nodup_append.mp hnd
  have hpl : p ∉ l := fun hm => hnd1.2.2 hm (List.mem_cons_self _ _)
  have hpr : p ∉ r := (List.nodup_cons.mp hnd1.2.1).1
  have hrnd : r.Nodup := (List.nodup_cons.mp hnd1.2.1).2
  have hlr : ∀ q, q ∈ l → q ∉ r := fun q hq hq1 => hnd1.2.2 hq (List.mem_cons_of_mem _ hq1)
  -- the first store: `to_delete->next->prev = to_delete->prev`
  have step1 : ∃ h1, unlink_next s.heap nd none = some (h1, headOr r none) ∧
      h1.read p = some nd ∧ seg h1 (lastOr l none) r none ∧ seg h1 none l (some p) ∧
      (∀ q, dataAt h1 q = dataAt s.heap q) := by
    cases r with
    | nil =>
      refine ⟨s.heap, ?_, hrp, trivial, hl, fun _ => rfl⟩
      simp [unlink_next, hnext, headOr]
    | cons b r1 =>
      obtain ⟨nb, hrb, hbp, hbn, hbrest⟩ := hr
      have hbp1 : b ≠ p := fun e => hpr (e ▸ List.mem_cons_self _ _)
      refine ⟨s.heap.write b { nb with prev := nd.prev }, ?_, ?_, ?_, ?_, ?_⟩
      · simp [unlink_next, hnext, headOr, hrb]
      · rw [read_write_ne _ hbp1]; exact hrp
      · rw [← hprev]
        exact seg_set_first_prev _ hrnd ⟨nb, hrb, hbp, hbn, hbrest⟩ hrb
      · exact seg_congr (fun q hq => read_write_ne _
          (fun e : b = q => hlr q hq (e ▸ List.mem_cons_self _ _))) hl
      · intro q; exact dataAt_write { nb with prev := nd.prev } hrb rfl q
  obtain ⟨h1, e1, hrp1, hr1, hl1, hd1⟩ := step1
  -- the second store: `to_delete->prev->next = to_delete->next`
  have step2 : ∃ h2, unlink_prev h1 nd (headOr r none) =
        some (h2, lastOr l (headOr r none)) ∧
      h2.read p = some nd ∧ seg h2 (lastOr l none) r none ∧ seg h2 none l (headOr r none) ∧
      (∀ q, dataAt h2 q = dataAt s.heap q) := by
    induction l using List.reverseRecOn with
    | nil =>
      refine ⟨h1, ?_, hrp1, hr1, trivial, hd1⟩
      simp [unlink_prev, hprev, lastOr]
    | append_singleton l1 a _ =>
      obtain ⟨-, na, hra, -, -, -⟩ := seg_split hl1
      have hap : a ≠ p := fun e => hpl (e ▸ List.mem_append_right _ (List.mem_singleton_self a))
      have har : a ∉ r := hlr a (List.mem_append_right _ (List.mem_singleton_self a))
      have hlast : ∀ d, lastOr (l1 ++ [a]) d = some a := fun d => by
        rw [lastOr_append_cons]; rfl
      refine ⟨h1.write a { na with next := nd.next }, ?_, ?_, ?_, ?_, ?_⟩
      · simp [unlink_prev, hprev, hlast, hra]
      · rw [read_write_ne _ hap]; exact hrp1
      · exact seg_congr (fun q hq => read_write_ne _
          (fun e : a = q => har (e ▸ hq))) hr1
      · rw [← hnext]
        exact seg_set_last_next _ hnd1.1 hl1 hra
      · intro q; rw [dataAt_write { na with next := nd.next } hra rfl, hd1]
  obtain ⟨h2, e2, hrp2, hr2, hl2, hd2⟩ := step2
  refine ⟨{ heap := h2.free p,
            head := if s.head = some p then nd.next else s.head,
            tail := if s.tail = some p then nd.prev else s.tail,
            current := lastOr l (headOr r none),
            released := s.released ++ [nd.data] }, ?_, ?_, rfl, ?_, read_free_same, ?_⟩
  · simp only [ll_delete_node, hc, hrp, Option.bind_eq_bind, Option.some_bind, e1, hrp1, e2,
      hrp2]
  · refine ⟨?_, ?_, ?_, ?_⟩
    · exact List.Nodup.sublist (List.Sublist.append_left (List.sublist_cons_self p r) l) hnd
    · refine seg_join ?_ ?_
      · exact seg_congr (fun q hq => read_free_ne (fun e : p = q => hpl (e ▸ hq))) hl2
      · exact seg_congr (fun q hq => read_free_ne (fun e : p = q => hpr (e ▸ hq))) hr2
    · show (if s.head = some p then nd.next else s.head) = (l ++ r).head?
      cases l with
      | nil => simp [hhead, hnext, headOr_none]
      | cons a l1 =>
        have : a ≠ p := fun e => hpl (e ▸ List.mem_cons_self _ _)
        simp [hhead, this]
    · show (if s.tail = some p then nd.prev else s.tail) = (l ++ r).getLast?
      induction r using List.reverseRecOn with
      | nil => simp [htail, hprev, lastOr_none]
      | append_singleton r1 b _ =>
        have : b ≠ p := fun e => hpr (e ▸ List.mem_append_right _ (List.mem_singleton_self b))
        have e3 : l ++ p :: (r1 ++ [b]) = (l ++ p :: r1) ++ [b] := by simp
        have e4 : l ++ (r1 ++ [b]) = (l ++ r1) ++ [b] := by simp
        rw [htail, e3, e4, List.getLast?_append, List.getLast?_append]
        simp [this]
  · intro q hq
    show dataAt (h2.free p) q = dataAt s.heap q
    rw [← hd2 q]
    simp [dataAt, read_free_ne (Ne.symm hq)]
  · show s.released ++ [nd.data] = s.released ++ [dataAt s.heap p]
    simp [dataAt, hrp]

theorem lastOr_eq (l : List Nat) (d : Option Nat) :
    lastOr l d = (match l.getLast? with
      | some a => some a
      | none => d) := by
  induction l using List.reverseRecOn with
  | nil => rfl
  | append_singleton l a _ => rw [lastOr_append_cons]; simp [lastOr]

theorem threeNodes_wf : WellFormed threeNodes (some 0) (some 2) [0, 1, 2] :=
  ⟨by decide, ⟨_, rfl, rfl, rfl, _, rfl, rfl, rfl, _, rfl, rfl, rfl, trivial⟩, rfl, rfl⟩

/-- C9, as stated, fails: deleting the middle node of the three-node collection 0, 1, 2 leaves
the cursor on node 0, the backward neighbour, although the forward neighbour 2 exists. -/
theorem ll_delete_node_cursor_not_forward :
    WellFormed threeNodes (some 0) (some 2) ([0] ++ 1 :: [2]) ∧
    (ll_delete_node (threeNodesAt 1)).map (fun s => s.current) = some (some 0) ∧
    (threeNodes.read 1).map (fun nd => nd.next) = some (some 2) :=
  ⟨threeNodes_wf, by decide, by decide⟩

/-- C9 (amended): on a well-formed collection `l ++ p :: r` with the cursor on `p`,
`ll_delete_node` returns, and afterwards the cursor references the removed node's former
backward neighbour (the last node of `l`, the removed node's `prev`) if one existed, otherwise
its former forward neighbour (the first node of `r`, the removed node's `next`), otherwise it
is empty. -/
theorem ll_delete_node_cursor {α : Type} (s : ListState α) (l r : List Nat) (p : Nat)
    (hwf : WellFormed s.heap s.head s.tail (l ++ p :: r)) (hc : s.current = some p) :
    ∃ s1 nd, ll_delete_node s = some s1 ∧ s.heap.read p = some nd ∧
      nd.prev = l.getLast? ∧ nd.next = r.head? ∧
      s1.current = (match l.getLast? with
        | some a => some a
        | none => r.head?) := by
  obtain ⟨s1, h1, -, h3, -⟩ := delete_spec s l r p hwf hc
  obtain ⟨-, nd, hrp, hprev, hnext, -⟩ := seg_split hwf.links
  refine ⟨s1, nd, h1, hrp, ?_, ?_, ?_⟩
  · rw [hprev, lastOr_none]
  · rw [hnext, headOr_none]
  · rw [h3, lastOr_eq, headOr_none]

theorem ll_delete_node_cursor_witness :
    ∃ s1 nd, ll_delete_node (threeNodesAt 1) = some s1 ∧
      threeNodes.read 1 = some nd ∧ nd.prev = [0].getLast? ∧ nd.next = [2].head? ∧
      s1.current = (match [0].getLast? with
        | some a => some a
        | none => [2].head?) :=
  ll_delete_node_cursor (threeNodesAt 1) [0] [2] 1 threeNodes_wf rfl

/-- C10: on a well-formed collection `l ++ p :: r` of at least two nodes with the cursor on
`p`, `ll_delete_node` returns; when `p` was the head (`l` empty) the new head is the former
second node and its backward reference is empty; when `p` was the tail (`r` empty) the new tail
is the former penultimate node and its forward reference is empty; in every case the forward
traversal from the new head visits `l ++ r`, whose elements are the original element sequence
with the element at the position of `p` erased, and the backward traversal from the new tail
visits the same nodes in reverse. -/
theorem ll_delete_node_ends {α : Type} (s : ListState α) (l r : List Nat) (p : Nat)
    (fuel : Nat) (hwf : WellFormed s.heap s.head s.tail (l ++ p :: r))
    (hc : s.current = some p) (htwo : 2 ≤ (l ++ p :: r).length)
    (hfuel : (l ++ r).length ≤ fuel) :
    ∃ s1, ll_delete_node s = some s1 ∧
      (l = [] → ∃ b nb, r.head? = some b ∧ s1.head = some b ∧
        s1.heap.read b = some nb ∧ nb.prev = none) ∧
      (r = [] → ∃ a na, l.getLast? = some a ∧ s1.tail = some a ∧
        s1.heap.read a = some na ∧ na.next = none) ∧
      forward s1.heap fuel s1.head = some (l ++ r) ∧
      backward s1.heap fuel s1.tail = some (l ++ r).reverse ∧
      (l ++ r).map (dataAt s1.heap) =
        ((l ++ p :: r).map (dataAt s.heap)).eraseIdx l.length := by
  obtain ⟨s1, h1, hwf1, -, hdata, -, -⟩ := delete_spec s l r p hwf hc
  have hpl : p ∉ l := fun hm =>
    (List.nodup_append.mp hwf.nodup).2.2 hm (List.mem_cons_self _ _)
  have hpr : p ∉ r := (List.nodup_cons.mp (List.nodup_append.mp hwf.nodup).2.1).1
  refine ⟨s1, h1, ?_, ?_, ?_, ?_, ?_⟩
  · rintro rfl
    cases r with
    | nil => simp at htwo
    | cons b r1 =>
      obtain ⟨nb, hrb, hbp, -⟩ := hwf1.links
      exact ⟨b, nb, rfl, hwf1.head_eq, hrb, hbp⟩
  · rintro rfl
    induction l using List.reverseRecOn with
    | nil => simp at htwo
    | append_singleton l1 a _ =>
      have hl := hwf1.links
      rw [List.append_nil] at hl
      obtain ⟨-, na, hra, -, hnext, -⟩ := seg_split hl
      refine ⟨a, na, by simp, ?_, hra, hnext⟩
      rw [hwf1.tail_eq]; simp
  · rw [hwf1.head_eq]; exact forward_of_seg hwf1.links hfuel
  · rw [hwf1.tail_eq]; exact backward_of_seg hwf1.links hfuel
  · have e1 : ((l ++ p :: r).map (dataAt s.heap)).eraseIdx l.length =
        (l ++ r).map (dataAt s.heap) := by
      rw [List.map_append, List.map_cons,
        List.eraseIdx_append_of_length_le (by simp)]
      simp
    rw [e1]
    apply List.map_congr_left
    intro q hq
    apply hdata
    rintro rfl
    rcases List.mem_append.mp hq with h | h
    · exact hpl h
    · exact hpr h

theorem ll_delete_node_ends_witness :
    ∃ s1, ll_delete_node (threeNodesAt 0) = some s1 ∧
      (([] : List Nat) = [] → ∃ b nb, [1, 2].head? = some b ∧ s1.head = some b ∧
        s1.heap.read b = some nb ∧ nb.prev = none) ∧
      ([1, 2] = [] → ∃ a na, ([] : List Nat).getLast? = some a ∧ s1.tail = some a ∧
        s1.heap.read a = some na ∧ na.next = none) ∧
      forward s1.heap 2 s1.head = some ([] ++ [1, 2]) ∧
      backward s1.heap 2 s1.tail = some ([] ++ [1, 2]).reverse ∧
      ([] ++ [1, 2]).map (dataAt s1.heap) =
        (([] ++ 0 :: [1, 2]).map (dataAt threeNodes)).eraseIdx ([] : List Nat).length :=
  ll_delete_node_ends (threeNodesAt 0) [] [1, 2] 0 2 threeNodes_wf rfl (by decide) (by decide)

/-! ## The encoder -/

theorem append_fragment_ok {α : Type} {malloc_ok : Nat → Bool}
    (hm : ∀ n, malloc_ok n = true) {serializer : json_serializer α} {data : Option α}
    {f : List Char} (hser : serializer data 512 = some f) (hlen : f.length ≤ 511)
    {st : EncState} (hcap : st.used_size + 1 ≤ st.total_size) (hbig : 2048 ≤ st.total_size)
    (hfit : ∀ w ∈ st.writes, w.fits) :
    ∃ st1, append_fragment malloc_ok serializer data st = some st1 ∧
      st1.json_str = st.json_str ++ f ∧ st1.used_size + 2 ≤ st1.total_size ∧
      2048 ≤ st1.total_size ∧ ∀ w ∈ st1.writes, w.fits := by
  unfold append_fragment
  rw [hser]
  by_cases hgrow : st.used_size + f.length + 2 > st.total_size
  · refine ⟨{ EncState.strcat { st with total_size := st.total_size * 2 } f with
        used_size := st.used_size + f.length },
      by simp only [hgrow, if_true, EncState.realloc, hm], rfl, ?_, ?_, ?_⟩
    · show st.used_size + f.length + 2 ≤ st.total_size * 2
      omega
    · show 2048 ≤ st.total_size * 2
      omega
    · intro w hw
      simp only [EncState.strcat, List.mem_append, List.mem_singleton] at hw
      rcases hw with hw | rfl
      · exact hfit w hw
      · show st.used_size + f.length + 1 ≤ st.total_size * 2
        omega
  · refine ⟨{ st.strcat f with used_size := st.used_size + f.length },
      by simp only [hgrow, if_false], rfl, ?_, hbig, ?_⟩
    · show st.used_size + f.length + 2 ≤ st.total_size
      omega
    · intro w hw
      simp only [EncState.strcat, List.mem_append, List.mem_singleton] at hw
      rcases hw with hw | rfl
      · exact hfit w hw
      · show st.used_size + f.length + 1 ≤ st.total_size
        omega

theorem append_separator_ok (malloc_ok : Nat → Bool) {st : EncState}
    (hcap : st.used_size + 2 ≤ st.total_size) (hfit : ∀ w ∈ st.writes, w.fits) :
    ∃ st1, append_separator malloc_ok st = some st1 ∧
      st1.json_str = st.json_str ++ [','] ∧ st1.used_size + 1 ≤ st1.total_size ∧
      st1.total_size = st.total_size ∧ ∀ w ∈ st1.writes, w.fits := by
  unfold append_separator
  have hno : ¬ st.used_size + 1 > st.total_size := by omega
  refine ⟨{ st.strcat [','] with used_size := st.used_size + 1 },
    by simp only [hno, if_false], rfl, ?_, rfl, ?_⟩
  · show st.used_size + 1 + 1 ≤ st.total_size
    omega
  · intro w hw
    simp only [EncState.strcat, List.mem_append, List.mem_singleton] at hw
    rcases hw with hw | rfl
    · exact hfit w hw
    · show st.used_size + [','].length + 1 ≤ st.total_size
      simp only [List.length_singleton]; omega

theorem close_array_ok (malloc_ok : Nat → Bool) {st : EncState}
    (hcap : st.used_size + 2 ≤ st.total_size) (hfit : ∀ w ∈ st.writes, w.fits) :
    ∃ ws, close_array malloc_ok st =
        { ret := 0, json_str := some (st.json_str ++ [']']), writes := ws } ∧
      ∀ w ∈ ws, w.fits := by
  unfold close_array
  have hno : ¬ st.used_size + 1 > st.total_size := by omega
  refine ⟨_, by simp only [hno, if_false]; rfl, ?_⟩
  intro w hw
  simp only [EncState.strcat, List.mem_append, List.mem_singleton] at hw
  rcases hw with hw | rfl
  · exact hfit w hw
  · show st.used_size + [']'].length + 1 ≤ st.total_size
    simp only [List.length_singleton]; omega

theorem dataAt_of_read {α : Type} {h : Heap α} {p : Nat} {nd : Node α}
    (hr : h.read p = some nd) : dataAt h p = nd.data := by
  simp [dataAt, hr]

theorem to_json_loop_ok {α : Type} {malloc_ok : Nat → Bool}
    (hm : ∀ n, malloc_ok n = true) (serializer : json_serializer α) (h : Heap α) :
    ∀ (ps : List Nat) (p : Nat) (pv : Option Nat) (frags : List (List Char)) (fuel : Nat)
      (st : EncState), seg h pv (p :: ps) none → (p :: ps).length ≤ fuel →
      (p :: ps).map (fun q => serializer (dataAt h q) 512) = frags.map some →
      (∀ f ∈ frags, f.length ≤ 511) →
      st.used_size + 1 ≤ st.total_size → 2048 ≤ st.total_size →
      (∀ w ∈ st.writes, w.fits) →
      ∃ ws, to_json_loop malloc_ok serializer h fuel (some p) st =
          some { ret := 0, json_str := some (st.json_str ++ join_fragments frags ++ [']']),
                 writes := ws } ∧
        ∀ w ∈ ws, w.fits := by
  intro ps
  induction ps with
  | nil =>
    intro p pv frags fuel st hs hf hfr hlen hcap hbig hfit
    obtain ⟨nd, hr, -, hn, -⟩ := hs
    cases fuel with
    | zero => simp at hf
    | succ fuel =>
      cases frags with
      | nil => simp at hfr
      | cons f frags1 =>
        obtain ⟨hfr0, hfr1⟩ := List.cons.inj hfr
        obtain rfl : frags1 = [] := by simpa using hfr1.symm
        simp only [dataAt_of_read hr] at hfr0
        obtain ⟨st1, e1, hj, hc1, -, hf1⟩ :=
          append_fragment_ok hm hfr0 (hlen f (List.mem_singleton_self f)) hcap hbig hfit
        obtain ⟨ws, e2, hws⟩ := close_array_ok malloc_ok hc1 hf1
        refine ⟨ws, ?_, hws⟩
        simp only [to_json_loop, hr, Option.bind_eq_bind, Option.some_bind, e1]
        simp only [headOr] at hn
        rw [hn]
        simp only [to_json_loop, e2, hj, join_fragments]
  | cons q ps ih =>
    intro p pv frags fuel st hs hf hfr hlen hcap hbig hfit
    obtain ⟨nd, hr, -, hn, hrest⟩ := hs
    cases fuel with
    | zero => simp at hf
    | succ fuel =>
      cases frags with
      | nil => simp at hfr
      | cons f frags0 =>
        obtain ⟨hfr0, hfr1⟩ := List.cons.inj hfr
        obtain ⟨g, frags1, rfl⟩ : ∃ g frags1, frags0 = g :: frags1 := by
          cases frags0 with
          | nil => simp at hfr1
          | cons g frags1 => exact ⟨g, frags1, rfl⟩
        simp only [dataAt_of_read hr] at hfr0
        obtain ⟨st1, e1, hj, hc1, hb1, hf1⟩ :=
          append_fragment_ok hm hfr0 (hlen f (List.mem_cons_self _ _)) hcap hbig hfit
        obtain ⟨st2, e2, hj2, hc2, ht2, hf2⟩ := append_separator_ok malloc_ok hc1 hf1
        obtain ⟨ws, e3, hws⟩ := ih q (some p) (g :: frags1) fuel st2 hrest
          (by simpa using hf) hfr1 (fun x hx => hlen x (List.mem_cons_of_mem _ hx)) hc2
          (by omega) hf2
        refine ⟨ws, ?_, hws⟩
        simp only [to_json_loop, hr, Option.bind_eq_bind, Option.some_bind, e1]
        simp only [headOr] at hn
        rw [hn]
        simp only [e2, e3, hj2, hj, join_fragments, List.append_assoc, List.cons_append,
          List.nil_append]

theorem length_join_fragments (f : List Char) (frags : List (List Char)) :
    (join_fragments (f :: frags)).length =
      ((f :: frags).map List.length).sum + ((f :: frags).length - 1) := by
  induction frags generalizing f with
  | nil => simp [join_fragments]
  | cons g rest ih =>
    simp only [join_fragments, List.length_append, List.length_cons, ih g, List.map_cons,
      List.sum_cons]
    omega

theorem fiveRecords_wf : WellFormed fiveRecords (some 0) (some 4) [0, 1, 2, 3, 4] :=
  ⟨by decide, ⟨_, rfl, rfl, rfl, _, rfl, rfl, rfl, _, rfl, rfl, rfl, _, rfl, rfl, rfl,
    _, rfl, rfl, rfl, trivial⟩, rfl, rfl⟩

theorem sixRecords_wf : WellFormed sixRecords (some 0) (some 5) [0, 1, 2, 3, 4, 5] :=
  ⟨by decide, ⟨_, rfl, rfl, rfl, _, rfl, rfl, rfl, _, rfl, rfl, rfl, _, rfl, rfl, rfl,
    _, rfl, rfl, rfl, _, rfl, rfl, rfl, trivial⟩, rfl, rfl⟩

/-- C2: for a well-formed non-empty collection `ps` on each element of which the serializer
succeeds, with the fragments `frags` (each at most 511 characters, as the 512-byte element
buffer forces), `ll_to_json_string` returns 0 when allocation succeeds and the text is exactly
the reference concatenation: the opening bracket, the fragments in forward order separated by
single commas, the closing bracket.  Its length is the sum of the fragment lengths plus one
separator less than there are elements plus 2, whatever that length is, and every append lay
inside the buffer. -/
theorem ll_to_json_string_exact {α : Type} (malloc_ok : Nat → Bool)
    (serializer : json_serializer α) (h : Heap α) (head tail : Option Nat) (ps : List Nat)
    (frags : List (List Char)) (fuel : Nat) (hm : ∀ n, malloc_ok n = true)
    (hwf : WellFormed h head tail ps) (hne : ps ≠ []) (hfuel : ps.length ≤ fuel)
    (hfr : ps.map (fun q => serializer (dataAt h q) 512) = frags.map some)
    (hlen : ∀ f ∈ frags, f.length ≤ 511) :
    ∃ ws, ll_to_json_string malloc_ok serializer h fuel head =
        some { ret := 0, json_str := some (reference_text frags), writes := ws } ∧
      (∀ w ∈ ws, w.fits) ∧
      (reference_text frags).length =
        (frags.map List.length).sum + (ps.length - 1) + 2 := by
  cases ps with
  | nil => exact absurd rfl hne
  | cons p rest =>
    have hfl : frags.length = (p :: rest).length := by
      have := congrArg List.length hfr
      simpa using this.symm
    obtain ⟨ws, e, hws⟩ := to_json_loop_ok hm serializer h rest p none frags fuel
      { total_size := 2048, used_size := 1, json_str := ['['],
        writes := [{ used_size := 0, len := 1, total_size := 2048 }] }
      hwf.links hfuel hfr hlen (by decide) (by decide)
      (by intro w hw; rw [List.mem_singleton.mp hw]; decide)
    refine ⟨ws, ?_, hws, ?_⟩
    · rw [hwf.head_eq]
      simp only [ll_to_json_string, List.head?_cons, hm, if_true, e, reference_text,
        List.cons_append, List.nil_append]
    · cases frags with
      | nil => simp at hfl
      | cons f frags1 =>
        simp only [reference_text, List.length_cons, List.length_append, List.length_nil,
          length_join_fragments]
        simp only [List.length_cons] at hfl
        omega

set_option maxRecDepth 100000 in
theorem ll_to_json_string_exact_witness :
    ∃ ws, ll_to_json_string always serialize_record fiveRecords 5 (some 0) =
        some { ret := 0,
               json_str := some (reference_text
                 (List.replicate 5 (record_text (recordOf 463)))),
               writes := ws } ∧
      (∀ w ∈ ws, w.fits) ∧
      (reference_text (List.replicate 5 (record_text (recordOf 463)))).length =
        ((List.replicate 5 (record_text (recordOf 463))).map List.length).sum +
          ([0, 1, 2, 3, 4].length - 1) + 2 :=
  ll_to_json_string_exact always serialize_record fiveRecords (some 0) (some 4)
    [0, 1, 2, 3, 4] (List.replicate 5 (record_text (recordOf 463))) 5 (fun _ => rfl)
    fiveRecords_wf (by decide) (by decide) (by decide) (by decide)

/-- C3, as stated, fails: encoding the empty diary returns -1 and sets no text, so the
literal text of an empty array is not produced. -/
theorem ll_to_json_string_empty_no_text :
    ll_to_json_string always serialize_record [] 1 none =
      some { ret := -1, json_str := none, writes := [] } ∧
    ¬ ∃ ws, ll_to_json_string always serialize_record [] 1 none =
      some { ret := 0, json_str := some ['[', ']'], writes := ws } := by
  refine ⟨rfl, ?_⟩
  rintro ⟨ws, hws⟩
  simp [ll_to_json_string] at hws

/-- C3 (amended): encoding an empty collection (`head` empty) with `ll_to_json_string` fails:
it returns -1 without allocating or writing any text, whatever the serializer, the memory
and the allocator. -/
theorem ll_to_json_string_empty_fails {α : Type} (malloc_ok : Nat → Bool)
    (serializer : json_serializer α) (h : Heap α) (fuel : Nat) :
    ll_to_json_string malloc_ok serializer h fuel none =
      some { ret := -1, json_str := none, writes := [] } :=
  rfl

set_option maxRecDepth 100000 in
/-- C4 at its failing input: the one-record diary whose record has a note of 500 characters.
`serialize_record` fails on the record, and `ll_to_json_string` still returns 0, with a text
that holds no fragment for it. -/
theorem ll_to_json_string_drops_failed_element :
    WellFormed longDiary (some 0) (some 0) [0] ∧
    serialize_record (dataAt longDiary 0) 512 = none ∧
    (ll_to_json_string always serialize_record longDiary 1 (some 0)).map
      (fun out => (out.ret, out.json_str)) = some (0, some ['[', ']']) :=
  ⟨⟨by decide, ⟨_, rfl, rfl, rfl, trivial⟩, rfl, rfl⟩, by decide, by decide⟩

set_option maxRecDepth 100000 in
/-- C5 at its failing input: the six-record diary whose fifth record cannot be encoded.  The
call returns 0, and the separator appended after the fifth record is written with
`used_size = 2047` into a buffer of 2048 bytes: the comma takes the last byte and the
terminator falls outside. -/
theorem ll_to_json_string_separator_overflow :
    WellFormed sixRecords (some 0) (some 5) [0, 1, 2, 3, 4, 5] ∧
    (ll_to_json_string always serialize_record sixRecords 6 (some 0)).map
      (fun out => (out.ret, out.writes)) =
      some (0, [{ used_size := 0, len := 1, total_size := 2048 },
                { used_size := 1, len := 511, total_size := 2048 },
                { used_size := 512, len := 1, total_size := 2048 },
                { used_size := 513, len := 511, total_size := 2048 },
                { used_size := 1024, len := 1, total_size := 2048 },
                { used_size := 1025, len := 510, total_size := 2048 },
                { used_size := 1535, len := 1, total_size := 2048 },
                { used_size := 1536, len := 510, total_size := 2048 },
                { used_size := 2046, len := 1, total_size := 2048 },
                { used_size := 2047, len := 1, total_size := 2048 },
                { used_size := 2048, len := 50, total_size := 4096 },
                { used_size := 2098, len := 1, total_size := 4096 }]) ∧
    ¬ Write.fits { used_size := 2047, len := 1, total_size := 2048 } :=
  ⟨sixRecords_wf, by decide, by decide⟩

/-! ## The scan of the decoder -/

theorem skip_to_brace_of_not_mem {s : List Char} (hs : '{' ∉ s) : skip_to_brace s = [] := by
  induction s with
  | nil => rfl
  | cons c rest ih =>
    have hc : c ≠ '{' := fun e => hs (e ▸ List.mem_cons_self _ _)
    simp only [skip_to_brace, hc, if_false]
    exact ih (fun hm => hs (List.mem_cons_of_mem _ hm))

theorem skip_to_brace_spec (s : List Char) :
    skip_to_brace s = [] ∨ ∃ rest, skip_to_brace s = '{' :: rest := by
  induction s with
  | nil => exact Or.inl rfl
  | cons c rest ih =>
    by_cases hc : c = '{'
    · exact Or.inr ⟨rest, by simp [skip_to_brace, hc]⟩
    · simpa [skip_to_brace, hc] using ih

theorem skip_to_brace_length (s : List Char) : (skip_to_brace s).length ≤ s.length := by
  induction s with
  | nil => simp [skip_to_brace]
  | cons c rest ih =>
    by_cases hc : c = '{'
    · simp [skip_to_brace, hc]
    · simp only [skip_to_brace, hc, if_false, List.length_cons]; omega

theorem open_depth_skip (s : List Char) :
    open_depth 0 (skip_to_brace s) = open_depth 0 s := by
  induction s with
  | nil => rfl
  | cons c rest ih =>
    by_cases hc : c = '{'
    · simp [skip_to_brace, hc]
    · by_cases hc1 : c = '}'
      · simp only [skip_to_brace, hc, if_false, open_depth, hc1, if_true]; simpa using ih
      · simp only [skip_to_brace, hc, if_false, open_depth, hc1]; exact ih

theorem brace_step_spec (d : Nat) (hd : 1 ≤ d) (c : Char) (rest : List Char) :
    ∃ d1 : Nat, brace_step (d : Int) c = (d1 : Int) ∧
      open_depth d (c :: rest) = open_depth d1 rest := by
  by_cases hc : c = '{'
  · exact ⟨d + 1, by simp [brace_step, hc], by simp [open_depth, hc]⟩
  · by_cases hc1 : c = '}'
    · refine ⟨d - 1, ?_, by simp [open_depth, hc1]⟩
      subst hc1
      have e : brace_step (d : Int) '}' = (d : Int) - 1 := rfl
      rw [e]
      omega
    · exact ⟨d, by simp [brace_step, hc, hc1], by simp [open_depth, hc, hc1]⟩

theorem brace_loop_spec (s : List Char) :
    ∀ d : Nat, 1 ≤ d →
      0 ≤ (brace_loop (d : Int) s).1 ∧
      open_depth d s = open_depth (brace_loop (d : Int) s).1.toNat (brace_loop (d : Int) s).2 ∧
      ((brace_loop (d : Int) s).1 ≠ 0 → (brace_loop (d : Int) s).2 = []) ∧
      (brace_loop (d : Int) s).2.length ≤ s.length := by
  induction s with
  | nil =>
    intro d _
    simp [brace_loop, open_depth]
  | cons c rest ih =>
    intro d hd
    obtain ⟨d1, e1, e2⟩ := brace_step_spec d hd c rest
    rw [e2]
    simp only [brace_loop, e1, List.length_cons]
    by_cases hgo : (d1 : Int) > 0 ∧ rest ≠ []
    · rw [if_pos hgo]
      have h1 := ih d1 (by omega)
      exact ⟨h1.1, h1.2.1, h1.2.2.1, by omega⟩
    · rw [if_neg hgo]
      refine ⟨by simp, by simp, ?_, by simp⟩
      intro hne
      by_contra hr
      exact hgo ⟨by simpa using Nat.pos_of_ne_zero (by simpa using hne), hr⟩

theorem brace_loop_start (rest : List Char) :
    0 ≤ (brace_loop 0 ('{' :: rest)).1 ∧
    open_depth 0 ('{' :: rest) =
      open_depth (brace_loop 0 ('{' :: rest)).1.toNat (brace_loop 0 ('{' :: rest)).2 ∧
    ((brace_loop 0 ('{' :: rest)).1 ≠ 0 → (brace_loop 0 ('{' :: rest)).2 = []) ∧
    (brace_loop 0 ('{' :: rest)).2.length ≤ rest.length := by
  have hs : brace_step 0 '{' = 1 := rfl
  by_cases hr : rest = []
  · subst hr
    simp [brace_loop, hs, open_depth]
  · have h1 := brace_loop_spec rest 1 (le_refl 1)
    simp only [brace_loop, hs, ne_eq, hr, not_false_eq_true, and_true, open_depth, if_true]
    simpa using h1

/-- What `next_object` returns, in terms of the text. -/
theorem next_object_spec (ptr : List Char) :
    (next_object ptr = Scan.done ∧ open_depth 0 ptr = 0) ∨
    (next_object ptr = Scan.mismatch ∧ 0 < open_depth 0 ptr) ∨
    (∃ obj ptr1, next_object ptr = Scan.object obj obj.length ptr1 ∧
      ptr1.length < ptr.length ∧ open_depth 0 ptr1 = open_depth 0 ptr) := by
  rcases skip_to_brace_spec ptr with h0 | ⟨rest, h1⟩
  · left
    refine ⟨by simp [next_object, h0], ?_⟩
    rw [← open_depth_skip, h0]; rfl
  · right
    have hlen := skip_to_brace_length ptr
    have hd := open_depth_skip ptr
    rw [h1] at hlen hd
    obtain ⟨b1, b2, b3, b4⟩ := brace_loop_start rest
    by_cases hz : (brace_loop 0 ('{' :: rest)).1 = 0
    · right
      refine ⟨('{' :: rest).take (('{' :: rest).length - (brace_loop 0 ('{' :: rest)).2.length),
        (brace_loop 0 ('{' :: rest)).2, ?_, ?_, ?_⟩
      · simp only [next_object, h1, hz, ne_eq, not_true_eq_false, if_false]
        congr 1
        simp only [List.length_take, List.length_cons]
        omega
      · simp only [List.length_cons] at hlen; omega
      · rw [← hd, b2, hz]; rfl
    · left
      refine ⟨by simp [next_object, h1, hz], ?_⟩
      rw [← hd, b2, b3 hz]
      simp only [open_depth]
      omega

/-! ## Storing a decoded element -/

theorem seg_lt {α : Type} {h : Heap α} {ps : List Nat} {pv nx : Option Nat}
    (hs : seg h pv ps nx) {p : Nat} (hp : p ∈ ps) : p < h.length := by
  obtain ⟨nd, hr⟩ := seg_read hs hp
  exact read_lt hr

theorem dataAt_append_left {α : Type} {h : Heap α} {p : Nat} (c : Option (Node α))
    (hp : p < h.length) : dataAt (h ++ [c]) p = dataAt h p := by
  simp [dataAt, read_append_left c hp]

theorem link_tail_wf {α : Type} {h : Heap α} {head tail : Option Nat} {ps : List Nat}
    (hwf : WellFormed h head tail ps) (data : Option α) :
    ∃ h2 head1 tail1,
      link_tail (h ++ [some { data := data, prev := none, next := none }]) head tail h.length =
        some (h2, head1, tail1) ∧
      WellFormed h2 head1 tail1 (ps ++ [h.length]) ∧ dataAt h2 h.length = data ∧
      ∀ p, p < h.length → dataAt h2 p = dataAt h p := by
  have hfresh : h.length ∉ ps := fun hm => Nat.lt_irrefl _ (seg_lt hwf.links hm)
  have hnd : (ps ++ [h.length]).Nodup := by
    refine List.nodup_append.mpr ⟨hwf.nodup, List.nodup_singleton _, ?_⟩
    intro x hx hx1
    rw [List.mem_singleton.mp hx1] at hx
    exact hfresh hx
  induction ps using List.reverseRecOn with
  | nil =>
    have hh : head = none := hwf.head_eq
    subst hh
    refine ⟨_, _, _, rfl, ⟨hnd, ⟨_, read_append_new _, rfl, rfl, trivial⟩, rfl, rfl⟩, ?_, ?_⟩
    · simp [dataAt, read_append_new]
    · intro p hp; exact dataAt_append_left _ hp
  | append_singleton l a _ =>
    obtain ⟨x, hx⟩ : ∃ x, head = some x := by
      rw [hwf.head_eq]
      cases l <;> simp
    have ht : tail = some a := by rw [hwf.tail_eq]; simp
    subst ht
    obtain ⟨-, na, hra, -, -, -⟩ := seg_split hwf.links
    have hal : a < h.length := read_lt hra
    have hane : a ≠ h.length := by omega
    have hra1 : Heap.read (h ++ [some (⟨data, none, none⟩ : Node α)]) a =
        some na := by rw [read_append_left _ hal]; exact hra
    have hlen1 : a < (h ++ [some (⟨data, none, none⟩ : Node α)]).length := by
      simp; omega
    have hrq : Heap.read ((h ++ [some (⟨data, none, none⟩ : Node α)]).write a
        { na with next := some h.length }) h.length =
        some (⟨data, none, none⟩ : Node α) := by
      rw [read_write_ne _ hane]; exact read_append_new _
    have hqlen : h.length < ((h ++ [some (⟨data, none, none⟩ : Node α)]).write a
        { na with next := some h.length }).length := by
      simp [Heap.write]
    refine ⟨((h ++ [some (⟨data, none, none⟩ : Node α)]).write a
        { na with next := some h.length }).write h.length ⟨data, some a, none⟩,
      head, some h.length, ?_, ⟨hnd, ?_, ?_, by simp⟩, ?_, ?_⟩
    · simp only [link_tail, hx, Option.bind_eq_bind, Option.some_bind, hra1, hrq]
    · refine seg_join ?_ ⟨_, read_write_same _ hqlen, ?_, rfl, trivial⟩
      · refine seg_congr (fun q hq => read_write_ne _ (fun e : h.length = q =>
          hfresh (e ▸ hq))) ?_
        have hl1 : seg (h ++ [some (⟨data, none, none⟩ : Node α)]) none (l ++ [a]) none :=
          seg_congr (fun q hq => read_append_left _ (seg_lt hwf.links hq)) hwf.links
        exact seg_set_last_next _ hwf.nodup hl1 hra1
      · rw [lastOr_append_cons]; rfl
    · rw [hwf.head_eq]; cases l <;> simp
    · simp [dataAt, read_write_same _ hqlen]
    · intro p hp
      have hpne : h.length ≠ p := by omega
      simp only [dataAt, read_write_ne _ hpne]
      have := dataAt_write { na with next := some h.length } hra1 rfl p
      simp only [dataAt] at this
      rw [this]
      exact dataAt_append_left _ hp

/-- One pass of the storing step on a well-formed collection: either it gives up, leaving
memory, head, tail and count as they were, or it appends one node holding the decoded
element. -/
theorem store_object_spec {α : Type} (malloc_ok : Nat → Bool)
    (deserializer : json_deserializer α) (data_size : Nat) {st : DecState α} {ps : List Nat}
    (hwf : WellFormed st.heap st.head st.tail ps) (obj : List Char) (n : Nat) :
    (∃ st1, store_object malloc_ok deserializer data_size st obj n = some (Step.fail st1) ∧
      st1.heap = st.heap ∧ st1.head = st.head ∧ st1.tail = st.tail ∧
      st1.length = st.length ∧
      (st1.calls = st.calls ∨ st1.calls = st.calls ++ [(obj, n)]) ∧
      (deserializer obj n = none ∨ ∃ k, malloc_ok k = false)) ∨
    (∃ st1 data, store_object malloc_ok deserializer data_size st obj n =
        some (Step.next st1) ∧
      deserializer obj n = some data ∧
      WellFormed st1.heap st1.head st1.tail (ps ++ [st.heap.length]) ∧
      dataAt st1.heap st.heap.length = some data ∧
      (∀ p, p < st.heap.length → dataAt st1.heap p = dataAt st.heap p) ∧
      st1.length = st.length + 1 ∧ st1.calls = st.calls ++ [(obj, n)]) := by
  unfold store_object
  by_cases h1 : malloc_ok (n + 1) = true
  swap
  · left
    exact ⟨st, by simp [h1], rfl, rfl, rfl, rfl, Or.inl rfl, Or.inr ⟨n + 1, by simpa using h1⟩⟩
  by_cases h2 : malloc_ok data_size = true
  swap
  · left
    exact ⟨st, by simp [h1, h2], rfl, rfl, rfl, rfl, Or.inl rfl,
      Or.inr ⟨data_size, by simpa using h2⟩⟩
  cases hd : deserializer obj n with
  | none =>
    left
    exact ⟨{ st with calls := st.calls ++ [(obj, n)] }, by simp [h1, h2],
      rfl, rfl, rfl, rfl, Or.inr rfl, Or.inl rfl⟩
  | some data =>
    by_cases h3 : malloc_ok sizeof_Node = true
    swap
    · left
      exact ⟨{ st with calls := st.calls ++ [(obj, n)] },
        by simp [h1, h2, ll_create_node, h3], rfl, rfl, rfl, rfl, Or.inr rfl,
        Or.inr ⟨sizeof_Node, by simpa using h3⟩⟩
    right
    obtain ⟨h2x, head1, tail1, e, hwf1, hq, hold⟩ := link_tail_wf hwf (some data)
    exact ⟨{ heap := h2x, head := head1, tail := tail1, length := st.length + 1,
             calls := st.calls ++ [(obj, n)] }, data,
      by simp [h1, h2, ll_create_node, h3, e], rfl, hwf1, hq, hold, rfl, rfl⟩

/-! ## The decoding loop -/

/-- The outcome of the decoding loop on a well-formed collection `ps`, for any text and any
codec and allocator behaviour: with enough fuel the loop returns 0 or -1; the collection is
then `ps` followed by new nodes `qs`, which hold the decoded first objects of the text, none of
them rejected; the old elements are untouched; the counter grew by the number of new nodes;
the deserializer was called on the first `c` objects only, `c` being the number of new nodes or
one more; and when 0 is returned every object was stored and no brace is left open. -/
theorem from_json_loop_spec {α : Type} (malloc_ok : Nat → Bool)
    (deserializer : json_deserializer α) (data_size : Nat) :
    ∀ (fuel : Nat) (ptr : List Char) (st : DecState α) (ps : List Nat),
      WellFormed st.heap st.head st.tail ps → ptr.length < fuel →
      ∃ rc st1 qs c,
        from_json_loop malloc_ok deserializer data_size fuel ptr st = some (rc, st1) ∧
        WellFormed st1.heap st1.head st1.tail (ps ++ qs) ∧
        (∀ p, p < st.heap.length → dataAt st1.heap p = dataAt st.heap p) ∧
        st.heap.length ≤ st1.heap.length ∧
        qs.length ≤ (scan_objects fuel ptr).length ∧
        qs.map (dataAt st1.heap) =
          ((scan_objects fuel ptr).take qs.length).map (fun f => deserializer f f.length) ∧
        (∀ f ∈ (scan_objects fuel ptr).take qs.length, deserializer f f.length ≠ none) ∧
        st1.length = st.length + qs.length ∧
        st1.calls = st.calls ++ ((scan_objects fuel ptr).take c).map (fun f => (f, f.length)) ∧
        qs.length ≤ c ∧ c ≤ qs.length + 1 ∧ c ≤ (scan_objects fuel ptr).length ∧
        ((rc = 0 ∧ qs.length = (scan_objects fuel ptr).length ∧ open_depth 0 ptr = 0) ∨
          rc = -1) := by
  intro fuel
  induction fuel with
  | zero => intro ptr st ps _ hf; simp at hf
  | succ fuel ih =>
    intro ptr st ps hwf hf
    rcases next_object_spec ptr with ⟨hn, hd⟩ | ⟨hn, -⟩ | ⟨obj, ptr1, hn, hlt, hd⟩
    · -- no further object
      refine ⟨0, st, [], 0, ?_, by simpa using hwf, fun _ _ => rfl, le_refl _, by simp,
        by simp, by simp, by simp, by simp, by simp, by simp, by simp,
        Or.inl ⟨rfl, by simp [scan_objects, hn], hd⟩⟩
      cases ptr with
      | nil => rfl
      | cons c0 rest => simp only [from_json_loop, hn]
    · -- mismatched braces
      refine ⟨-1, st, [], 0, ?_, by simpa using hwf, fun _ _ => rfl, le_refl _, by simp,
        by simp, by simp, by simp, by simp, by simp, by simp, by simp, Or.inr rfl⟩
      cases ptr with
      | nil => simp [next_object, skip_to_brace] at hn
      | cons c0 rest => simp only [from_json_loop, hn]
    · -- an object
      have hso : scan_objects (fuel + 1) ptr = obj :: scan_objects fuel ptr1 := by
        simp only [scan_objects, hn]
      have hloop : from_json_loop malloc_ok deserializer data_size (fuel + 1) ptr st =
          (match store_object malloc_ok deserializer data_size st obj obj.length with
          | none => none
          | some (Step.fail st1) => some (-1, st1)
          | some (Step.next st1) =>
            from_json_loop malloc_ok deserializer data_size fuel ptr1 st1) := by
        cases ptr with
        | nil => simp at hlt
        | cons c0 rest => simp only [from_json_loop, hn]
      rcases store_object_spec malloc_ok deserializer data_size hwf obj obj.length with
        ⟨st1, hs, e1, e2, e3, e4, e5, -⟩ | ⟨st1, data, hs, hdes, hwf1, hq, hold, e4, e5⟩
      · -- the pass gives up
        rw [hloop, hs, hso]
        rcases e5 with e5 | e5
        · refine ⟨-1, st1, [], 0, rfl, ?_, ?_, by rw [e1], by simp, by simp, by simp,
            by simp [e4], by simp [e5], by simp, by simp, by simp, Or.inr rfl⟩
          · rw [e1, e2, e3]; simpa using hwf
          · intro p _; rw [e1]
        · refine ⟨-1, st1, [], 1, rfl, ?_, ?_, by rw [e1], by simp, by simp, by simp,
            by simp [e4], by simp [e5], by simp, by simp, by simp, Or.inr rfl⟩
          · rw [e1, e2, e3]; simpa using hwf
          · intro p _; rw [e1]
      · -- the pass stores the element and the loop goes on
        have hlen1 : st.heap.length < st1.heap.length :=
          seg_lt hwf1.links (List.mem_append_right _ (List.mem_singleton_self _))
        obtain ⟨rc, st2, qs, c, hr, hwf2, hold2, hlen2, hk, hdata, hsome, hcount, hcalls,
          hc1, hc2, hc3, hrc⟩ := ih ptr1 st1 (ps ++ [st.heap.length]) hwf1 (by omega)
        rw [hloop, hs, hso]
        refine ⟨rc, st2, st.heap.length :: qs, c + 1, hr, by simpa using hwf2, ?_, by omega,
          by simpa using hk, ?_, ?_, ?_, ?_, by simpa using hc1, by simpa using hc2,
          by simpa using hc3, ?_⟩
        · intro p hp
          rw [hold2 p (by omega), hold p hp]
        · simp only [List.map_cons, List.length_cons, List.take_succ_cons, hdata,
            hold2 _ hlen1, hq, hdes]
        · intro f hf1
          simp only [List.length_cons, List.take_succ_cons, List.mem_cons] at hf1
          rcases hf1 with rfl | hf1
          · rw [hdes]; simp
          · exact hsome f hf1
        · rw [hcount, e4]; simp only [List.length_cons]; push_cast; ring
        · rw [hcalls, e5]; simp
        · rcases hrc with ⟨h1, h2, h3⟩ | h1
          · exact Or.inl ⟨h1, by simp [h2], by rw [← hd]; exact h3⟩
          · exact Or.inr h1

theorem emptyState_wf {α : Type} (calls : List (List Char × Nat)) (length : Int) :
    WellFormed ({ heap := [], head := none, tail := none, length := length,
                  calls := calls } : DecState α).heap none none [] :=
  ⟨List.nodup_nil, trivial, rfl, rfl⟩

/-- C6: for every text in which an opening brace is left unmatched, decoding into a
well-formed collection `ps` returns -1 (given fuel for the length of the text), whatever the
codec and the allocator do.  Afterwards head and tail describe the well-formed collection
`ps ++ qs`: the former nodes in their order with their elements untouched, followed by new
nodes that hold the decoded first complete objects of the text, none of them rejected; the
count grew by the number of new nodes.  For the text consisting of one opening brace nothing
at all is changed. -/
theorem ll_from_json_string_unmatched {α : Type} (malloc_ok : Nat → Bool)
    (deserializer : json_deserializer α) (data_size fuel : Nat) (text : List Char)
    (st : DecState α) (ps : List Nat) (hwf : WellFormed st.heap st.head st.tail ps)
    (hopen : 0 < open_depth 0 text) (hfuel : text.length < fuel) :
    ∃ st1 qs,
      ll_from_json_string malloc_ok deserializer data_size fuel text st = some (-1, st1) ∧
      WellFormed st1.heap st1.head st1.tail (ps ++ qs) ∧
      ps.map (dataAt st1.heap) = ps.map (dataAt st.heap) ∧
      qs.length ≤ (scan_objects fuel text).length ∧
      qs.map (dataAt st1.heap) =
        ((scan_objects fuel text).take qs.length).map (fun f => deserializer f f.length) ∧
      (∀ f ∈ (scan_objects fuel text).take qs.length, deserializer f f.length ≠ none) ∧
      st1.length = st.length + qs.length ∧
      (text = ['{'] → st1 = st) := by
  by_cases hsize : data_size = 0
  · refine ⟨st, [], by simp [ll_from_json_string, hsize], by simpa using hwf, rfl, by simp,
      by simp, by simp, by simp, fun _ => rfl⟩
  · obtain ⟨rc, st1, qs, c, hr, hwf1, hold, -, hk, hdata, hsome, hcount, -, -, -, -, hrc⟩ :=
      from_json_loop_spec malloc_ok deserializer data_size fuel text st ps hwf hfuel
    have hrc1 : rc = -1 := by
      rcases hrc with ⟨-, -, h0⟩ | h1
      · omega
      · exact h1
    subst hrc1
    refine ⟨st1, qs, by simp [ll_from_json_string, hsize, hr], hwf1, ?_, hk, hdata, hsome,
      hcount, ?_⟩
    · exact List.map_congr_left (fun p hp => hold p (seg_lt hwf.links hp))
    · rintro rfl
      cases fuel with
      | zero => simp at hfuel
      | succ fuel =>
        have e : from_json_loop malloc_ok deserializer data_size (fuel + 1) ['{'] st =
            some (-1, st) := by
          simp [from_json_loop, next_object, skip_to_brace, brace_loop, brace_step]
        rw [e] at hr
        simp only [Option.some.injEq, Prod.mk.injEq] at hr
        exact hr.2.symm

theorem ll_from_json_string_unmatched_witness :
    ∃ st1 qs,
      ll_from_json_string always (deserialize_record always) 16 3 ['[', '{']
        { heap := [], head := none, tail := none, length := 0, calls := [] } = some (-1, st1) ∧
      WellFormed st1.heap st1.head st1.tail ([] ++ qs) ∧
      ([] : List Nat).map (dataAt st1.heap) = ([] : List Nat).map (dataAt ([] : Heap Record)) ∧
      qs.length ≤ (scan_objects 3 ['[', '{']).length ∧
      qs.map (dataAt st1.heap) =
        ((scan_objects 3 ['[', '{']).take qs.length).map
          (fun f => deserialize_record always f f.length) ∧
      (∀ f ∈ (scan_objects 3 ['[', '{']).take qs.length,
        deserialize_record always f f.length ≠ none) ∧
      st1.length = (0 : Int) + qs.length ∧
      (['[', '{'] = ['{'] → st1 =
        { heap := [], head := none, tail := none, length := 0, calls := [] }) :=
  ll_from_json_string_unmatched always (deserialize_record always) 16 3 ['[', '{']
    { heap := [], head := none, tail := none, length := 0, calls := [] } []
    (emptyState_wf [] 0) (by decide) (by decide)

/-- C7: when the deserializer rejects the object number `j` of a text, decoding into a
well-formed collection returns -1 (given fuel for the length of the text): the new nodes `qs`
are at most `j`, they hold the decoded objects that come before the rejected one, so neither
the rejected object nor a later one is appended; and the deserializer was called on the first
`c ≤ j + 1` objects only, so nothing after the rejected object is even looked at. -/
theorem ll_from_json_string_rejected {α : Type} (malloc_ok : Nat → Bool)
    (deserializer : json_deserializer α) (data_size fuel : Nat) (text : List Char)
    (st : DecState α) (ps : List Nat) (j : Nat) (f : List Char)
    (hwf : WellFormed st.heap st.head st.tail ps) (hfuel : text.length < fuel)
    (hobj : (scan_objects fuel text)[j]? = some f) (hrej : deserializer f f.length = none) :
    ∃ st1 qs c,
      ll_from_json_string malloc_ok deserializer data_size fuel text st = some (-1, st1) ∧
      WellFormed st1.heap st1.head st1.tail (ps ++ qs) ∧
      ps.map (dataAt st1.heap) = ps.map (dataAt st.heap) ∧
      qs.length ≤ j ∧
      qs.map (dataAt st1.heap) =
        ((scan_objects fuel text).take qs.length).map (fun g => deserializer g g.length) ∧
      st1.length = st.length + qs.length ∧
      st1.calls = st.calls ++ ((scan_objects fuel text).take c).map (fun g => (g, g.length)) ∧
      c ≤ j + 1 := by
  by_cases hsize : data_size = 0
  · refine ⟨st, [], 0, by simp [ll_from_json_string, hsize], by simpa using hwf, rfl,
      by simp, by simp, by simp, by simp, by simp⟩
  · obtain ⟨rc, st1, qs, c, hr, hwf1, hold, -, hk, hdata, hsome, hcount, hcalls, -, hc2, -,
      hrc⟩ := from_json_loop_spec malloc_ok deserializer data_size fuel text st ps hwf hfuel
    have hj : j < (scan_objects fuel text).length := by
      by_contra hge
      rw [List.getElem?_eq_none (by omega)] at hobj
      cases hobj
    have hqj : qs.length ≤ j := by
      by_contra hlt
      have hmem : f ∈ (scan_objects fuel text).take qs.length := by
        rw [List.mem_iff_getElem?]
        exact ⟨j, by rw [List.getElem?_take_of_lt (by omega)]; exact hobj⟩
      exact hsome f hmem hrej
    have hrc1 : rc = -1 := by
      rcases hrc with ⟨-, h0, -⟩ | h1
      · omega
      · exact h1
    subst hrc1
    exact ⟨st1, qs, c, by simp [ll_from_json_string, hsize, hr], hwf1,
      List.map_congr_left (fun p hp => hold p (seg_lt hwf.links hp)), hqj, hdata, hcount,
      hcalls, by omega⟩

theorem ll_from_json_string_rejected_witness :
    ∃ st1 qs c,
      ll_from_json_string always (deserialize_record always) 16 5 ['[', '{', '}', ']']
        { heap := [], head := none, tail := none, length := 0, calls := [] } = some (-1, st1) ∧
      WellFormed st1.heap st1.head st1.tail ([] ++ qs) ∧
      ([] : List Nat).map (dataAt st1.heap) = ([] : List Nat).map (dataAt ([] : Heap Record)) ∧
      qs.length ≤ 0 ∧
      qs.map (dataAt st1.heap) =
        ((scan_objects 5 ['[', '{', '}', ']']).take qs.length).map
          (fun g => deserialize_record always g g.length) ∧
      st1.length = (0 : Int) + qs.length ∧
      st1.calls = [] ++ ((scan_objects 5 ['[', '{', '}', ']']).take c).map
        (fun g => (g, g.length)) ∧
      c ≤ 0 + 1 :=
  ll_from_json_string_rejected always (deserialize_record always) 16 5 ['[', '{', '}', ']']
    { heap := [], head := none, tail := none, length := 0, calls := [] } [] 0 ['{', '}']
    (emptyState_wf [] 0) (by decide) (by decide) (by decide)

/-- C8: for every text without an opening brace, `ll_from_json_string` with a non-zero element
size returns 0 and leaves the caller's variables as they were: memory, head, tail and count
are unchanged and the deserializer has not been called.  Decoding into an empty collection
thus yields an empty collection with count 0. -/
theorem ll_from_json_string_no_object {α : Type} (malloc_ok : Nat → Bool)
    (deserializer : json_deserializer α) (data_size fuel : Nat) (text : List Char)
    (st : DecState α) (hsize : data_size ≠ 0) (hno : '{' ∉ text) (hfuel : 0 < fuel) :
    ll_from_json_string malloc_ok deserializer data_size fuel text st = some (0, st) := by
  cases fuel with
  | zero => simp at hfuel
  | succ fuel =>
    cases text with
    | nil => simp [ll_from_json_string, hsize, from_json_loop]
    | cons c rest =>
      simp [ll_from_json_string, hsize, from_json_loop, next_object,
        skip_to_brace_of_not_mem hno]

theorem ll_from_json_string_no_object_witness :
    ll_from_json_string always (deserialize_record always) 16 1 ['[', ']']
      { heap := [], head := none, tail := none, length := 0, calls := [] } =
      some (0, { heap := [], head := none, tail := none, length := 0, calls := [] }) :=
  ll_from_json_string_no_object always (deserialize_record always) 16 1 ['[', ']']
    { heap := [], head := none, tail := none, length := 0, calls := [] }
    (by decide) (by decide) (by decide)

/-! ## The record codec -/

theorem digit_char_spec (d : Nat) (hd : d < 10) :
    isdigit (digit_char d) = true ∧ (digit_char d).toNat - 48 = d ∧
      isspace (digit_char d) = false ∧ digit_char d ≠ '-' ∧ digit_char d ≠ '+' ∧
      digit_char d ≠ '{' ∧ digit_char d ≠ '}' := by
  interval_cases d <;> decide

theorem dec_digits_append (fuel n : Nat) (acc rest : List Char) :
    dec_digits fuel n acc ++ rest = dec_digits fuel n (acc ++ rest) := by
  induction fuel generalizing n acc with
  | zero => rfl
  | succ fuel ih =>
    by_cases hn : n < 10
    · simp [dec_digits, hn]
    · simp only [dec_digits, hn, if_false]
      rw [ih]; rfl

theorem dec_digits_head (fuel n : Nat) (acc : List Char) (hf : n < fuel) :
    ∃ c tl, dec_digits fuel n acc = c :: tl ∧ isdigit c = true ∧ isspace c = false ∧
      c ≠ '-' ∧ c ≠ '+' := by
  induction fuel generalizing n acc with
  | zero => omega
  | succ fuel ih =>
    by_cases hn : n < 10
    · have := digit_char_spec n hn
      exact ⟨digit_char n, acc, by simp [dec_digits, hn], this.1, this.2.2.1, this.2.2.2.1,
        this.2.2.2.2.1⟩
    · simp only [dec_digits, hn, if_false]
      exact ih (n / 10) _ (by omega)

theorem dec_digits_mem (fuel n : Nat) (acc : List Char) {c : Char}
    (hc : c ∈ dec_digits fuel n acc) : (c ≠ '{' ∧ c ≠ '}') ∨ c ∈ acc := by
  induction fuel generalizing n acc with
  | zero => exact Or.inr hc
  | succ fuel ih =>
    by_cases hn : n < 10
    · simp only [dec_digits, hn, if_true, List.mem_cons] at hc
      rcases hc with rfl | hc
      · have := digit_char_spec n hn
        exact Or.inl ⟨this.2.2.2.2.2.1, this.2.2.2.2.2.2⟩
      · exact Or.inr hc
    · simp only [dec_digits, hn, if_false] at hc
      rcases ih _ _ hc with h | h
      · exact Or.inl h
      · rcases List.mem_cons.mp h with rfl | h
        · have := digit_char_spec (n % 10) (Nat.mod_lt _ (by decide))
          exact Or.inl ⟨this.2.2.2.2.2.1, this.2.2.2.2.2.2⟩
        · exact Or.inr h

theorem scan_digits_dec_digits (fuel n : Nat) (acc : List Char) (hf : n < fuel) :
    scan_digits (dec_digits fuel n acc) 0 = scan_digits acc n := by
  induction fuel generalizing n acc with
  | zero => omega
  | succ fuel ih =>
    by_cases hn : n < 10
    · have := digit_char_spec n hn
      simp [dec_digits, hn, scan_digits, this.1, this.2.1]
    · simp only [dec_digits, hn, if_false]
      rw [ih (n / 10) _ (by omega)]
      have := digit_char_spec (n % 10) (Nat.mod_lt _ (by decide))
      simp only [scan_digits, this.1, if_true, this.2.1]
      congr 1
      omega

theorem scan_digits_stop (rest : List Char) (v : Nat) (hrest : noDigitAhead rest) :
    scan_digits rest v = (v, rest) := by
  cases rest with
  | nil => rfl
  | cons c tl =>
    have : isdigit c = false := hrest c (by simp)
    simp [scan_digits, this]

theorem skip_space_of_head {c : Char} {tl : List Char} (hc : isspace c = false) :
    skip_space (c :: tl) = c :: tl := by
  simp [skip_space, hc]

theorem fmt_d_head (v : Int) (rest : List Char) :
    skip_space (fmt_d v ++ rest) = fmt_d v ++ rest := by
  cases v with
  | ofNat n =>
    obtain ⟨c, tl, e, -, hsp, -, -⟩ := dec_digits_head (n + 1) n [] (by omega)
    simp only [fmt_d, e, List.cons_append]
    exact skip_space_of_head hsp
  | negSucc n =>
    simp only [fmt_d, List.cons_append]
    exact skip_space_of_head (by decide)

theorem fmt_d_no_brace (v : Int) {c : Char} (hc : c ∈ fmt_d v) : c ≠ '{' ∧ c ≠ '}' := by
  cases v with
  | ofNat n =>
    rcases dec_digits_mem _ _ _ hc with h | h
    · exact h
    · simp at h
  | negSucc n =>
    simp only [fmt_d, List.mem_cons] at hc
    rcases hc with rfl | hc
    · decide
    · rcases dec_digits_mem _ _ _ hc with h | h
      · exact h
      · simp at h

theorem scan_sign_of_head {c : Char} {tl : List Char} (hm : c ≠ '-') (hp : c ≠ '+') :
    scan_sign (c :: tl) = (false, c :: tl) := by
  unfold scan_sign
  split
  · rename_i heq; cases heq; exact absurd rfl hm
  · rename_i heq; cases heq; exact absurd rfl hp
  · rfl

theorem scan_int_fmt_d (v : Int) (rest : List Char) (hrest : noDigitAhead rest) :
    scan_int (fmt_d v ++ rest) = some (v, rest) := by
  unfold scan_int
  rw [fmt_d_head]
  cases v with
  | ofNat n =>
    obtain ⟨c, tl, e, hdig, -, hm, hp⟩ := dec_digits_head (n + 1) n rest (by omega)
    have e1 : fmt_d (Int.ofNat n) ++ rest = c :: tl := by
      simp only [fmt_d, dec_digits_append, List.nil_append, e]
    have e2 : scan_digits (c :: tl) 0 = (n, rest) := by
      rw [← e, scan_digits_dec_digits _ _ _ (by omega), scan_digits_stop _ _ hrest]
    rw [e1, scan_sign_of_head hm hp]
    simp only [hdig, if_true, e2]
    rfl
  | negSucc n =>
    obtain ⟨c, tl, e, hdig, -, -, -⟩ := dec_digits_head (n + 2) (n + 1) rest (by omega)
    have e1 : fmt_d (Int.negSucc n) ++ rest = '-' :: c :: tl := by
      simp only [fmt_d, List.cons_append, dec_digits_append, List.nil_append, e]
    have e2 : scan_digits (c :: tl) 0 = (n + 1, rest) := by
      rw [← e, scan_digits_dec_digits _ _ _ (by omega), scan_digits_stop _ _ hrest]
    rw [e1]
    simp only [scan_sign, hdig, if_true, e2]
    rfl

theorem scan_notquote_note (note rest : List Char) (width : Nat) (hq : '"' ∉ note)
    (hw : note.length ≤ width) :
    (scan_notquote width (note ++ '"' :: rest)).1 = note := by
  induction note generalizing width with
  | nil => cases width <;> simp [scan_notquote]
  | cons c tl ih =>
    cases width with
    | zero => simp at hw
    | succ width =>
      have hc : c ≠ '"' := fun e => hq (e ▸ List.mem_cons_self _ _)
      simp only [List.cons_append, scan_notquote, hc, if_false, List.append_eq]
      rw [ih width (fun hm => hq (List.mem_cons_of_mem _ hm)) (by simpa using hw)]

theorem wrap_of_range (bits : Nat) (v : Int) (hb : 0 < bits)
    (hlo : -(2 : Int) ^ (bits - 1) ≤ v) (hhi : v < (2 : Int) ^ (bits - 1)) :
    wrap bits v = v := by
  unfold wrap
  have e : (2 : Int) ^ bits = 2 * 2 ^ (bits - 1) := by
    obtain ⟨k, rfl⟩ : ∃ k, bits = k + 1 := ⟨bits - 1, by omega⟩
    simp [pow_succ, mul_comm]
  rw [Int.emod_eq_of_lt (by omega) (by omega)]
  omega

theorem store_of_range (bits : Nat) (v : Int) (hb : 0 < bits) (hb64 : bits ≤ 64)
    (hlo : -(2 : Int) ^ (bits - 1) ≤ v) (hhi : v < (2 : Int) ^ (bits - 1)) :
    store bits v = v := by
  have hpow : (2 : Int) ^ (bits - 1) ≤ 2 ^ 63 :=
    pow_le_pow_right₀ (by norm_num) (by omega)
  have hs : strtol v = v := by
    unfold strtol
    rw [if_neg (by omega), if_neg (by omega)]
  unfold store
  rw [hs]
  exact wrap_of_range bits v hb hlo hhi

theorem skip_space_space (s : List Char) : skip_space (' ' :: s) = skip_space s := by
  simp [skip_space, isspace]

theorem skip_space_quote (s : List Char) : skip_space ('"' :: s) = '"' :: s :=
  skip_space_of_head (by decide)

theorem scan_int_fmt_d_comma (v : Int) (rest : List Char) :
    scan_int (fmt_d v ++ ',' :: rest) = some (v, ',' :: rest) :=
  scan_int_fmt_d v _ (by intro c hc; simp at hc; subst hc; decide)

/-- The text of a record, written as one list. -/
theorem record_text_eq (r : Record) :
    record_text r =
      '{' :: '"' :: 'd' :: 'a' :: 'y' :: '"' :: ':' :: ' ' :: (fmt_d r.day ++
      ',' :: ' ' :: '"' :: 'm' :: 'o' :: 'n' :: 't' :: 'h' :: '"' :: ':' :: ' ' ::
        (fmt_d r.month ++
      ',' :: ' ' :: '"' :: 'y' :: 'e' :: 'a' :: 'r' :: '"' :: ':' :: ' ' :: (fmt_d r.year ++
      ',' :: ' ' :: '"' :: 'n' :: 'o' :: 't' :: 'e' :: '"' :: ':' :: ' ' :: '"' ::
        (r.note.getD [] ++ ['"', '}'])))) := by
  simp [record_text]

theorem sscanf_record_text (r : Record) (note : List Char) (hnote : r.note = some note)
    (hne : note ≠ []) (hq : '"' ∉ note) (hlen : note.length ≤ 511) :
    sscanf_record (record_text r) =
      some (store 32 r.day, store 32 r.month, store 16 r.year, note) := by
  have hn := scan_notquote_note note ['}'] 511 hq hlen
  rw [record_text_eq, hnote]
  simp only [sscanf_record, Option.getD_some, scan_lit, if_true, Option.bind_eq_bind,
    Option.some_bind, skip_space_space, fmt_d_head, scan_int_fmt_d_comma, skip_space_quote,
    hn, hne, if_false]

theorem deserialize_record_text_of (malloc_ok : Nat → Bool) (hm : ∀ n, malloc_ok n = true)
    (r : Record) (note : List Char) (n : Nat) (hr : r.inRange) (hnote : r.note = some note)
    (hne : note ≠ []) (hq : '"' ∉ note) (hnl : note.length ≤ 511) :
    deserialize_record malloc_ok (record_text r) n = some r := by
  obtain ⟨d1, d2, m1, m2, y1, y2⟩ := hr
  simp only [deserialize_record, sscanf_record_text r note hnote hne hq hnl, hm, if_true]
  rw [store_of_range 32 r.day (by decide) (by decide) (by norm_num; omega)
      (by norm_num; omega),
    store_of_range 32 r.month (by decide) (by decide) (by norm_num; omega)
      (by norm_num; omega),
    store_of_range 16 r.year (by decide) (by decide) (by norm_num; omega)
      (by norm_num; omega),
    wrap_of_range 8 r.day (by decide) (by norm_num; omega) (by norm_num; omega),
    wrap_of_range 8 r.month (by decide) (by norm_num; omega) (by norm_num; omega)]
  cases r
  simp only at hnote
  rw [hnote]

theorem deserialize_record_text (malloc_ok : Nat → Bool) (hm : ∀ n, malloc_ok n = true)
    (r : Record) (n : Nat) (hr : r.inRange) (hc : r.codecable) :
    deserialize_record malloc_ok (record_text r) n = some r := by
  obtain ⟨note, hnote, hne, hq, -, -, hlen⟩ := hc
  have hnl : note.length ≤ 511 := by
    rw [record_text_eq, hnote] at hlen
    simp only [List.length_cons, List.length_append, Option.getD_some] at hlen
    omega
  exact deserialize_record_text_of malloc_ok hm r note n hr hnote hne hq hnl

theorem record_text_shape_of (r : Record) (note : List Char) (hnote : r.note = some note)
    (hl : '{' ∉ note) (hr : '}' ∉ note) :
    ∃ body, record_text r = '{' :: body ++ ['}'] ∧ '{' ∉ body ∧ '}' ∉ body := by
  refine ⟨['"', 'd', 'a', 'y', '"', ':', ' '] ++ fmt_d r.day ++
    [',', ' ', '"', 'm', 'o', 'n', 't', 'h', '"', ':', ' '] ++ fmt_d r.month ++
    [',', ' ', '"', 'y', 'e', 'a', 'r', '"', ':', ' '] ++ fmt_d r.year ++
    [',', ' ', '"', 'n', 'o', 't', 'e', '"', ':', ' ', '"'] ++ note ++ ['"'], ?_, ?_, ?_⟩
  · simp [record_text, hnote]
  · intro hm
    simp only [List.mem_append, List.mem_cons, List.mem_singleton, List.not_mem_nil] at hm
    rcases hm with ((((((((h | h) | h) | h) | h) | h) | h) | h) | h)
    · revert h; decide
    · exact (fmt_d_no_brace _ h).1 rfl
    · revert h; decide
    · exact (fmt_d_no_brace _ h).1 rfl
    · revert h; decide
    · exact (fmt_d_no_brace _ h).1 rfl
    · revert h; decide
    · exact hl h
    · revert h; decide
  · intro hm
    simp only [List.mem_append, List.mem_cons, List.mem_singleton, List.not_mem_nil] at hm
    rcases hm with ((((((((h | h) | h) | h) | h) | h) | h) | h) | h)
    · revert h; decide
    · exact (fmt_d_no_brace _ h).2 rfl
    · revert h; decide
    · exact (fmt_d_no_brace _ h).2 rfl
    · revert h; decide
    · exact (fmt_d_no_brace _ h).2 rfl
    · revert h; decide
    · exact hr h
    · revert h; decide

theorem record_text_shape (r : Record) (hc : r.codecable) :
    ∃ body, record_text r = '{' :: body ++ ['}'] ∧ '{' ∉ body ∧ '}' ∉ body := by
  obtain ⟨note, hnote, -, -, hl, hr, -⟩ := hc
  exact record_text_shape_of r note hnote hl hr

/-! ## The round trip -/

theorem skip_to_brace_prefix (pre rest : List Char) (hpre : '{' ∉ pre) :
    skip_to_brace (pre ++ '{' :: rest) = '{' :: rest := by
  induction pre with
  | nil => simp [skip_to_brace]
  | cons c tl ih =>
    have hc : c ≠ '{' := fun e => hpre (e ▸ List.mem_cons_self _ _)
    simp only [List.cons_append, skip_to_brace, hc, if_false]
    exact ih (fun hm => hpre (List.mem_cons_of_mem _ hm))

theorem brace_loop_cons_go (bc : Int) (c : Char) (rest : List Char)
    (h1 : brace_step bc c > 0) (h2 : rest ≠ []) :
    brace_loop bc (c :: rest) = brace_loop (brace_step bc c) rest := by
  have h : brace_step bc c > 0 ∧ rest ≠ [] := ⟨h1, h2⟩
  rw [brace_loop, if_pos h]

theorem brace_loop_body (body suffix : List Char) (hl : '{' ∉ body) (hr : '}' ∉ body) :
    brace_loop 1 (body ++ '}' :: suffix) = (0, suffix) := by
  induction body with
  | nil => simp [brace_loop, brace_step]
  | cons c tl ih =>
    have hc : c ≠ '{' := fun e => hl (e ▸ List.mem_cons_self _ _)
    have hc1 : c ≠ '}' := fun e => hr (e ▸ List.mem_cons_self _ _)
    have hs : brace_step 1 c = 1 := by simp [brace_step, hc, hc1]
    rw [List.cons_append, brace_loop_cons_go _ _ _ (by rw [hs]; decide) (by simp), hs]
    exact ih (fun hm => hl (List.mem_cons_of_mem _ hm)) (fun hm => hr (List.mem_cons_of_mem _ hm))

theorem next_object_fragment (pre body suffix : List Char) (hpre : '{' ∉ pre)
    (hl : '{' ∉ body) (hr : '}' ∉ body) :
    next_object (pre ++ ('{' :: body ++ ['}']) ++ suffix) =
      Scan.object ('{' :: body ++ ['}']) ('{' :: body ++ ['}']).length suffix := by
  have e : pre ++ ('{' :: body ++ ['}']) ++ suffix = pre ++ '{' :: (body ++ '}' :: suffix) := by
    simp
  have hb : brace_loop 0 ('{' :: (body ++ '}' :: suffix)) = (0, suffix) := by
    have hs : brace_step 0 '{' = 1 := rfl
    rw [brace_loop_cons_go _ _ _ (by rw [hs]; decide) (by simp), hs]
    exact brace_loop_body body suffix hl hr
  rw [e]
  simp only [next_object, skip_to_brace_prefix _ _ hpre, hb, ne_eq, not_true_eq_false,
    if_false]
  have hlen : ('{' :: (body ++ '}' :: suffix)).length - suffix.length = body.length + 2 := by
    simp only [List.length_cons, List.length_append]; omega
  rw [hlen]
  congr 1
  · have : '{' :: (body ++ '}' :: suffix) = ('{' :: body ++ ['}']) ++ suffix := by simp
    rw [this, List.take_left' (by simp)]
  · simp

theorem from_json_loop_object {α : Type} {malloc_ok : Nat → Bool}
    {deserializer : json_deserializer α} {data_size fuel : Nat} {ptr : List Char}
    {st st1 : DecState α} {obj : List Char} {n : Nat} {ptr1 : List Char}
    (hn : next_object ptr = Scan.object obj n ptr1)
    (hs : store_object malloc_ok deserializer data_size st obj n = some (Step.next st1)) :
    from_json_loop malloc_ok deserializer data_size (fuel + 1) ptr st =
      from_json_loop malloc_ok deserializer data_size fuel ptr1 st1 := by
  cases ptr with
  | nil => simp [next_object, skip_to_brace] at hn
  | cons c rest => simp only [from_json_loop, hn, hs]

theorem from_json_loop_no_brace {α : Type} (malloc_ok : Nat → Bool)
    (deserializer : json_deserializer α) (data_size fuel : Nat) (text : List Char)
    (st : DecState α) (hno : '{' ∉ text) :
    from_json_loop malloc_ok deserializer data_size (fuel + 1) text st = some (0, st) := by
  cases text with
  | nil => simp [from_json_loop]
  | cons c rest => simp [from_json_loop, next_object, skip_to_brace_of_not_mem hno]

/-- The separator the reference concatenation puts after a fragment. -/
theorem join_fragments_cons (f : List Char) (fs : List (List Char)) :
    join_fragments (f :: fs) =
      f ++ ((if fs = [] then [] else [',']) ++ join_fragments fs) := by
  cases fs with
  | nil => simp [join_fragments]
  | cons g rest => simp [join_fragments]

theorem from_json_loop_records (malloc_ok : Nat → Bool) (hm : ∀ n, malloc_ok n = true)
    (data_size : Nat) :
    ∀ (rs : List Record) (pre : List Char) (st : DecState Record) (ps : List Nat)
      (fuel : Nat), '{' ∉ pre → (∀ r ∈ rs, r.inRange ∧ r.codecable) →
      WellFormed st.heap st.head st.tail ps →
      (pre ++ join_fragments (rs.map record_text) ++ [']']).length < fuel →
      ∃ st1 qs,
        from_json_loop malloc_ok (deserialize_record malloc_ok) data_size fuel
          (pre ++ join_fragments (rs.map record_text) ++ [']']) st = some (0, st1) ∧
        WellFormed st1.heap st1.head st1.tail (ps ++ qs) ∧
        qs.map (dataAt st1.heap) = rs.map some ∧
        (∀ p, p < st.heap.length → dataAt st1.heap p = dataAt st.heap p) ∧
        st.heap.length ≤ st1.heap.length ∧
        st1.length = st.length + rs.length := by
  intro rs
  induction rs with
  | nil =>
    intro pre st ps fuel hpre _ hwf hfuel
    cases fuel with
    | zero => simp at hfuel
    | succ fuel =>
      refine ⟨st, [], ?_, by simpa using hwf, rfl, fun _ _ => rfl, le_refl _, by simp⟩
      apply from_json_loop_no_brace
      simp only [List.map_nil, join_fragments, List.append_nil, List.mem_append,
        List.mem_singleton, not_or]
      exact ⟨hpre, by decide⟩
  | cons r rest ih =>
    intro pre st ps fuel hpre hrec hwf hfuel
    obtain ⟨hrange, hcod⟩ := hrec r (List.mem_cons_self _ _)
    obtain ⟨body, hshape, hl, hr⟩ := record_text_shape r hcod
    have htext : pre ++ join_fragments ((r :: rest).map record_text) ++ [']'] =
        pre ++ ('{' :: body ++ ['}']) ++
          ((if rest.map record_text = [] then [] else [',']) ++
            join_fragments (rest.map record_text) ++ [']']) := by
      rw [List.map_cons, join_fragments_cons, hshape]
      simp only [List.append_assoc]
    have hnext := next_object_fragment pre body
      ((if rest.map record_text = [] then [] else [',']) ++
        join_fragments (rest.map record_text) ++ [']']) hpre hl hr
    rw [← htext, ← hshape] at hnext
    have hdes := deserialize_record_text malloc_ok hm r (record_text r).length hrange hcod
    cases fuel with
    | zero => simp at hfuel
    | succ fuel =>
      rcases store_object_spec malloc_ok (deserialize_record malloc_ok) data_size hwf
          (record_text r) (record_text r).length with
        ⟨st1, -, -, -, -, -, -, hbad⟩ | ⟨st1, data, hs, hd, hwf1, hq, hold, hcount, -⟩
      · rcases hbad with hbad | ⟨k, hk⟩
        · rw [hdes] at hbad; cases hbad
        · rw [hm k] at hk; cases hk
      · rw [hdes] at hd
        cases hd
        have hlen1 : st.heap.length < st1.heap.length :=
          seg_lt hwf1.links (List.mem_append_right _ (List.mem_singleton_self _))
        have hsep : '{' ∉ (if rest.map record_text = [] then [] else [',']) := by
          split <;> decide
        have hfuel1 : ((if rest.map record_text = [] then [] else [',']) ++
            join_fragments (rest.map record_text) ++ [']']).length < fuel := by
          have := congrArg List.length htext
          simp only [List.length_append, List.length_cons] at this hfuel ⊢
          omega
        obtain ⟨st2, qs, hloop, hwf2, hdata, hold2, hlen2, hcount2⟩ :=
          ih _ st1 (ps ++ [st.heap.length]) fuel hsep
            (fun x hx => hrec x (List.mem_cons_of_mem _ hx)) hwf1 hfuel1
        refine ⟨st2, st.heap.length :: qs, ?_, by simpa using hwf2, ?_, ?_, by omega, ?_⟩
        · rw [from_json_loop_object hnext hs]; exact hloop
        · simp only [List.map_cons, hdata, hold2 _ hlen1, hq]
        · intro p hp; rw [hold2 p (by omega), hold p hp]
        · rw [hcount2, hcount]; simp only [List.length_cons]; push_cast; ring

set_option maxRecDepth 100000 in
/-- C1, as stated, fails, on four diaries.  The empty diary is not encoded at all: the
encoder returns -1.  The diary holding the one record (1, 2, 2024, "a}b") is encoded, and
decoding the text succeeds with a record whose note is "a}".  The diary holding the one record
(1, 2, 2024, "") is encoded, and decoding the text returns -1.  The diary whose one record has
a note of 500 characters is encoded as an empty array, which decodes to an empty collection
with count 0. -/
theorem round_trip_fails :
    (ll_to_json_string always serialize_record [] 1 none).map (fun out => out.ret)
      = some (-1) ∧
    ((ll_to_json_string always serialize_record
        (diaryOf { day := 1, month := 2, year := 2024, note := some ['a', '}', 'b'] })
        1 (some 0)).bind
      (fun out => out.json_str.bind (fun text =>
        ll_from_json_string always (deserialize_record always) 16 100 text emptyDiary))).map
      (fun res => (res.1, res.2.heap, res.2.length))
      = some (0, diaryOf { day := 1, month := 2, year := 2024, note := some ['a', '}'] }, 1) ∧
    ((ll_to_json_string always serialize_record
        (diaryOf { day := 1, month := 2, year := 2024, note := some [] })
        1 (some 0)).bind
      (fun out => out.json_str.bind (fun text =>
        ll_from_json_string always (deserialize_record always) 16 100 text emptyDiary))).map
      (fun res => (res.1, res.2.heap, res.2.length))
      = some (-1, [], 0) ∧
    ((ll_to_json_string always serialize_record longDiary 1 (some 0)).bind
      (fun out => out.json_str.bind (fun text =>
        ll_from_json_string always (deserialize_record always) 16 100 text emptyDiary))).map
      (fun res => (res.1, res.2.heap, res.2.length))
      = some (0, [], 0) := by
  refine ⟨by decide, by decide, by decide, by decide⟩

/-- C1 (amended): for every non-empty sequence `seq` of diary records whose fields lie in the
range of their C types and whose notes are present, not empty, free of double quotes and
braces and short enough for the fragment to fit the 512-byte element buffer: from any
well-formed collection `ps` holding `seq`, `ll_to_json_string` with `serialize_record` returns
0 with a text, and `ll_from_json_string` with `deserialize_record` applied to that text and an
empty collection returns 0 with a well-formed collection `qs` whose elements, in forward order
from the head, are `seq` field for field, the count being the length of `seq` (allocation
succeeding, fuel for the number of nodes and the length of the text). -/
theorem round_trip (malloc_ok : Nat → Bool) (h : Heap Record) (head tail : Option Nat)
    (ps : List Nat) (seq : List Record) (st0 : DecState Record) (data_size fuel fuel2 : Nat)
    (hm : ∀ n, malloc_ok n = true) (hwf : WellFormed h head tail ps)
    (hseq : ps.map (dataAt h) = seq.map some) (hne : seq ≠ [])
    (hrec : ∀ r ∈ seq, r.inRange ∧ r.codecable)
    (hhead : st0.head = none) (htail : st0.tail = none) (hcount : st0.length = 0)
    (hsize : data_size ≠ 0) (hfuel : ps.length ≤ fuel)
    (hfuel2 : (reference_text (seq.map record_text)).length < fuel2) :
    ∃ out text st1 qs,
      ll_to_json_string malloc_ok serialize_record h fuel head = some out ∧
      out.ret = 0 ∧ out.json_str = some text ∧
      ll_from_json_string malloc_ok (deserialize_record malloc_ok) data_size fuel2 text st0 =
        some (0, st1) ∧
      WellFormed st1.heap st1.head st1.tail qs ∧
      forward st1.heap seq.length st1.head = some qs ∧
      qs.map (dataAt st1.heap) = seq.map some ∧
      st1.length = seq.length := by
  have hlen : ps.length = seq.length := by
    have := congrArg List.length hseq
    simpa using this
  -- encoding
  have hfr : ps.map (fun q => serialize_record (dataAt h q) 512) =
      (seq.map record_text).map some := by
    have e1 : ps.map (fun q => serialize_record (dataAt h q) 512) =
        (ps.map (dataAt h)).map (fun d => serialize_record d 512) := by
      rw [List.map_map]; rfl
    rw [e1, hseq, List.map_map, List.map_map]
    apply List.map_congr_left
    intro r hr
    obtain ⟨-, -, -, -, -, -, hl⟩ := (hrec r hr).2
    have : ¬ (record_text r).length ≥ 512 := by omega
    simp [serialize_record, this]
  have hfl : ∀ f ∈ seq.map record_text, f.length ≤ 511 := by
    intro f hf
    obtain ⟨r, hr, rfl⟩ := List.mem_map.mp hf
    exact (hrec r hr).2.choose_spec.2.2.2.2.2
  obtain ⟨p, rest, rfl⟩ : ∃ p rest, ps = p :: rest := by
    cases ps with
    | nil => cases seq with
      | nil => exact absurd rfl hne
      | cons r rs => simp at hlen
    | cons p rest => exact ⟨p, rest, rfl⟩
  obtain ⟨ws, henc, -⟩ := to_json_loop_ok hm serialize_record h rest p none
    (seq.map record_text) fuel
    { total_size := 2048, used_size := 1, json_str := ['['],
      writes := [{ used_size := 0, len := 1, total_size := 2048 }] }
    hwf.links hfuel hfr hfl (by decide) (by decide)
    (by intro w hw; rw [List.mem_singleton.mp hw]; decide)
  -- decoding
  have hwf0 : WellFormed st0.heap st0.head st0.tail [] := by
    rw [hhead, htail]; exact ⟨List.nodup_nil, trivial, rfl, rfl⟩
  obtain ⟨st1, qs, hdec, hwf1, hdata, -, -, hcount1⟩ :=
    from_json_loop_records malloc_ok hm data_size seq ['['] st0 [] fuel2 (by decide) hrec
      hwf0 (by simpa [reference_text] using hfuel2)
  have hql : qs.length = seq.length := by
    have := congrArg List.length hdata
    simpa using this
  refine ⟨⟨0, some (reference_text (seq.map record_text)), ws⟩,
    reference_text (seq.map record_text), st1, qs, ?_, rfl, rfl, ?_,
    by simpa using hwf1, ?_, hdata, ?_⟩
  · rw [hwf.head_eq]
    simp only [ll_to_json_string, List.head?_cons, hm, if_true, henc, reference_text,
      List.cons_append, List.nil_append]
  · simp only [ll_from_json_string, hsize, if_false, reference_text]
    simpa using hdec
  · have hw : WellFormed st1.heap st1.head st1.tail qs := by simpa using hwf1
    rw [hw.head_eq]
    exact forward_of_seg hw.links (by omega)
  · rw [hcount1, hcount]; simp

set_option maxRecDepth 100000 in
theorem round_trip_witness :
    ∃ out text st1 qs,
      ll_to_json_string always serialize_record (diaryOf hiRecord) 1 (some 0) = some out ∧
      out.ret = 0 ∧ out.json_str = some text ∧
      ll_from_json_string always (deserialize_record always) 16 100 text emptyDiary =
        some (0, st1) ∧
      WellFormed st1.heap st1.head st1.tail qs ∧
      forward st1.heap [hiRecord].length st1.head = some qs ∧
      qs.map (dataAt st1.heap) = [hiRecord].map some ∧
      st1.length = [hiRecord].length :=
  round_trip always (diaryOf hiRecord) (some 0) (some 0) [0] [hiRecord] emptyDiary 16 1 100
    (fun _ => rfl) ⟨by decide, ⟨_, rfl, rfl, rfl, trivial⟩, rfl, rfl⟩ (by decide) (by decide)
    (by
      intro r hr
      rw [List.mem_singleton.mp hr]
      exact ⟨⟨by decide, by decide, by decide, by decide, by decide, by decide⟩,
        ['h', 'i'], rfl, by decide, by decide, by decide, by decide, by decide⟩)
    rfl rfl rfl (by decide) (by decide) (by decide)

/-! ## Deleting the only node, cursor moves, insertion that does not insert -/

/-- C11: on a well-formed one-element collection with the cursor on its node (so cursor, head
and tail are the same node), `ll_delete_node` returns and leaves an empty collection: head,
tail and cursor are all empty; the log of `free_data` calls has grown by exactly one entry,
the removed element; and the node is gone from memory. -/
theorem ll_delete_node_sole {α : Type} (s : ListState α) (p : Nat)
    (hwf : WellFormed s.heap s.head s.tail [p]) (hc : s.current = some p) :
    ∃ s1, ll_delete_node s = some s1 ∧
      s.head = some p ∧ s.tail = some p ∧
      s1.head = none ∧ s1.tail = none ∧ s1.current = none ∧
      s1.released = s.released ++ [dataAt s.heap p] ∧
      s1.heap.read p = none ∧ WellFormed s1.heap s1.head s1.tail [] := by
  obtain ⟨s1, h1, hwf1, hcur, -, hgone, hrel⟩ := delete_spec s [] [] p hwf hc
  exact ⟨s1, h1, hwf.head_eq, hwf.tail_eq, hwf1.head_eq, hwf1.tail_eq, hcur, hrel, hgone,
    hwf1⟩

theorem ll_delete_node_sole_witness :
    ∃ s1, ll_delete_node soleDiary = some s1 ∧
      soleDiary.head = some 0 ∧ soleDiary.tail = some 0 ∧
      s1.head = none ∧ s1.tail = none ∧ s1.current = none ∧
      s1.released = soleDiary.released ++ [dataAt soleDiary.heap 0] ∧
      s1.heap.read 0 = none ∧ WellFormed s1.heap s1.head s1.tail [] :=
  ll_delete_node_sole soleDiary 0
    ⟨by decide, ⟨_, rfl, rfl, rfl, trivial⟩, rfl, rfl⟩ rfl

/-- C14: for every state whose cursor is empty or references a live node, `ll_next_node` and
`ll_prev_node` return, and the state after either call differs from the state before in the
cursor only: memory (every node's data and links), head and tail are the same.  An empty
cursor stays empty; a cursor on a node moves to the node's forward (backward) neighbour when
that reference is not empty and stays where it is otherwise. -/
theorem cursor_moves {α : Type} (s : ListState α)
    (hcur : ∀ c, s.current = some c → ∃ nd, s.heap.read c = some nd) :
    ∃ cn cp, cmd_next s = some { s with current := cn } ∧
      cmd_prev s = some { s with current := cp } ∧
      (∀ c nd, s.current = some c → s.heap.read c = some nd →
        cn = some (nd.next.getD c) ∧ cp = some (nd.prev.getD c)) ∧
      (s.current = none → cn = none ∧ cp = none) := by
  cases hs : s.current with
  | none =>
    refine ⟨none, none, ?_, ?_, ?_, fun _ => ⟨rfl, rfl⟩⟩
    · simp [cmd_next, ll_next_node, hs]
    · simp [cmd_prev, ll_prev_node, hs]
    · intro c nd h; cases h
  | some c =>
    obtain ⟨nd, hr⟩ := hcur c hs
    refine ⟨some (nd.next.getD c), some (nd.prev.getD c), ?_, ?_, ?_, fun h => by cases h⟩
    · cases hn : nd.next <;> simp [cmd_next, ll_next_node, hs, hr, hn]
    · cases hp : nd.prev <;> simp [cmd_prev, ll_prev_node, hs, hr, hp]
    · intro c1 nd1 h1 h2
      cases h1
      rw [hr] at h2
      cases h2
      exact ⟨rfl, rfl⟩

theorem cursor_moves_witness :
    ∃ cn cp, cmd_next (threeNodesAt 2) = some { threeNodesAt 2 with current := cn } ∧
      cmd_prev (threeNodesAt 2) = some { threeNodesAt 2 with current := cp } ∧
      (∀ c nd, (threeNodesAt 2).current = some c → (threeNodesAt 2).heap.read c = some nd →
        cn = some (nd.next.getD c) ∧ cp = some (nd.prev.getD c)) ∧
      ((threeNodesAt 2).current = none → cn = none ∧ cp = none) :=
  cursor_moves (threeNodesAt 2) (by
    intro c hc
    cases hc
    exact ⟨_, rfl⟩)

/-- C16: when the existing node is empty, or when the allocation of the node fails,
`ll_insert_after` returns with the memory (every node's links and data) and the tail variable
exactly as they were. -/
theorem ll_insert_after_no_insert {α : Type} (malloc_ok : Nat → Bool) (h : Heap α)
    (current : Option Nat) (data : Option α) (tail : Option (Option Nat))
    (hno : current = none ∨ malloc_ok sizeof_Node = false) :
    ll_insert_after malloc_ok h current data tail = some (h, tail) := by
  cases current with
  | none => rfl
  | some cur =>
    rcases hno with hno | hno
    · cases hno
    · simp [ll_insert_after, ll_create_node, hno]

theorem ll_insert_after_no_insert_witness :
    ll_insert_after never threeNodes (some 1) (some 99) (some (some 2)) =
      some (threeNodes, some (some 2)) :=
  ll_insert_after_no_insert never threeNodes (some 1) (some 99) (some (some 2))
    (Or.inr rfl)

/-! ## Inserting a node -/

theorem write_length {α : Type} (h : Heap α) (p : Nat) (n : Node α) :
    (h.write p n).length = h.length := by
  simp [Heap.write]

theorem read_write {α : Type} (h : Heap α) (p q : Nat) (n : Node α) :
    (h.write p n).read q =
      if p = q then (if p < h.length then some n else none) else h.read q := by
  by_cases hpq : p = q
  · subst hpq
    by_cases hp : p < h.length
    · simp [hp, read_write_same n hp]
    · simp [hp, Heap.read, Heap.write, List.getElem?_set]
  · simp [hpq, read_write_ne n hpq]

theorem insert_spec {α : Type} (malloc_ok : Nat → Bool) (hm : malloc_ok sizeof_Node = true)
    (h : Heap α) (head tail : Option Nat) (l r : List Nat) (c : Nat) (data : Option α)
    (hwf : WellFormed h head tail (l ++ c :: r)) :
    ∃ h1,
      ll_insert_after malloc_ok h (some c) data (some tail) =
        some (h1, some (if r = [] then some h.length else tail)) ∧
      WellFormed h1 head (if r = [] then some h.length else tail)
        (l ++ c :: h.length :: r) ∧
      dataAt h1 h.length = data ∧ (∀ p, p < h.length → dataAt h1 p = dataAt h p) := by
  obtain ⟨hnd, hlinks, hhead, htail⟩ := hwf
  obtain ⟨hl, nd, hrc, hprev, hnext, hr⟩ := seg_split hlinks
  have hnd1 := List.nodup_append.mp hnd
  have hcl : c ∉ l := fun hm1 => hnd1.2.2 hm1 (List.mem_cons_self _ _)
  have hcr : c ∉ r := (List.nodup_cons.mp hnd1.2.1).1
  have hrnd : r.Nodup := (List.nodup_cons.mp hnd1.2.1).2
  have hlr : ∀ q, q ∈ l → q ∉ r := fun q hq hq1 => hnd1.2.2 hq (List.mem_cons_of_mem _ hq1)
  have hlt : ∀ q, q ∈ l ++ c :: r → q < h.length := fun q hq => seg_lt hlinks hq
  have hcn : c < h.length := hlt c (by simp)
  have hcne : c ≠ h.length := by omega
  have hnl : h.length ∉ l := fun hq => Nat.lt_irrefl _ (hlt _ (List.mem_append_left _ hq))
  have hnr : h.length ∉ r := fun hq =>
    Nat.lt_irrefl _ (hlt _ (List.mem_append_right _ (List.mem_cons_of_mem _ hq)))
  -- memory after `ll_create_node`
  have hr0c : Heap.read (h ++ [some (⟨data, none, none⟩ : Node α)]) c = some nd := by
    rw [read_append_left _ hcn]; exact hrc
  have hr0n : Heap.read (h ++ [some (⟨data, none, none⟩ : Node α)]) h.length =
      some ⟨data, none, none⟩ := read_append_new _
  have hlen0 : (h ++ [some (⟨data, none, none⟩ : Node α)]).length = h.length + 1 := by simp
  have hl0 : seg (h ++ [some (⟨data, none, none⟩ : Node α)]) none l (some c) :=
    seg_congr (fun q hq => read_append_left _ (hlt q (List.mem_append_left _ hq))) hl
  have hrr0 : seg (h ++ [some (⟨data, none, none⟩ : Node α)]) (some c) r none :=
    seg_congr (fun q hq => read_append_left _
      (hlt q (List.mem_append_right _ (List.mem_cons_of_mem _ hq)))) hr
  have hcn1 : c < h.length + 1 := by omega
  cases r with
  | nil =>
    have hnx : nd.next = none := hnext
    refine ⟨(((h ++ [some (⟨data, none, none⟩ : Node α)]).write h.length
        ⟨data, none, none⟩).write h.length ⟨data, some c, none⟩).write c
        { nd with next := some h.length }, ?_,
        ⟨?_, ?_, by rw [hhead]; cases l <;> simp, by simp⟩, ?_, ?_⟩
    · simp [ll_insert_after, ll_create_node, hm, splice_node, update_tail, hr0c, hr0n, hnx,
        read_write, write_length, hcne, Ne.symm hcne, hcn1]
    · have : (l ++ c :: h.length :: ([] : List Nat)) = (l ++ [c]) ++ [h.length] := by simp
      rw [this]
      refine List.nodup_append.mpr ⟨by simpa using hnd, List.nodup_singleton _, ?_⟩
      intro x hx hx1
      rw [List.mem_singleton.mp hx1] at hx
      exact Nat.lt_irrefl _ (hlt _ (by simpa using hx))
    · refine seg_join ?_ ⟨{ nd with next := some h.length }, ?_, ?_, rfl,
        ⟨⟨data, some c, none⟩, ?_, rfl, rfl, trivial⟩⟩
      · refine seg_congr (fun q hq => ?_) hl0
        have hqc : c ≠ q := fun e => hcl (e ▸ hq)
        have hqn : h.length ≠ q := fun e => hnl (e ▸ hq)
        simp [read_write, hqc, hqn]
      · simp [read_write, write_length, hcn1]
      · exact hprev
      · simp [read_write, write_length, hcne]
    · simp [dataAt, read_write, write_length, hcne]
    · intro p hp
      have hpn : h.length ≠ p := by omega
      by_cases hpc : c = p
      · subst hpc
        simp [dataAt, read_write, write_length, hcn1, hrc]
      · simp only [dataAt, read_write_ne _ hpc, read_write_ne _ hpn, read_append_left _ hp]
  | cons b r1 =>
    obtain ⟨nb, hrb, hbp, hbn, hbrest⟩ := hr
    have hnx : nd.next = some b := hnext
    have hbn1 : b < h.length := hlt b (by simp)
    have hbne : b ≠ h.length := by omega
    have hbc : b ≠ c := fun e => hcr (e ▸ List.mem_cons_self _ _)
    have hr0b : Heap.read (h ++ [some (⟨data, none, none⟩ : Node α)]) b = some nb := by
      rw [read_append_left _ hbn1]; exact hrb
    refine ⟨((((h ++ [some (⟨data, none, none⟩ : Node α)]).write h.length
        ⟨data, none, some b⟩).write h.length ⟨data, some c, some b⟩).write b
        { nb with prev := some h.length }).write c { nd with next := some h.length },
      ?_, ⟨?_, ?_, by rw [hhead]; cases l <;> simp, ?_⟩, ?_, ?_⟩
    · have hbn2 : b < h.length + 1 := by omega
      simp [ll_insert_after, ll_create_node, hm, splice_node, update_tail, hr0c, hr0n, hnx,
        hr0b, read_write, write_length, hcne, Ne.symm hcne, hcn1, hbne,
        Ne.symm hbne, hbc, Ne.symm hbc, hbn2]
    · have e1 : l ++ c :: h.length :: b :: r1 = (l ++ [c]) ++ h.length :: (b :: r1) := by simp
      have e2 : l ++ c :: b :: r1 = (l ++ [c]) ++ (b :: r1) := by simp
      rw [e1]
      rw [e2] at hnd
      have hsplit := List.nodup_append.mp hnd
      refine List.nodup_append.mpr ⟨hsplit.1, List.nodup_cons.mpr ⟨hnr, hsplit.2.1⟩, ?_⟩
      intro x hx hx1
      rcases List.mem_cons.mp hx1 with rfl | hx1
      · rcases List.mem_append.mp hx with h1 | h1
        · exact hnl h1
        · exact hcne (List.mem_singleton.mp h1).symm
      · exact hsplit.2.2 hx hx1
    · refine seg_join ?_ ⟨{ nd with next := some h.length }, ?_, ?_, rfl,
        ⟨⟨data, some c, some b⟩, ?_, rfl, rfl, ?_⟩⟩
      · refine seg_congr (fun q hq => ?_) hl0
        have hqc : c ≠ q := fun e => hcl (e ▸ hq)
        have hqn : h.length ≠ q := fun e => hnl (e ▸ hq)
        have hqb : b ≠ q := fun e => hlr q hq (e ▸ List.mem_cons_self _ _)
        simp [read_write, hqc, hqn, hqb]
      · simp [read_write, write_length, hcn1]
      · exact hprev
      · simp [read_write, write_length, hcne, hbne]
      · -- the rest of the chain, whose first node now points back to the new node
        have hwb : Heap.read (((h ++ [some (⟨data, none, none⟩ : Node α)]).write h.length
            ⟨data, none, some b⟩).write h.length ⟨data, some c, some b⟩) b = some nb := by
          simp [read_write, Ne.symm hbne, hr0b]
        have hs2 : seg (((h ++ [some (⟨data, none, none⟩ : Node α)]).write h.length
            ⟨data, none, some b⟩).write h.length ⟨data, some c, some b⟩) (some c)
            (b :: r1) none := by
          refine seg_congr (fun q hq => ?_) hrr0
          have hqn : h.length ≠ q := fun e => hnr (e ▸ hq)
          simp [read_write, hqn]
        have hs3 := seg_set_first_prev (some h.length) hrnd hs2 hwb
        refine seg_congr (fun q hq => ?_) hs3
        have hqc : c ≠ q := fun e => hcr (e ▸ hq)
        simp [read_write, hqc]
    · have e1 : l ++ c :: h.length :: b :: r1 = (l ++ [c, h.length]) ++ (b :: r1) := by simp
      have e2 : l ++ c :: b :: r1 = (l ++ [c]) ++ (b :: r1) := by simp
      rw [htail, e1, e2, List.getLast?_append_of_ne_nil _ (by simp),
        List.getLast?_append_of_ne_nil _ (by simp)]
      simp
    · simp [dataAt, read_write, write_length, hcne, hbne]
    · intro p hp
      have hpn : h.length ≠ p := by omega
      by_cases hpc : c = p
      · subst hpc
        simp [dataAt, read_write, write_length, hcn1, hrc]
      · by_cases hpb : b = p
        · subst hpb
          have hbn2 : b < h.length + 1 := by omega
          simp [dataAt, read_write, write_length, hpc, hbn2, hrb]
        · simp only [dataAt, read_write_ne _ hpc, read_write_ne _ hpn, read_write_ne _ hpb,
            read_append_left _ hp]

/-- C12: on a well-formed collection `l ++ c :: r` (elements `e_0 .. e_{n-1}`, the node `c` at
position `i = l.length`), `ll_insert_after` on `c` with the element `x` and the collection's
tail returns, when the allocation of the node succeeds, and a new node `n` then stands right
after `c`: the forward traversal from head visits `l ++ c :: n :: r`, whose elements are
`e_0 .. e_i, x, e_{i+1} .. e_{n-1}`.  The tail variable becomes the new node, a node that was
not the tail before, when `c` was the last node (`r` empty), and keeps its value otherwise. -/
theorem ll_insert_after_order {α : Type} (malloc_ok : Nat → Bool) (h : Heap α)
    (head tail : Option Nat) (l r : List Nat) (c : Nat) (x : Option α) (fuel : Nat)
    (hm : malloc_ok sizeof_Node = true) (hwf : WellFormed h head tail (l ++ c :: r))
    (hfuel : (l ++ c :: r).length + 1 ≤ fuel) :
    ∃ h1 tail1 n,
      ll_insert_after malloc_ok h (some c) x (some tail) = some (h1, some tail1) ∧
      forward h1 fuel head = some (l ++ c :: n :: r) ∧
      (l ++ c :: n :: r).map (dataAt h1) =
        (l ++ [c]).map (dataAt h) ++ x :: r.map (dataAt h) ∧
      (r = [] → tail1 = some n ∧ tail1 ≠ tail) ∧ (r ≠ [] → tail1 = tail) ∧
      WellFormed h1 head tail1 (l ++ c :: n :: r) := by
  obtain ⟨h1, e, hwf1, hnew, hold⟩ := insert_spec malloc_ok hm h head tail l r c x hwf
  have hlt : ∀ q, q ∈ l ++ c :: r → q < h.length := fun q hq => seg_lt hwf.links hq
  refine ⟨h1, if r = [] then some h.length else tail, h.length, e, ?_, ?_, ?_, ?_, hwf1⟩
  · have hf : (l ++ c :: h.length :: r).length ≤ fuel := by
      simp only [List.length_append, List.length_cons] at hfuel ⊢; omega
    rw [hwf1.head_eq]
    exact forward_of_seg hwf1.links hf
  · simp only [List.map_append, List.map_cons, List.map_nil, hnew, List.append_assoc,
      List.singleton_append]
    congr 1
    · exact List.map_congr_left (fun q hq => hold q (hlt q (List.mem_append_left _ hq)))
    · congr 1
      · exact hold c (hlt c (by simp))
      · congr 1
        exact List.map_congr_left (fun q hq => hold q
          (hlt q (List.mem_append_right _ (List.mem_cons_of_mem _ hq))))
  · rintro rfl
    refine ⟨by simp, ?_⟩
    simp only [if_true]
    rw [hwf.tail_eq]
    simp only [List.getLast?_append_of_ne_nil _ (List.cons_ne_nil c []), List.getLast?_singleton]
    intro e1
    have := hlt c (by simp)
    simp only [Option.some.injEq] at e1
    omega
  · intro hr
    simp [hr]

theorem ll_insert_after_order_witness :
    ∃ h1 tail1 n,
      ll_insert_after always threeNodes (some 1) (some 99) (some (some 2)) =
        some (h1, some tail1) ∧
      forward h1 4 (some 0) = some ([0] ++ 1 :: n :: [2]) ∧
      ([0] ++ 1 :: n :: [2]).map (dataAt h1) =
        ([0] ++ [1]).map (dataAt threeNodes) ++ some 99 :: [2].map (dataAt threeNodes) ∧
      ([2] = [] → tail1 = some n ∧ tail1 ≠ some 2) ∧ ([2] ≠ [] → tail1 = some 2) ∧
      WellFormed h1 (some 0) tail1 ([0] ++ 1 :: n :: [2]) :=
  ll_insert_after_order always threeNodes (some 0) (some 2) [0] [2] 1 (some 99) 4 rfl
    threeNodes_wf (by decide)

/-! ## The invariants of the data model -/

theorem invariants_of_wellFormed {α : Type} {h : Heap α} {head tail : Option Nat}
    {ps : List Nat} (hwf : WellFormed h head tail ps) : Invariants h head tail ps := by
  obtain ⟨hnd, hlinks, hhead, htail⟩ := hwf
  refine ⟨?_, hnd, ?_, ?_, ?_, ?_⟩
  · rw [hhead]; exact forward_of_seg hlinks (le_refl _)
  · intro p nd hp hr
    cases ps with
    | nil => simp [hhead] at hp
    | cons q rest =>
      simp only [hhead, List.head?_cons, Option.some.injEq] at hp
      subst hp
      obtain ⟨nd1, hr1, hp1, -⟩ := hlinks
      rw [hr] at hr1; cases hr1
      exact hp1
  · intro p hp
    induction ps using List.reverseRecOn with
    | nil => simp [htail] at hp
    | append_singleton l a _ =>
      rw [htail, List.getLast?_append_of_ne_nil _ (List.cons_ne_nil a []),
        List.getLast?_singleton] at hp
      cases hp
      refine ⟨by simp, ?_⟩
      intro nd hr
      obtain ⟨-, nd1, hr1, -, hn1, -⟩ := seg_split hlinks
      rw [hr] at hr1; cases hr1
      exact hn1
  · rw [hhead, htail]
    cases ps with
    | nil => simp
    | cons q rest =>
      simp only [List.head?_cons, reduceCtorEq, false_iff]
      intro hn
      have := List.getLast?_eq_none_iff.mp hn
      cases this
  · intro a b na nb ha hb hra hrb
    constructor
    · intro hn
      obtain ⟨l, r, rfl⟩ := List.append_of_mem ha
      obtain ⟨-, nd, hr1, -, hn1, hrest⟩ := seg_split hlinks
      rw [hra] at hr1; cases hr1
      cases r with
      | nil => rw [hn] at hn1; cases hn1
      | cons b1 r1 =>
        simp only [headOr] at hn1
        rw [hn] at hn1
        cases hn1
        obtain ⟨nb1, hrb1, hp1, -⟩ := hrest
        rw [hrb] at hrb1; cases hrb1
        exact hp1
    · intro hp
      obtain ⟨l, r, rfl⟩ := List.append_of_mem hb
      obtain ⟨hl, nd, hr1, hp1, -, -⟩ := seg_split hlinks
      rw [hrb] at hr1; cases hr1
      induction l using List.reverseRecOn with
      | nil => rw [hp] at hp1; cases hp1
      | append_singleton l1 a1 _ =>
        rw [lastOr_append_cons] at hp1
        simp only [lastOr] at hp1
        rw [hp] at hp1
        cases hp1
        obtain ⟨-, nd1, hr2, -, hn2, -⟩ := seg_split hl
        rw [hra] at hr2; cases hr2
        exact hn2

theorem forward_some_head {α : Type} {h : Heap α} {fuel q : Nat} {ps : List Nat}
    (hf : forward h fuel (some q) = some ps) : ∃ t, ps = q :: t := by
  cases fuel with
  | zero => simp [forward] at hf
  | succ fuel =>
    simp only [forward, Option.bind_eq_bind, Option.bind_eq_some] at hf
    obtain ⟨nd, -, rest, -, e⟩ := hf
    exact ⟨rest, by simpa using e.symm⟩

theorem seg_of_forward {α : Type} {h : Heap α} (full : List Nat)
    (hsym : ∀ a b na nb, a ∈ full → b ∈ full → h.read a = some na → h.read b = some nb →
      na.next = some b → nb.prev = some a) :
    ∀ (fuel : Nat) (ps : List Nat) (start pv : Option Nat),
      forward h fuel start = some ps → (∀ x ∈ ps, x ∈ full) →
      (∀ p nd, start = some p → h.read p = some nd → nd.prev = pv) →
      seg h pv ps none ∧ start = ps.head? := by
  intro fuel
  induction fuel with
  | zero =>
    intro ps start pv hf _ _
    cases start with
    | none => simp only [forward, Option.some.injEq] at hf; subst hf; exact ⟨trivial, rfl⟩
    | some p => simp [forward] at hf
  | succ fuel ih =>
    intro ps start pv hf hsub hpv
    cases start with
    | none => simp only [forward, Option.some.injEq] at hf; subst hf; exact ⟨trivial, rfl⟩
    | some p =>
      simp only [forward, Option.bind_eq_bind, Option.bind_eq_some] at hf
      obtain ⟨nd, hr, rest, hrest, e⟩ := hf
      simp only [Option.some.injEq] at e
      subst e
      have hsub1 : ∀ x ∈ rest, x ∈ full := fun x hx => hsub x (List.mem_cons_of_mem _ hx)
      obtain ⟨hseg, hhd⟩ := ih rest nd.next (some p) hrest hsub1 (by
        intro q nq hq hrq
        rw [hq] at hrest
        obtain ⟨t, ht⟩ := forward_some_head hrest
        exact hsym p q nd nq (hsub p (List.mem_cons_self _ _))
          (hsub1 q (by rw [ht]; exact List.mem_cons_self _ _)) hr hrq hq)
      refine ⟨⟨nd, hr, hpv p nd rfl hr, ?_, hseg⟩, rfl⟩
      rw [headOr_none]; exact hhd

theorem wellFormed_of_invariants {α : Type} {h : Heap α} {head tail : Option Nat}
    {ps : List Nat} (hinv : Invariants h head tail ps) : WellFormed h head tail ps := by
  obtain ⟨hchain, hnd, hhp, htn, hends, hsym⟩ := hinv
  obtain ⟨hseg, hhd⟩ := seg_of_forward ps
    (fun a b na nb ha hb hra hrb hn => (hsym a b na nb ha hb hra hrb).mp hn)
    ps.length ps head none hchain (fun _ hx => hx) hhp
  refine ⟨hnd, hseg, hhd, ?_⟩
  cases htl : tail with
  | none =>
    have : head = none := hends.mpr htl
    rw [this] at hhd
    cases ps with
    | nil => rfl
    | cons q rest => simp at hhd
  | some p =>
    obtain ⟨hmem, hnx⟩ := htn p htl
    obtain ⟨l, r, rfl⟩ := List.append_of_mem hmem
    obtain ⟨-, nd, hr, -, hn, -⟩ := seg_split hseg
    have := hnx nd hr
    rw [this] at hn
    cases r with
    | nil => simp
    | cons b r1 => simp [headOr] at hn

/-- C13: let the invariants of the data model hold for a collection: the forward references
lead from head through the nodes `ps` and end, no node is met twice, head's backward and tail's
forward reference are empty, and `a.next = b` exactly when `b.prev = a`.  Then they hold
again, for the nodes then in the chain, after `ll_insert_after` on any node of the collection
with the collection's tail (whether the allocation succeeds or not), after `ll_delete_node`
with the cursor on any node of the collection, after one pass of the decoder's storing step
(whether it appends a node or gives up), and after a whole call of `ll_from_json_string`
(given fuel for the length of the text); each of these calls returns. -/
theorem invariants_preserved {α : Type} (h : Heap α) (head tail : Option Nat)
    (ps : List Nat) (hinv : Invariants h head tail ps) :
    (∀ (malloc_ok : Nat → Bool) (c : Nat) (data : Option α), c ∈ ps →
      ∃ h1 tail1 ps1,
        ll_insert_after malloc_ok h (some c) data (some tail) = some (h1, some tail1) ∧
        Invariants h1 head tail1 ps1) ∧
    (∀ (c : Nat) (released : List (Option α)), c ∈ ps →
      ∃ s1 ps1, ll_delete_node ⟨h, head, tail, some c, released⟩ = some s1 ∧
        Invariants s1.heap s1.head s1.tail ps1) ∧
    (∀ (malloc_ok : Nat → Bool) (deserializer : json_deserializer α) (data_size : Nat)
      (length : Int) (calls : List (List Char × Nat)) (obj : List Char) (n : Nat),
      ∃ st1 ps1,
        (store_object malloc_ok deserializer data_size ⟨h, head, tail, length, calls⟩ obj n =
            some (Step.fail st1) ∨
          store_object malloc_ok deserializer data_size ⟨h, head, tail, length, calls⟩ obj n =
            some (Step.next st1)) ∧
        Invariants st1.heap st1.head st1.tail ps1) ∧
    (∀ (malloc_ok : Nat → Bool) (deserializer : json_deserializer α) (data_size fuel : Nat)
      (length : Int) (calls : List (List Char × Nat)) (text : List Char),
      text.length < fuel →
      ∃ rc st1 ps1,
        ll_from_json_string malloc_ok deserializer data_size fuel text
          ⟨h, head, tail, length, calls⟩ = some (rc, st1) ∧
        Invariants st1.heap st1.head st1.tail ps1) := by
  have hwf := wellFormed_of_invariants hinv
  refine ⟨?_, ?_, ?_, ?_⟩
  · intro malloc_ok c data hc
    obtain ⟨l, r, rfl⟩ := List.append_of_mem hc
    by_cases hm : malloc_ok sizeof_Node = true
    · obtain ⟨h1, e, hwf1, -, -⟩ := insert_spec malloc_ok hm h head tail l r c data hwf
      exact ⟨h1, _, _, e, invariants_of_wellFormed hwf1⟩
    · refine ⟨h, tail, l ++ c :: r, ?_, hinv⟩
      simp [ll_insert_after, ll_create_node, hm]
  · intro c released hc
    obtain ⟨l, r, rfl⟩ := List.append_of_mem hc
    obtain ⟨s1, e, hwf1, -⟩ := delete_spec ⟨h, head, tail, some c, released⟩ l r c hwf rfl
    exact ⟨s1, l ++ r, e, invariants_of_wellFormed hwf1⟩
  · intro malloc_ok deserializer data_size length calls obj n
    rcases @store_object_spec α malloc_ok deserializer data_size
        ⟨h, head, tail, length, calls⟩ ps hwf obj n with
      ⟨st1, e, e1, e2, e3, -⟩ | ⟨st1, data, e, -, hwf1, -⟩
    · refine ⟨st1, ps, Or.inl e, ?_⟩
      rw [e1, e2, e3]; exact hinv
    · exact ⟨st1, _, Or.inr e, invariants_of_wellFormed hwf1⟩
  · intro malloc_ok deserializer data_size fuel length calls text hfuel
    by_cases hsize : data_size = 0
    · exact ⟨-1, ⟨h, head, tail, length, calls⟩, ps, by simp [ll_from_json_string, hsize],
        hinv⟩
    · obtain ⟨rc, st1, qs, c, hr, hwf1, -⟩ :=
        from_json_loop_spec malloc_ok deserializer data_size fuel text
          ⟨h, head, tail, length, calls⟩ ps hwf hfuel
      exact ⟨rc, st1, ps ++ qs, by simp [ll_from_json_string, hsize, hr],
        invariants_of_wellFormed hwf1⟩

theorem invariants_preserved_witness :
    ∃ s1 ps1, ll_delete_node ⟨threeNodes, some 0, some 2, some 1, []⟩ = some s1 ∧
      Invariants s1.heap s1.head s1.tail ps1 :=
  (invariants_preserved threeNodes (some 0) (some 2) [0, 1, 2]
    (invariants_of_wellFormed threeNodes_wf)).2.1 1 [] (by decide)

/-! ## Teardown -/

theorem read_free {α : Type} (h : Heap α) (p q : Nat) :
    (h.free p).read q = if p = q then none else h.read q := by
  by_cases hpq : p = q
  · subst hpq; simp [read_free_same]
  · simp [hpq, read_free_ne hpq]

theorem free_list_spec {α : Type} :
    ∀ (ps : List Nat) (pv : Option Nat) (depth : Nat) (s : FreeState α),
      seg s.heap pv ps none → ps.Nodup → ps.length ≤ depth →
      ∃ s1, ll_free_list depth s ps.head? = some (s1, none) ∧
        s1.freed = s.freed ++ ps.reverse ∧
        s1.released = s.released ++ (ps.reverse.filterMap (dataAt s.heap)).map some ∧
        (∀ p ∈ ps, s1.heap.read p = none) ∧
        (∀ q, q ∉ ps → s1.heap.read q = s.heap.read q) := by
  intro ps
  induction ps with
  | nil =>
    intro pv depth s _ _ _
    refine ⟨s, ?_, by simp, by simp, by simp, fun _ _ => rfl⟩
    cases depth <;> rfl
  | cons p rest ih =>
    intro pv depth s hs hnd hd
    obtain ⟨nd, hr, -, hn, hrest⟩ := hs
    have hprest : p ∉ rest := (List.nodup_cons.mp hnd).1
    have hrnd : rest.Nodup := (List.nodup_cons.mp hnd).2
    have hda : dataAt s.heap p = nd.data := dataAt_of_read hr
    cases depth with
    | zero => simp at hd
    | succ depth =>
      cases rest with
      | nil =>
        have hnx : nd.next = none := hn
        cases hdata : nd.data with
        | none =>
          refine ⟨{ heap := s.heap.free p, released := s.released, freed := s.freed ++ [p] },
            ?_, by simp, ?_, ?_, ?_⟩
          · simp [ll_free_list, hr, hnx, free_node, hdata]
          · simp [hda, hdata]
          · intro q hq
            rw [List.mem_singleton.mp hq]
            exact read_free_same
          · intro q hq
            exact read_free_ne (fun e => hq (by simp [e]))
        | some d =>
          refine ⟨{ heap := s.heap.free p, released := s.released ++ [some d],
                    freed := s.freed ++ [p] }, ?_, by simp, ?_, ?_, ?_⟩
          · simp [ll_free_list, hr, hnx, free_node, hdata]
          · simp [hda, hdata]
          · intro q hq
            rw [List.mem_singleton.mp hq]
            exact read_free_same
          · intro q hq
            exact read_free_ne (fun e => hq (by simp [e]))
      | cons q rest1 =>
        have hnx : nd.next = some q := hn
        obtain ⟨s1, e1, hfreed, hrel, hgone, hkeep⟩ :=
          ih (some p) depth s hrest hrnd (by simpa using hd)
        have hrp1 : s1.heap.read p = some nd := by rw [hkeep p hprest]; exact hr
        have hplt : p < s1.heap.length := read_lt hrp1
        simp only [List.head?_cons] at e1
        have hkeep2 : ∀ x, x ≠ p →
            ((s1.heap.write p { nd with next := none }).free p).read x = s1.heap.read x := by
          intro x hx
          rw [read_free_ne (Ne.symm hx), read_write_ne _ (Ne.symm hx)]
        cases hdata : nd.data with
        | none =>
          refine ⟨{ heap := (s1.heap.write p { nd with next := none }).free p,
                    released := s1.released, freed := s1.freed ++ [p] }, ?_, ?_, ?_, ?_, ?_⟩
          · simp [ll_free_list, hr, hnx, e1, hrp1, free_node, read_write_same, hplt, hdata]
          · simp [hfreed]
          · have e : ((p :: q :: rest1).reverse.filterMap (dataAt s.heap)).map some =
                ((q :: rest1).reverse.filterMap (dataAt s.heap)).map some := by
              rw [List.reverse_cons, List.filterMap_append]
              simp [hda, hdata]
            show s1.released = _
            rw [e, hrel]
          · intro x hx
            rcases List.mem_cons.mp hx with rfl | hx
            · exact read_free_same
            · have hxp : x ≠ p := fun e => hprest (e ▸ hx)
              show ((s1.heap.write p { nd with next := none }).free p).read x = none
              rw [hkeep2 x hxp]; exact hgone x hx
          · intro x hx
            have hxp : x ≠ p := fun e => hx (by simp [e])
            show ((s1.heap.write p { nd with next := none }).free p).read x = s.heap.read x
            rw [hkeep2 x hxp]
            exact hkeep x (fun hm => hx (List.mem_cons_of_mem _ hm))
        | some d =>
          refine ⟨{ heap := (s1.heap.write p { nd with next := none }).free p,
                    released := s1.released ++ [some d], freed := s1.freed ++ [p] },
            ?_, ?_, ?_, ?_, ?_⟩
          · simp [ll_free_list, hr, hnx, e1, hrp1, free_node, read_write_same, hplt, hdata]
          · simp [hfreed]
          · have e : ((p :: q :: rest1).reverse.filterMap (dataAt s.heap)).map some =
                ((q :: rest1).reverse.filterMap (dataAt s.heap)).map some ++ [some d] := by
              rw [List.reverse_cons, List.filterMap_append]
              simp [hda, hdata]
            show s1.released ++ [some d] = _
            rw [e, hrel, List.append_assoc]
          · intro x hx
            rcases List.mem_cons.mp hx with rfl | hx
            · exact read_free_same
            · have hxp : x ≠ p := fun e => hprest (e ▸ hx)
              show ((s1.heap.write p { nd with next := none }).free p).read x = none
              rw [hkeep2 x hxp]; exact hgone x hx
          · intro x hx
            have hxp : x ≠ p := fun e => hx (by simp [e])
            show ((s1.heap.write p { nd with next := none }).free p).read x = s.heap.read x
            rw [hkeep2 x hxp]
            exact hkeep x (fun hm => hx (List.mem_cons_of_mem _ hm))

theorem map_some_filterMap {β : Type} (f : Nat → Option β) (l : List Nat)
    (hall : ∀ p ∈ l, f p ≠ none) : (l.filterMap f).map some = l.map f := by
  induction l with
  | nil => rfl
  | cons a t ih =>
    have ha := hall a (List.mem_cons_self _ _)
    cases hfa : f a with
    | none => exact absurd hfa ha
    | some b =>
      simp only [List.filterMap_cons, hfa, List.map_cons]
      rw [ih (fun p hp => hall p (List.mem_cons_of_mem _ hp))]

/-- C15: on a well-formed collection `ps`, `ll_free_list` started at head returns, given
call depth for the number of nodes, and leaves head empty.  The log of `free` calls has grown
by the nodes of `ps`, each once (last node first), and they are gone from memory while every
other cell is untouched; the log of `free_data` calls has grown by the elements of the nodes
that have one, each once, in the same order: when every node has an element, by the elements
of `ps`, last first. -/
theorem ll_free_list_releases {α : Type} (s : FreeState α) (head tail : Option Nat)
    (ps : List Nat) (depth : Nat) (hwf : WellFormed s.heap head tail ps)
    (hdepth : ps.length ≤ depth) :
    ∃ s1, ll_free_list depth s head = some (s1, none) ∧
      s1.freed = s.freed ++ ps.reverse ∧ ps.reverse.Nodup ∧
      s1.released = s.released ++ (ps.reverse.filterMap (dataAt s.heap)).map some ∧
      ((∀ p ∈ ps, dataAt s.heap p ≠ none) →
        s1.released = s.released ++ ps.reverse.map (dataAt s.heap)) ∧
      (∀ p ∈ ps, s1.heap.read p = none) ∧
      (∀ q, q ∉ ps → s1.heap.read q = s.heap.read q) := by
  obtain ⟨s1, e, hfreed, hrel, hgone, hkeep⟩ :=
    free_list_spec ps none depth s hwf.links hwf.nodup hdepth
  refine ⟨s1, by rw [hwf.head_eq]; exact e, hfreed, List.nodup_reverse.mpr hwf.nodup, hrel,
    ?_, hgone, hkeep⟩
  intro hall
  rw [hrel, map_some_filterMap _ _ (fun p hp => hall p (List.mem_reverse.mp hp))]

theorem ll_free_list_releases_witness :
    ∃ s1, ll_free_list 3 ⟨threeNodes, [], []⟩ (some 0) = some (s1, none) ∧
      s1.freed = [] ++ [0, 1, 2].reverse ∧ [0, 1, 2].reverse.Nodup ∧
      s1.released = [] ++ ([0, 1, 2].reverse.filterMap (dataAt threeNodes)).map some ∧
      ((∀ p ∈ [0, 1, 2], dataAt threeNodes p ≠ none) →
        s1.released = [] ++ [0, 1, 2].reverse.map (dataAt threeNodes)) ∧
      (∀ p ∈ [0, 1, 2], s1.heap.read p = none) ∧
      (∀ q, q ∉ [0, 1, 2] → s1.heap.read q = threeNodes.read q) :=
  ll_free_list_releases ⟨threeNodes, [], []⟩ (some 0) (some 2) [0, 1, 2] 3 threeNodes_wf
    (by decide)

/-- C17: let the count equal the number of nodes of a well-formed collection `ps` (0 for the
empty one).  Then `ll_from_json_string` returns 0 or -1 (given fuel for the length of the
text), whatever the codec and the allocator do, and afterwards the forward traversal from
head visits the nodes `ps ++ qs` and the count is their number; when 0 is returned the count
has grown by exactly the number of objects the scan cuts out of the text, and no brace of the
text is left open. -/
theorem ll_from_json_string_count {α : Type} (malloc_ok : Nat → Bool)
    (deserializer : json_deserializer α) (data_size fuel : Nat) (text : List Char)
    (st : DecState α) (ps : List Nat) (hwf : WellFormed st.heap st.head st.tail ps)
    (hcount : st.length = ps.length) (hfuel : text.length < fuel) :
    ∃ rc st1 qs,
      ll_from_json_string malloc_ok deserializer data_size fuel text st = some (rc, st1) ∧
      (rc = 0 ∨ rc = -1) ∧
      forward st.heap ps.length st.head = some ps ∧
      forward st1.heap (ps ++ qs).length st1.head = some (ps ++ qs) ∧
      st1.length = (ps ++ qs).length ∧
      (rc = 0 → st1.length = st.length + (scan_objects fuel text).length ∧
        open_depth 0 text = 0) := by
  have hfw : forward st.heap ps.length st.head = some ps := by
    rw [hwf.head_eq]; exact forward_of_seg hwf.links (le_refl _)
  by_cases hsize : data_size = 0
  · refine ⟨-1, st, [], by simp [ll_from_json_string, hsize], Or.inr rfl, hfw,
      by simpa using hfw, by simp [hcount], ?_⟩
    intro h0; cases h0
  · obtain ⟨rc, st1, qs, c, hr, hwf1, -, -, -, -, -, hlen, -, -, -, -, hrc⟩ :=
      from_json_loop_spec malloc_ok deserializer data_size fuel text st ps hwf hfuel
    refine ⟨rc, st1, qs, by simp [ll_from_json_string, hsize, hr], ?_, hfw, ?_, ?_, ?_⟩
    · rcases hrc with ⟨h0, -⟩ | h1
      · exact Or.inl h0
      · exact Or.inr h1
    · rw [hwf1.head_eq]; exact forward_of_seg hwf1.links (le_refl _)
    · rw [hlen, hcount]; simp
    · intro h0
      rcases hrc with ⟨-, h2, h3⟩ | h1
      · exact ⟨by rw [hlen, h2], h3⟩
      · rw [h0] at h1; cases h1

theorem ll_from_json_string_count_witness :
    ∃ rc st1 qs,
      ll_from_json_string always (deserialize_record always) 16 100
        ('[' :: record_text hiRecord ++ [']']) emptyDiary = some (rc, st1) ∧
      (rc = 0 ∨ rc = -1) ∧
      forward emptyDiary.heap ([] : List Nat).length emptyDiary.head = some [] ∧
      forward st1.heap ([] ++ qs).length st1.head = some ([] ++ qs) ∧
      st1.length = ([] ++ qs).length ∧
      (rc = 0 → st1.length = emptyDiary.length +
          (scan_objects 100 ('[' :: record_text hiRecord ++ [']'])).length ∧
        open_depth 0 ('[' :: record_text hiRecord ++ [']']) = 0) :=
  ll_from_json_string_count always (deserialize_record always) 16 100
    ('[' :: record_text hiRecord ++ [']']) emptyDiary [] (emptyState_wf [] 0) rfl
    (by decide)

/-! ## The serializer -/

theorem digit_char_eq (d : Nat) (hd : d < 10) : digit_char d = Nat.digitChar d := by
  interval_cases d <;> rfl

theorem dec_digits_eq_toDigitsCore (fuel n : Nat) (acc : List Char) :
    dec_digits fuel n acc = Nat.toDigitsCore 10 fuel n acc := by
  induction fuel generalizing n acc with
  | zero => rfl
  | succ fuel ih =>
    by_cases hn : n < 10
    · have h0 : n / 10 = 0 := Nat.div_eq_of_lt hn
      have h1 : n % 10 = n := Nat.mod_eq_of_lt hn
      simp [dec_digits, Nat.toDigitsCore, hn, h0, h1, digit_char_eq n hn]
    · have h0 : n / 10 ≠ 0 := by omega
      simp only [dec_digits, Nat.toDigitsCore, hn, h0, if_false]
      rw [ih, digit_char_eq _ (Nat.mod_lt _ (by decide))]

theorem fmt_d_eq_toString (v : Int) : fmt_d v = (toString v).toList := by
  cases v with
  | ofNat n =>
    show dec_digits (n + 1) n [] = (toString (Int.ofNat n)).toList
    rw [dec_digits_eq_toDigitsCore]
    rfl
  | negSucc n =>
    show '-' :: dec_digits (n + 2) (n + 1) [] = (toString (Int.negSucc n)).toList
    rw [dec_digits_eq_toDigitsCore]
    rfl

theorem record_text_eq_fragment (rec : Record) :
    record_text rec = fragment_of rec.day rec.month rec.year (rec.note.getD []) := by
  simp only [record_text, fragment_of, fmt_d_eq_toString]
  rfl

set_option maxRecDepth 100000 in
/-- C18: for every record and buffer size, `serialize_record` returns 0 exactly when the text
of the record, the fragment with day, month and year in decimal and the note (empty when
absent) between double quotes, is shorter than the buffer size, and the buffer then holds
exactly that text; otherwise it fails.  Encoding the one-element collection that holds
(1, 2, 2024, "hi") gives the text of the scenario. -/
theorem serialize_record_exact :
    (∀ (rec : Record) (buffer_size : Nat),
      serialize_record (some rec) buffer_size =
        if (fragment_of rec.day rec.month rec.year (rec.note.getD [])).length < buffer_size
        then some (fragment_of rec.day rec.month rec.year (rec.note.getD []))
        else none) ∧
    (ll_to_json_string always serialize_record (diaryOf hiRecord) 1 (some 0)).map
      (fun out => (out.ret, out.json_str)) = some (0, some scenarioText) := by
  refine ⟨?_, by decide⟩
  intro rec buffer_size
  rw [← record_text_eq_fragment]
  by_cases hlt : (record_text rec).length < buffer_size
  · have : ¬ (record_text rec).length ≥ buffer_size := by omega
    simp [serialize_record, hlt, this]
  · have : (record_text rec).length ≥ buffer_size := by omega
    simp [serialize_record, hlt, this]

/-! ## Decoding one record -/

/-- C19: for every day and month in -128..127, year in -32768..32767 and note `N` of 1 to 511
characters without double quote and braces, decoding the text made of an opening bracket, the
fragment of these values and a closing bracket with `ll_from_json_string` and
`deserialize_record` into an empty collection returns 0 (allocation succeeding, fuel for the
length of the text) with count 1 and a well-formed one-node collection, head and tail being
that node, whose element has exactly these four fields. -/
theorem decode_one_record (malloc_ok : Nat → Bool) (day month year : Int)
    (note : List Char) (st0 : DecState Record) (data_size fuel : Nat)
    (hm : ∀ n, malloc_ok n = true)
    (hday : -128 ≤ day ∧ day ≤ 127) (hmonth : -128 ≤ month ∧ month ≤ 127)
    (hyear : -32768 ≤ year ∧ year ≤ 32767)
    (hlen : 1 ≤ note.length ∧ note.length ≤ 511)
    (hq : '"' ∉ note) (hl : '{' ∉ note) (hr : '}' ∉ note)
    (hhead : st0.head = none) (htail : st0.tail = none) (hcount : st0.length = 0)
    (hsize : data_size ≠ 0)
    (hfuel : ('[' :: fragment_of day month year note ++ [']']).length < fuel) :
    ∃ st1 p,
      ll_from_json_string malloc_ok (deserialize_record malloc_ok) data_size fuel
        ('[' :: fragment_of day month year note ++ [']']) st0 = some (0, st1) ∧
      st1.length = 1 ∧ st1.head = some p ∧ st1.tail = some p ∧
      WellFormed st1.heap st1.head st1.tail [p] ∧
      dataAt st1.heap p =
        some { day := day, month := month, year := year, note := some note } := by
  have hfrag : fragment_of day month year note =
      record_text { day := day, month := month, year := year, note := some note } := by
    rw [record_text_eq_fragment]
    simp only [Option.getD_some]
  rw [hfrag] at hfuel ⊢
  have hne : note ≠ [] := by
    intro e; rw [e] at hlen; simp at hlen
  obtain ⟨body, hshape, hbl, hbr⟩ :=
    record_text_shape_of { day := day, month := month, year := year, note := some note }
      note rfl hl hr
  have hdes := deserialize_record_text_of malloc_ok hm
    { day := day, month := month, year := year, note := some note } note
    (record_text { day := day, month := month, year := year, note := some note }).length
    ⟨hday.1, hday.2, hmonth.1, hmonth.2, hyear.1, hyear.2⟩ rfl hne hq hlen.2
  have hnext := next_object_fragment ['['] body [']'] (by decide) hbl hbr
  rw [← hshape] at hnext
  have hwf0 : WellFormed st0.heap st0.head st0.tail [] := by
    rw [hhead, htail]; exact ⟨List.nodup_nil, trivial, rfl, rfl⟩
  cases fuel with
  | zero => simp at hfuel
  | succ fuel =>
    cases fuel with
    | zero => simp at hfuel
    | succ fuel =>
      rcases store_object_spec malloc_ok (deserialize_record malloc_ok) data_size hwf0
          (record_text { day := day, month := month, year := year, note := some note })
          (record_text { day := day, month := month, year := year, note := some note }).length
        with ⟨st1, -, -, -, -, -, -, hbad⟩ | ⟨st1, data, hs, hd, hwf1, hqd, -, hcount1, -⟩
      · rcases hbad with hbad | ⟨k, hk⟩
        · rw [hdes] at hbad; cases hbad
        · rw [hm k] at hk; cases hk
      · rw [hdes] at hd
        cases hd
        have hwf2 : WellFormed st1.heap st1.head st1.tail [st0.heap.length] := by
          simpa using hwf1
        refine ⟨st1, st0.heap.length, ?_, by rw [hcount1, hcount]; rfl, hwf2.head_eq,
          hwf2.tail_eq, hwf2, hqd⟩
        have htext : '[' :: record_text
            { day := day, month := month, year := year, note := some note } ++ [']'] =
            ['['] ++ record_text
              { day := day, month := month, year := year, note := some note } ++ [']'] := by
          simp
        simp only [ll_from_json_string, hsize, if_false]
        rw [htext, from_json_loop_object hnext hs]
        exact from_json_loop_no_brace _ _ _ _ _ _ (by decide)

set_option maxRecDepth 100000 in
theorem decode_one_record_witness :
    ∃ st1 p,
      ll_from_json_string always (deserialize_record always) 16 100
        ('[' :: fragment_of 1 2 2024 ['h', 'i'] ++ [']']) emptyDiary = some (0, st1) ∧
      st1.length = 1 ∧ st1.head = some p ∧ st1.tail = some p ∧
      WellFormed st1.heap st1.head st1.tail [p] ∧
      dataAt st1.heap p =
        some { day := 1, month := 2, year := 2024, note := some ['h', 'i'] } :=
  decode_one_record always 1 2 2024 ['h', 'i'] emptyDiary 16 100 (fun _ => rfl)
    (by decide) (by decide) (by decide) (by decide) (by decide) (by decide) (by decide)
    rfl rfl rfl (by decide) (by decide)

/-! ## What the deserializer rejects -/

theorem scan_lit_inv : ∀ (lit s r : List Char), scan_lit lit s = some r → s = lit ++ r := by
  intro lit
  induction lit with
  | nil => intro s r h; simp only [scan_lit, Option.some.injEq] at h; simp [h]
  | cons c fmt ih =>
    intro s r h
    cases s with
    | nil => simp [scan_lit] at h
    | cons d s1 =>
      by_cases hcd : c = d
      · subst hcd
        simp only [scan_lit, if_true] at h
        rw [ih s1 r h]; rfl
      · simp [scan_lit, hcd] at h

theorem skip_space_inv (s : List Char) : ∃ w, s = w ++ skip_space s ∧ IsSpace w := by
  induction s with
  | nil => exact ⟨[], rfl, fun _ h => by cases h⟩
  | cons c rest ih =>
    by_cases hc : isspace c = true
    · obtain ⟨w, e, hw⟩ := ih
      refine ⟨c :: w, ?_, ?_⟩
      · simp only [skip_space, hc, if_true, List.cons_append]
        rw [← e]
      · intro x hx
        rcases List.mem_cons.mp hx with rfl | hx
        · exact hc
        · exact hw x hx
    · exact ⟨[], by simp [skip_space, hc], fun _ h => by cases h⟩

theorem isSpace_append {w1 w2 : List Char} (h1 : IsSpace w1) (h2 : IsSpace w2) :
    IsSpace (w1 ++ w2) := by
  intro c hc
  rcases List.mem_append.mp hc with h | h
  · exact h1 c h
  · exact h2 c h

theorem scan_digits_inv : ∀ (s : List Char) (acc : Nat),
    ∃ ds, s = ds ++ (scan_digits s acc).2 ∧ ∀ c ∈ ds, isdigit c = true := by
  intro s
  induction s with
  | nil => intro acc; exact ⟨[], rfl, fun _ h => by cases h⟩
  | cons c rest ih =>
    intro acc
    by_cases hc : isdigit c = true
    · obtain ⟨ds, e, hds⟩ := ih (acc * 10 + (c.toNat - 48))
      refine ⟨c :: ds, ?_, ?_⟩
      · simp only [scan_digits, hc, if_true, List.cons_append]
        rw [← e]
      · intro x hx
        rcases List.mem_cons.mp hx with rfl | hx
        · exact hc
        · exact hds x hx
    · exact ⟨[], by simp [scan_digits, hc], fun _ h => by cases h⟩

theorem scan_sign_inv (s : List Char) :
    ∃ sg, s = sg ++ (scan_sign s).2 ∧ (sg = [] ∨ sg = ['-'] ∨ sg = ['+']) := by
  unfold scan_sign
  split
  · exact ⟨['-'], rfl, Or.inr (Or.inl rfl)⟩
  · exact ⟨['+'], rfl, Or.inr (Or.inr rfl)⟩
  · exact ⟨[], rfl, Or.inl rfl⟩

theorem scan_int_inv {s r : List Char} {v : Int} (h : scan_int s = some (v, r)) :
    ∃ w d, s = w ++ (d ++ r) ∧ IsSpace w ∧ IsNumber d := by
  obtain ⟨w, e1, hw⟩ := skip_space_inv s
  obtain ⟨sg, e2, hsg⟩ := scan_sign_inv (skip_space s)
  unfold scan_int at h
  simp only at h
  cases hs : (scan_sign (skip_space s)).2 with
  | nil => rw [hs] at h; simp at h
  | cons c rest =>
    rw [hs] at h
    by_cases hc : isdigit c = true
    · simp only [hc, if_true, Option.some.injEq, Prod.mk.injEq] at h
      obtain ⟨ds, e3, hds⟩ := scan_digits_inv (c :: rest) 0
      rw [h.2] at e3
      have hne : ds ≠ [] := by
        intro e
        rw [e] at e3
        simp only [List.nil_append] at e3
        have hlen := (scan_digits_inv rest (0 * 10 + (c.toNat - 48)))
        obtain ⟨ds1, e4, -⟩ := hlen
        have : (scan_digits (c :: rest) 0).2 = (scan_digits rest (0 * 10 + (c.toNat - 48))).2 := by
          simp [scan_digits, hc]
        rw [h.2] at this
        rw [← this] at e4
        have l1 := congrArg List.length e3
        have l2 := congrArg List.length e4
        simp only [List.length_cons, List.length_append] at l1 l2
        omega
      refine ⟨w, sg ++ ds, ?_, hw, ⟨sg, ds, rfl, hsg, hne, hds⟩⟩
      have e5 : skip_space s = sg ++ (ds ++ r) := by rw [← e3, ← hs]; exact e2
      rw [List.append_assoc, ← e5]
      exact e1
    · simp [hc] at h

theorem scan_notquote_inv (s : List Char) (width : Nat)
    (h : (scan_notquote width s).1 ≠ []) : ∃ c rest, s = c :: rest ∧ c ≠ '"' := by
  cases width with
  | zero => simp [scan_notquote] at h
  | succ width =>
    cases s with
    | nil => simp [scan_notquote] at h
    | cons c rest =>
      by_cases hc : c = '"'
      · simp [scan_notquote, hc] at h
      · exact ⟨c, rest, rfl, hc⟩

theorem scan_int_skip_inv {s : List Char} {x : Int × List Char}
    (h : scan_int (skip_space s) = some x) :
    ∃ w d, s = w ++ (d ++ x.2) ∧ IsSpace w ∧ IsNumber d := by
  obtain ⟨v, r⟩ := x
  obtain ⟨w0, e0, hw0⟩ := skip_space_inv s
  obtain ⟨w, d, e, hw, hd⟩ := scan_int_inv h
  refine ⟨w0 ++ w, d, ?_, isSpace_append hw0 hw, hd⟩
  rw [List.append_assoc, ← e]
  exact e0

theorem scan_lit_skip_inv {lit s r : List Char}
    (h : scan_lit lit (skip_space s) = some r) :
    ∃ w, s = w ++ (lit ++ r) ∧ IsSpace w := by
  obtain ⟨w0, e0, hw0⟩ := skip_space_inv s
  refine ⟨w0, ?_, hw0⟩
  rw [← scan_lit_inv _ _ _ h]
  exact e0

theorem sscanf_record_shape {t : List Char} {x : Int × Int × Int × List Char}
    (h : sscanf_record t = some x) : RecordShape t := by
  simp only [sscanf_record, Option.bind_eq_bind, Option.bind_eq_some] at h
  obtain ⟨a, h1, a1, h2, b, h3, a2, h4, a3, h5, b3, h6, a4, h7, a5, h8, b5, h9,
    a7, h10, a8, h11, h12⟩ := h
  have e1 := scan_lit_inv _ _ _ h1
  obtain ⟨w1, d, e2, hw1, hd⟩ := scan_int_skip_inv h2
  have e3 := scan_lit_inv _ _ _ h3
  obtain ⟨w2, e4, hw2⟩ := scan_lit_skip_inv h4
  obtain ⟨w3, m, e5, hw3, hm⟩ := scan_int_skip_inv h5
  have e6 := scan_lit_inv _ _ _ h6
  obtain ⟨w4, e7, hw4⟩ := scan_lit_skip_inv h7
  obtain ⟨w5, y, e8, hw5, hy⟩ := scan_int_skip_inv h8
  have e9 := scan_lit_inv _ _ _ h9
  obtain ⟨w6, e10, hw6⟩ := scan_lit_skip_inv h10
  obtain ⟨w7, e11, hw7⟩ := scan_lit_skip_inv h11
  have hne : (scan_notquote 511 a8).1 ≠ [] := by
    intro hc
    rw [if_pos hc] at h12
    cases h12
  obtain ⟨c, rest, e12, hc⟩ := scan_notquote_inv a8 511 hne
  refine ⟨w1, d, w2, w3, m, w4, w5, y, w6, w7, c, rest, ?_,
    hw1, hw2, hw3, hw4, hw5, hw6, hw7, hd, hm, hy, hc⟩
  rw [e1, e2, e3, e4, e5, e6, e7, e8, e9, e10, e11, e12]
  rfl

theorem isspace_of_isdigit {c : Char} (h : isdigit c = true) : isspace c = false := by
  cases hs : isspace c with
  | false => rfl
  | true =>
    simp only [isspace, Bool.decide_or, Bool.or_eq_true, decide_eq_true_eq] at hs
    rcases hs with rfl | rfl | rfl | rfl | rfl | rfl <;> revert h <;> decide

theorem skip_space_append : ∀ (w s : List Char), IsSpace w →
    skip_space (w ++ s) = skip_space s := by
  intro w
  induction w with
  | nil => intro s _; rfl
  | cons c tl ih =>
    intro s hw
    have hc : isspace c = true := hw c (List.mem_cons_self _ _)
    simp only [List.cons_append, skip_space, hc, if_true]
    exact ih s (fun x hx => hw x (List.mem_cons_of_mem _ hx))

theorem scan_digits_comma : ∀ (ds r : List Char) (acc : Nat),
    (∀ c ∈ ds, isdigit c = true) →
    ∃ v, scan_digits (ds ++ ',' :: r) acc = (v, ',' :: r) := by
  intro ds
  induction ds with
  | nil =>
    intro r acc _
    exact ⟨acc, by simp [scan_digits, show isdigit ',' = false by decide]⟩
  | cons c tl ih =>
    intro r acc hd
    have hc : isdigit c = true := hd c (List.mem_cons_self _ _)
    obtain ⟨v, hv⟩ := ih r (acc * 10 + (c.toNat - 48))
      (fun x hx => hd x (List.mem_cons_of_mem _ hx))
    exact ⟨v, by simp only [List.cons_append, scan_digits, hc, if_true, List.append_eq, hv]⟩

theorem scan_int_number {d : List Char} (r : List Char) (hd : IsNumber d) :
    ∃ v, scan_int (d ++ ',' :: r) = some (v, ',' :: r) := by
  obtain ⟨sign, digits, rfl, hsign, hne, hdig⟩ := hd
  obtain ⟨c, tl, rfl⟩ := List.exists_cons_of_ne_nil hne
  have hc : isdigit c = true := hdig c (List.mem_cons_self _ _)
  obtain ⟨v, hv⟩ := scan_digits_comma (c :: tl) r 0 hdig
  have hm : c ≠ '-' := by rintro rfl; revert hc; decide
  have hp : c ≠ '+' := by rintro rfl; revert hc; decide
  rw [List.cons_append] at hv
  rcases hsign with rfl | rfl | rfl
  · refine ⟨(v : Int), ?_⟩
    unfold scan_int
    simp only [List.nil_append, List.cons_append,
      skip_space_of_head (isspace_of_isdigit hc), scan_sign_of_head hm hp, hc, if_true, hv]
    rfl
  · refine ⟨-(v : Int), ?_⟩
    unfold scan_int
    simp only [List.nil_append, List.cons_append,
      skip_space_of_head (show isspace '-' = false by decide), scan_sign, hc, if_true, hv]
  · refine ⟨(v : Int), ?_⟩
    unfold scan_int
    simp only [List.nil_append, List.cons_append,
      skip_space_of_head (show isspace '+' = false by decide), scan_sign, hc, if_true, hv]
    rfl

theorem skip_space_number {d : List Char} (s : List Char) (hd : IsNumber d) :
    skip_space (d ++ s) = d ++ s := by
  obtain ⟨sign, digits, rfl, hsign, hne, hdig⟩ := hd
  obtain ⟨c, tl, rfl⟩ := List.exists_cons_of_ne_nil hne
  have hc : isdigit c = true := hdig c (List.mem_cons_self _ _)
  rcases hsign with rfl | rfl | rfl
  · exact skip_space_of_head (isspace_of_isdigit hc)
  · exact skip_space_of_head (by decide)
  · exact skip_space_of_head (by decide)

theorem scan_int_spaced {w d : List Char} (r : List Char) (hw : IsSpace w) (hd : IsNumber d) :
    ∃ v, scan_int (skip_space (w ++ (d ++ ',' :: r))) = some (v, ',' :: r) := by
  rw [skip_space_append w _ hw, skip_space_number _ hd]
  exact scan_int_number r hd

theorem scan_lit_spaced {w : List Char} (lit r : List Char) (hw : IsSpace w) :
    scan_lit ('"' :: lit) (skip_space (w ++ ('"' :: lit ++ r))) = some r := by
  rw [skip_space_append w _ hw, List.cons_append, skip_space_quote]
  simp only [scan_lit, if_true]
  induction lit with
  | nil => rfl
  | cons c tl ih => simpa only [List.cons_append, scan_lit, if_true] using ih

theorem scan_notquote_head {c : Char} (rest : List Char) (hc : c ≠ '"') :
    (scan_notquote 511 (c :: rest)).1 ≠ [] := by
  simp [scan_notquote, hc]

theorem sscanf_record_of_shape {t : List Char} (hs : RecordShape t) :
    ∃ x, sscanf_record t = some x := by
  obtain ⟨w1, d, w2, w3, m, w4, w5, y, w6, w7, c, rest, rfl,
    hw1, hw2, hw3, hw4, hw5, hw6, hw7, hd, hm, hy, hc⟩ := hs
  obtain ⟨vd, e1⟩ := scan_int_spaced
    (w2 ++ (['"', 'm', 'o', 'n', 't', 'h', '"', ':'] ++
      (w3 ++ (m ++ (',' :: (w4 ++ (['"', 'y', 'e', 'a', 'r', '"', ':'] ++
      (w5 ++ (y ++ (',' :: (w6 ++ (['"', 'n', 'o', 't', 'e', '"', ':'] ++
      (w7 ++ ('"' :: c :: rest))))))))))))))
    hw1 hd
  obtain ⟨vm, e2⟩ := scan_int_spaced
    (w4 ++ (['"', 'y', 'e', 'a', 'r', '"', ':'] ++
      (w5 ++ (y ++ (',' :: (w6 ++ (['"', 'n', 'o', 't', 'e', '"', ':'] ++
      (w7 ++ ('"' :: c :: rest)))))))))
    hw3 hm
  obtain ⟨vy, e3⟩ := scan_int_spaced
    (w6 ++ (['"', 'n', 'o', 't', 'e', '"', ':'] ++ (w7 ++ ('"' :: c :: rest))))
    hw5 hy
  have l1 := scan_lit_spaced ['m', 'o', 'n', 't', 'h', '"', ':']
    (w3 ++ (m ++ (',' :: (w4 ++ (['"', 'y', 'e', 'a', 'r', '"', ':'] ++
      (w5 ++ (y ++ (',' :: (w6 ++ (['"', 'n', 'o', 't', 'e', '"', ':'] ++
      (w7 ++ ('"' :: c :: rest))))))))))))
    hw2
  have l2 := scan_lit_spaced ['y', 'e', 'a', 'r', '"', ':']
    (w5 ++ (y ++ (',' :: (w6 ++ (['"', 'n', 'o', 't', 'e', '"', ':'] ++
      (w7 ++ ('"' :: c :: rest)))))))
    hw4
  have l3 := scan_lit_spaced ['n', 'o', 't', 'e', '"', ':']
    (w7 ++ ('"' :: c :: rest)) hw6
  have l4 := scan_lit_spaced [] (c :: rest) hw7
  have hn := scan_notquote_head rest hc
  refine ⟨(store 32 vd, store 32 vm, store 16 vy, (scan_notquote 511 (c :: rest)).1), ?_⟩
  simp only [List.cons_append, List.nil_append] at l1 l2 l3 l4 e1 e2 e3 ⊢
  simp only [sscanf_record, scan_lit, if_true, Option.bind_eq_bind, Option.some_bind,
    e1, e2, e3, l1, l2, l3, l4, hn, if_false]

/-! ## What the record decoder rejects -/

theorem record_text_last (r : Record) :
    (record_text r).reverse.take 2 = ['}', '"'] := by
  simp [record_text]

set_option maxRecDepth 100000 in
/-- C20 at its failing inputs: a fragment that stops before the closing quote and brace, and
a fragment with a fifth field after the note.  Neither is a text of the codec, and
`deserialize_record` returns 0 on both, with the record of the complete four-field
fragment.  The second one is reached by loading: `ll_from_json_string` on the array that
holds it returns 0 and appends a node with that record. -/
theorem deserialize_record_accepts_tail :
    truncatedFragment ++ ['"', '}'] = record_text hiRecord ∧
    (∀ r, record_text r ≠ truncatedFragment) ∧
    (∀ r, record_text r ≠ extraFieldFragment) ∧
    deserialize_record always truncatedFragment truncatedFragment.length = some hiRecord ∧
    deserialize_record always extraFieldFragment extraFieldFragment.length = some hiRecord ∧
    (ll_from_json_string always (deserialize_record always) 16 100
        ('[' :: extraFieldFragment ++ [']']) emptyDiary).map
      (fun r => (r.1, r.2.length, r.2.head.bind (dataAt r.2.heap))) =
      some (0, 1, some hiRecord) := by
  refine ⟨by decide, ?_, ?_, by decide, by decide, by decide⟩
  · intro r h
    have h2 := record_text_last r
    rw [h] at h2
    revert h2
    decide
  · intro r h
    have h2 := record_text_last r
    rw [h] at h2
    revert h2
    decide

/-- How far the test `sscanf(…) != 4` of `deserialize_record` reaches: the call fails on every
fragment that departs from the format before the second character of the note (a field
missing or out of order, an extra field before the note, a day, month or year that is not an
optionally signed run of digits, an empty note), and, the allocation of the note succeeding,
on no other fragment: what follows the first character of the note is not examined. -/
theorem deserialize_record_rejects (malloc_ok : Nat → Bool) (t : List Char) (n : Nat) :
    (¬ RecordShape t → deserialize_record malloc_ok t n = none) ∧
    ((∀ k, malloc_ok k = true) → RecordShape t →
      ∃ r, deserialize_record malloc_ok t n = some r) := by
  constructor
  · intro hs
    cases hx : sscanf_record t with
    | none => simp only [deserialize_record, hx]
    | some x => exact absurd (sscanf_record_shape hx) hs
  · intro hm hs
    obtain ⟨⟨day, month, year, note⟩, hx⟩ := sscanf_record_of_shape hs
    exact ⟨⟨wrap 8 day, wrap 8 month, year, some note⟩,
      by simp only [deserialize_record, hx, hm, if_true]⟩

theorem deserialize_record_rejects_witness :
    (¬ RecordShape missingFieldFragment ∧
      deserialize_record always missingFieldFragment 40 = none) ∧
    (¬ RecordShape malformedDayFragment ∧
      deserialize_record always malformedDayFragment 51 = none) ∧
    ((∀ k, always k = true) ∧ RecordShape truncatedFragment ∧
      ∃ r, deserialize_record always truncatedFragment 48 = some r) :=
  have h1 : ¬ RecordShape missingFieldFragment := fun hs => by
    obtain ⟨x, hx⟩ := sscanf_record_of_shape hs
    rw [show sscanf_record missingFieldFragment = none by decide] at hx
    cases hx
  have h2 : ¬ RecordShape malformedDayFragment := fun hs => by
    obtain ⟨x, hx⟩ := sscanf_record_of_shape hs
    rw [show sscanf_record malformedDayFragment = none by decide] at hx
    cases hx
  have h3 : RecordShape truncatedFragment :=
    @sscanf_record_shape truncatedFragment (1, 2, 2024, ['h', 'i']) (by decide)
  ⟨⟨h1, (deserialize_record_rejects always missingFieldFragment 40).1 h1⟩,
    ⟨h2, (deserialize_record_rejects always malformedDayFragment 51).1 h2⟩,
    fun _ => rfl, h3,
    (deserialize_record_rejects always truncatedFragment 48).2 (fun _ => rfl) h3⟩

/-! ## The translation map -/

/-- The chain a key is looked up in, for a map with a positive size. -/
theorem bucket_index_eq (m : TranslationMap) (key : List Char) (h0 : 0 < m.size)
    (h1 : m.size < 2 ^ 31) :
    bucket_index m key = some (hash_string key % m.size) ∧
      0 ≤ hash_string key % m.size ∧ hash_string key % m.size < m.size := by
  have hlo : 0 ≤ hash_string key % m.size := Int.emod_nonneg _ (by omega)
  have hhi : hash_string key % m.size < m.size := Int.emod_lt_of_pos _ h0
  have hs : m.size % 2 ^ 64 = m.size := Int.emod_eq_of_lt (by omega) (by omega)
  refine ⟨?_, hlo, hhi⟩
  unfold bucket_index
  rw [hs, if_neg (by omega),
    wrap_of_range 32 _ (by decide) (by norm_num; omega) (by norm_num; omega)]

theorem latest_append (hist : List (List Char × List Char)) (k v key : List Char) :
    latest (hist ++ [(k, v)]) key = if k = key then some v else latest hist key := by
  unfold latest
  rw [List.reverse_append, List.reverse_singleton, List.singleton_append, List.find?_cons]
  by_cases hk : k = key
  · simp [hk]
  · simp [hk]

theorem map_put_holds (malloc_ok : Nat → Bool) (m : TranslationMap)
    (hist : List (List Char × List Char)) (k v : List Char) (hm : MapHolds m hist) :
    ∃ m1, map_put malloc_ok m k v = some m1 ∧
      MapHolds m1 (hist ++ stored malloc_ok [(k, v)]) := by
  obtain ⟨h0, h1, hlen, hfind⟩ := hm
  obtain ⟨hix, hlo, hhi⟩ := bucket_index_eq m k h0 h1
  obtain ⟨bucket, hb, -⟩ := hfind k
  by_cases ha : (malloc_ok sizeof_TranslationEntry && malloc_ok (k.length + 1) &&
      malloc_ok (v.length + 1)) = true
  · have hst : stored malloc_ok [(k, v)] = [(k, v)] := by simp [stored, ha]
    simp only [Bool.and_eq_true] at ha
    obtain ⟨⟨a1, a2⟩, a3⟩ := ha
    refine ⟨⟨m.size, m.buckets.set (hash_string k % m.size).toNat (⟨k, v⟩ :: bucket)⟩,
      ?_, h0, h1, by simpa using hlen, ?_⟩
    · simp [map_put, hix, a1, a2, a3, hb]
    · intro key
      obtain ⟨bk, hbk, hck⟩ := hfind key
      obtain ⟨-, hlok, hhik⟩ := bucket_index_eq m key h0 h1
      rw [hst, latest_append]
      simp only [bucket_at, if_neg (not_lt.mpr hlok)] at hbk ⊢
      simp only [bucket_at, if_neg (not_lt.mpr hlo)] at hb
      by_cases hi : (hash_string k % m.size).toNat = (hash_string key % m.size).toNat
      · have hbb : bk = bucket := by
          rw [hi] at hb; rw [hb] at hbk; exact (Option.some.inj hbk).symm
        refine ⟨⟨k, v⟩ :: bucket, ?_, ?_⟩
        · have : (hash_string key % m.size).toNat < m.buckets.length := by
            rw [hlen]; omega
          rw [hi, List.getElem?_set_self this]
        · simp only [chain_find]
          by_cases hk : k = key
          · simp [hk]
          · simp only [hk, if_false]; rw [← hbb]; exact hck
      · refine ⟨bk, ?_, ?_⟩
        · rw [List.getElem?_set_ne hi]; exact hbk
        · have hk : k ≠ key := by rintro rfl; exact hi rfl
          simp only [hk, if_false]; exact hck
  · have hst : stored malloc_ok [(k, v)] = [] := by simp [stored, ha]
    refine ⟨m, ?_, by rw [hst, List.append_nil]; exact ⟨h0, h1, hlen, hfind⟩⟩
    simp only [Bool.and_eq_true, not_and_or, Bool.not_eq_true] at ha
    by_cases a1 : malloc_ok sizeof_TranslationEntry = true
    · have a23 : malloc_ok (k.length + 1) = false ∨ malloc_ok (v.length + 1) = false := by
        rcases ha with (h | h) | h
        · rw [a1] at h; cases h
        · exact Or.inl h
        · exact Or.inr h
      rcases a23 with h | h <;> simp [map_put, hix, a1, h]
    · simp [map_put, hix, a1]

theorem stored_append (malloc_ok : Nat → Bool) (a b : List (List Char × List Char)) :
    stored malloc_ok (a ++ b) = stored malloc_ok a ++ stored malloc_ok b := by
  simp [stored]

theorem map_put_all_holds (malloc_ok : Nat → Bool) :
    ∀ (puts : List (List Char × List Char)) (m : TranslationMap)
      (hist : List (List Char × List Char)), MapHolds m hist →
      ∃ m1, map_put_all malloc_ok m puts = some m1 ∧
        MapHolds m1 (hist ++ stored malloc_ok puts) := by
  intro puts
  induction puts with
  | nil =>
    intro m hist hm
    exact ⟨m, rfl, by simpa [stored] using hm⟩
  | cons kv rest ih =>
    intro m hist hm
    obtain ⟨k, v⟩ := kv
    obtain ⟨m1, e1, hm1⟩ := map_put_holds malloc_ok m hist k v hm
    obtain ⟨m2, e2, hm2⟩ := ih m1 _ hm1
    refine ⟨m2, by simp only [map_put_all, e1, Option.bind_eq_bind, Option.some_bind, e2], ?_⟩
    have : stored malloc_ok ((k, v) :: rest) =
        stored malloc_ok [(k, v)] ++ stored malloc_ok rest := by
      rw [← stored_append]; rfl
    rw [this, ← List.append_assoc]
    exact hm2

theorem create_map_holds (malloc_ok : Nat → Bool) (size : Int) (map : TranslationMap)
    (hsize : size < 2 ^ 31) (hmap : i18n_create_map malloc_ok size = some map) :
    MapHolds map [] := by
  unfold i18n_create_map at hmap
  split at hmap
  · cases hmap
  · split at hmap
    · cases hmap
    · split at hmap
      · cases hmap
      · rename_i h0 _ _
        cases hmap
        have hpos : 0 < size := by omega
        refine ⟨hpos, hsize, by simp, ?_⟩
        intro key
        show ∃ bucket, bucket_at ⟨size, List.replicate size.toNat []⟩
          (hash_string key % size) = some bucket ∧ chain_find bucket key = latest [] key
        have hlo : 0 ≤ hash_string key % size := Int.emod_nonneg _ (by omega)
        have hhi : hash_string key % size < size := Int.emod_lt_of_pos _ (by omega)
        refine ⟨[], ?_, rfl⟩
        simp only [bucket_at, if_neg (not_lt.mpr hlo)]
        rw [List.getElem?_replicate]
        simp
        omega

theorem get_string_holds (m : TranslationMap) (hist : List (List Char × List Char))
    (key : List Char) (hm : MapHolds m hist) :
    i18n_get_string (some m) (some key) = some (some ((latest hist key).getD key)) := by
  obtain ⟨h0, h1, hlen, hfind⟩ := hm
  obtain ⟨hix, -, -⟩ := bucket_index_eq m key h0 h1
  obtain ⟨bucket, hb, hc⟩ := hfind key
  simp only [i18n_get_string, hix, Option.bind_eq_bind, Option.some_bind, hb, hc]
  cases latest hist key <;> rfl

theorem latest_eq_none (hist : List (List Char × List Char)) (key : List Char) :
    latest hist key = none ↔ ∀ kv ∈ hist, kv.1 ≠ key := by
  simp [latest]

/-- C21: let a translation map be created with `i18n_create_map` and filled by any sequence
of `map_put` calls, whatever the allocator does.  Then `i18n_get_string` returns, for every
key, the value of the most recently stored entry with that key when the map holds one, and
the key itself when it holds none; for an absent map it returns the key. -/
theorem i18n_get_string_lookup (malloc_ok : Nat → Bool) (size : Int) (map : TranslationMap)
    (puts : List (List Char × List Char)) (key : List Char)
    (hsize : size < 2 ^ 31) (hmap : i18n_create_map malloc_ok size = some map) :
    ∃ m, map_put_all malloc_ok map puts = some m ∧
      i18n_get_string (some m) (some key) =
        some (some ((latest (stored malloc_ok puts) key).getD key)) ∧
      (latest (stored malloc_ok puts) key = none ↔
        ∀ kv ∈ stored malloc_ok puts, kv.1 ≠ key) ∧
      i18n_get_string none (some key) = some (some key) := by
  obtain ⟨m, e, hm⟩ := map_put_all_holds malloc_ok puts map []
    (create_map_holds malloc_ok size map hsize hmap)
  rw [List.nil_append] at hm
  exact ⟨m, e, get_string_holds m _ key hm, latest_eq_none _ key, rfl⟩

theorem i18n_get_string_lookup_witness :
    ∃ m, map_put_all always sampleMap samplePuts = some m ∧
      i18n_get_string (some m) (some ['h', 'e', 'l', 'p']) =
        some (some ((latest (stored always samplePuts) ['h', 'e', 'l', 'p']).getD
          ['h', 'e', 'l', 'p'])) ∧
      (latest (stored always samplePuts) ['h', 'e', 'l', 'p'] = none ↔
        ∀ kv ∈ stored always samplePuts, kv.1 ≠ ['h', 'e', 'l', 'p']) ∧
      i18n_get_string none (some ['h', 'e', 'l', 'p']) = some (some ['h', 'e', 'l', 'p']) :=
  i18n_get_string_lookup always 21 sampleMap samplePuts ['h', 'e', 'l', 'p'] (by decide)
    (by decide)

/-! ## Collections of any length -/

theorem chainOf_read (n i : Nat) (hi : i < n) :
    (chainOf n).read i =
      some ⟨some i, if i = 0 then none else some (i - 1),
        if i + 1 < n then some (i + 1) else none⟩ := by
  simp [Heap.read, chainOf, hi]

theorem chainOf_seg (n : Nat) :
    ∀ (m k : Nat), k + m = n →
      seg (chainOf n) (if k = 0 then none else some (k - 1)) (List.range' k m) none := by
  intro m
  induction m with
  | zero => intro k _; trivial
  | succ m ih =>
    intro k hk
    rw [List.range'_succ]
    refine ⟨_, chainOf_read n k (by omega), rfl, ?_, ?_⟩
    · cases m with
      | zero => simp [headOr]; omega
      | succ m => simp [List.range'_succ, headOr]; omega
    · have := ih (k + 1) (by omega)
      simpa using this

theorem chainOf_wf (n : Nat) :
    WellFormed (chainOf n) (List.range n).head? (List.range n).getLast? (List.range n) := by
  refine ⟨List.nodup_range n, ?_, rfl, rfl⟩
  have := chainOf_seg n n 0 (by omega)
  rw [List.range_eq_range']
  simpa using this

/-! ## Object boundaries -/

theorem depth_of_cons (c : Char) (s : List Char) :
    depth_of (c :: s) = brace_step 0 c + depth_of s := by
  unfold depth_of brace_step
  by_cases h1 : c = '{'
  · subst h1
    simp [List.count_cons]
    ring
  · by_cases h2 : c = '}'
    · subst h2
      simp [List.count_cons]
      ring
    · have h1' : ¬ ('{' = c) := fun e => h1 e.symm
      have h2' : ¬ ('}' = c) := fun e => h2 e.symm
      simp [List.count_cons, h1, h2, h1', h2']

theorem brace_step_add (bc : Int) (c : Char) : brace_step bc c = bc + brace_step 0 c := by
  unfold brace_step
  split
  · ring
  · split
    · ring
    · ring

theorem brace_loop_fragment :
    ∀ (f : List Char) (bc : Int) (suffix : List Char), f ≠ [] →
      (∀ k, k < f.length → 0 < k → 0 < bc + depth_of (f.take k)) →
      bc + depth_of f = 0 → brace_loop bc (f ++ suffix) = (0, suffix) := by
  intro f
  induction f with
  | nil => intro bc suffix h; exact absurd rfl h
  | cons c rest ih =>
    intro bc suffix _ hpos hzero
    have hstep : brace_step bc c = bc + brace_step 0 c := brace_step_add bc c
    cases rest with
    | nil =>
      have hz : brace_step bc c = 0 := by
        rw [hstep]
        have h0 : depth_of ([] : List Char) = 0 := rfl
        have := depth_of_cons c []
        rw [h0] at this
        omega
      simp only [List.cons_append, List.nil_append, brace_loop, hz]
      simp
    | cons d rest1 =>
      have h1 := hpos 1 (by simp) (by omega)
      have hd1 : depth_of ((c :: d :: rest1).take 1) = brace_step 0 c := by
        have h0 : depth_of ([] : List Char) = 0 := rfl
        have := depth_of_cons c []
        rw [h0] at this
        simpa using this
      rw [hd1] at h1
      rw [List.cons_append, brace_loop_cons_go _ _ _ (by rw [hstep]; exact h1) (by simp)]
      apply ih _ _ (by simp)
      · intro k hk hk0
        have := hpos (k + 1) (by simpa using hk) (by omega)
        rw [List.take_succ_cons, depth_of_cons] at this
        rw [hstep]; omega
      · rw [depth_of_cons] at hzero
        rw [hstep]; omega

theorem next_object_of_fragment (pre f suffix : List Char) (hpre : '{' ∉ pre)
    (hf : IsFragment f) :
    next_object (pre ++ f ++ suffix) = Scan.object f f.length suffix := by
  obtain ⟨hhead, -, hzero, hpos⟩ := hf
  obtain ⟨rest, rfl⟩ : ∃ rest, f = '{' :: rest := by
    cases f with
    | nil => simp at hhead
    | cons c rest => simp at hhead; exact ⟨rest, by rw [hhead]⟩
  have hb : brace_loop 0 ('{' :: rest ++ suffix) = (0, suffix) :=
    brace_loop_fragment ('{' :: rest) 0 suffix (by simp)
      (fun k hk hk0 => by simpa using hpos k hk hk0) (by simpa using hzero)
  have e : pre ++ '{' :: rest ++ suffix = pre ++ '{' :: (rest ++ suffix) := by simp
  rw [e]
  rw [List.cons_append] at hb
  simp only [next_object, skip_to_brace_prefix _ _ hpre, hb, ne_eq, not_true_eq_false,
    if_false]
  have hlen : ('{' :: (rest ++ suffix)).length - suffix.length = ('{' :: rest).length := by
    simp only [List.length_cons, List.length_append]; omega
  rw [hlen]
  congr 1
  have : '{' :: (rest ++ suffix) = ('{' :: rest) ++ suffix := by simp
  rw [this, List.take_left' rfl]

theorem from_json_loop_fragments {α : Type} (malloc_ok : Nat → Bool)
    (hm : ∀ n, malloc_ok n = true) (deserializer : json_deserializer α) (data_size : Nat) :
    ∀ (fs : List (List Char)) (pre : List Char) (st : DecState α) (ps : List Nat)
      (fuel : Nat), '{' ∉ pre →
      (∀ f ∈ fs, IsFragment f ∧ deserializer f f.length ≠ none) →
      WellFormed st.heap st.head st.tail ps →
      (pre ++ join_fragments fs ++ [']']).length < fuel →
      ∃ st1 qs,
        from_json_loop malloc_ok deserializer data_size fuel
          (pre ++ join_fragments fs ++ [']']) st = some (0, st1) ∧
        WellFormed st1.heap st1.head st1.tail (ps ++ qs) ∧
        qs.map (dataAt st1.heap) = fs.map (fun f => deserializer f f.length) ∧
        (∀ p, p < st.heap.length → dataAt st1.heap p = dataAt st.heap p) ∧
        st.heap.length ≤ st1.heap.length ∧
        st1.length = st.length + fs.length ∧
        st1.calls = st.calls ++ fs.map (fun f => (f, f.length)) := by
  intro fs
  induction fs with
  | nil =>
    intro pre st ps fuel hpre _ hwf hfuel
    cases fuel with
    | zero => simp at hfuel
    | succ fuel =>
      refine ⟨st, [], ?_, by simpa using hwf, rfl, fun _ _ => rfl, le_refl _, by simp,
        by simp⟩
      apply from_json_loop_no_brace
      simp only [join_fragments, List.append_nil, List.mem_append, List.mem_singleton, not_or]
      exact ⟨hpre, by decide⟩
  | cons f rest ih =>
    intro pre st ps fuel hpre hfs hwf hfuel
    obtain ⟨hfrag, hdec⟩ := hfs f (List.mem_cons_self _ _)
    have htext : pre ++ join_fragments (f :: rest) ++ [']'] =
        pre ++ f ++ ((if rest = [] then [] else [',']) ++ join_fragments rest ++ [']']) := by
      rw [join_fragments_cons]
      simp only [List.append_assoc]
    have hnext := next_object_of_fragment pre f
      ((if rest = [] then [] else [',']) ++ join_fragments rest ++ [']']) hpre hfrag
    rw [← htext] at hnext
    cases fuel with
    | zero => simp at hfuel
    | succ fuel =>
      rcases store_object_spec malloc_ok deserializer data_size hwf f f.length with
        ⟨st1, -, -, -, -, -, -, hbad⟩ | ⟨st1, data, hs, hd, hwf1, hq, hold, hcount, hcalls⟩
      · rcases hbad with hbad | ⟨k, hk⟩
        · exact absurd hbad hdec
        · rw [hm k] at hk; cases hk
      · have hlen1 : st.heap.length < st1.heap.length :=
          seg_lt hwf1.links (List.mem_append_right _ (List.mem_singleton_self _))
        have hsep : '{' ∉ (if rest = [] then [] else [',']) := by
          split <;> decide
        have hfuel1 : ((if rest = [] then [] else [',']) ++
            join_fragments rest ++ [']']).length < fuel := by
          have := congrArg List.length htext
          have hne : f ≠ [] := by
            intro e; rw [e] at hfrag; exact absurd hfrag.1 (by simp)
          have hpos : 0 < f.length := List.length_pos.mpr hne
          simp only [List.length_append, List.length_cons] at this hfuel ⊢
          omega
        obtain ⟨st2, qs, hloop, hwf2, hdata, hold2, hlen2, hcount2, hcalls2⟩ :=
          ih _ st1 (ps ++ [st.heap.length]) fuel hsep
            (fun x hx => hfs x (List.mem_cons_of_mem _ hx)) hwf1 hfuel1
        refine ⟨st2, st.heap.length :: qs, ?_, by simpa using hwf2, ?_, ?_, by omega, ?_, ?_⟩
        · rw [from_json_loop_object hnext hs]; exact hloop
        · simp only [List.map_cons, hdata, hold2 _ hlen1, hq, hd]
        · intro p hp; rw [hold2 p (by omega), hold p hp]
        · rw [hcount2, hcount]; simp only [List.length_cons]; push_cast; ring
        · rw [hcalls2, hcalls]; simp

theorem scan_objects_fragments :
    ∀ (fs : List (List Char)) (pre : List Char) (fuel : Nat), '{' ∉ pre →
      (∀ f ∈ fs, IsFragment f) → fs.length < fuel →
      scan_objects fuel (pre ++ join_fragments fs ++ [']']) = fs := by
  intro fs
  induction fs with
  | nil =>
    intro pre fuel hpre _ hfuel
    cases fuel with
    | zero => simp at hfuel
    | succ fuel =>
      have hno : '{' ∉ pre ++ join_fragments [] ++ [']'] := by
        simp only [join_fragments, List.append_nil, List.mem_append, List.mem_singleton, not_or]
        exact ⟨hpre, by decide⟩
      simp only [scan_objects, next_object, skip_to_brace_of_not_mem hno]
  | cons f rest ih =>
    intro pre fuel hpre hfs hfuel
    have hfrag := hfs f (List.mem_cons_self _ _)
    have htext : pre ++ join_fragments (f :: rest) ++ [']'] =
        pre ++ f ++ ((if rest = [] then [] else [',']) ++ join_fragments rest ++ [']']) := by
      rw [join_fragments_cons]
      simp only [List.append_assoc]
    have hnext := next_object_of_fragment pre f
      ((if rest = [] then [] else [',']) ++ join_fragments rest ++ [']']) hpre hfrag
    rw [← htext] at hnext
    have hsep : '{' ∉ (if rest = [] then [] else [',']) := by
      split <;> decide
    cases fuel with
    | zero => simp at hfuel
    | succ fuel =>
      simp only [scan_objects, hnext]
      rw [ih _ fuel hsep (fun x hx => hfs x (List.mem_cons_of_mem _ hx))
        (by simpa using hfuel)]

/-- C23: let `fs` be fragments, each starting with an opening brace, ending with a closing
brace and brace-balanced with the depth first back at zero at its last character.  On the text
made of an opening bracket, the fragments separated by commas and a closing bracket, the scan
of `ll_from_json_string` cuts out exactly the fragments, in order.  Whatever the codec and the
allocator do, the call returns and the deserializer has been called on the first fragments
only, in order, each with its exact length.  When the codec accepts every fragment and the
allocations succeed, the call returns 0, the deserializer has been called on all of them,
and one node per fragment, holding what the deserializer made of it, is appended behind the
former nodes in the same order, the last one being the tail. -/
theorem object_boundaries {α : Type} (malloc_ok : Nat → Bool)
    (deserializer : json_deserializer α) (data_size fuel : Nat) (fs : List (List Char))
    (st : DecState α) (ps : List Nat) (hfs : ∀ f ∈ fs, IsFragment f)
    (hwf : WellFormed st.heap st.head st.tail ps)
    (hfuel : (reference_text fs).length < fuel) :
    scan_objects fuel (reference_text fs) = fs ∧
    (∃ rc st1 c,
      ll_from_json_string malloc_ok deserializer data_size fuel (reference_text fs) st =
        some (rc, st1) ∧
      c ≤ fs.length ∧
      st1.calls = st.calls ++ (fs.take c).map (fun f => (f, f.length))) ∧
    ((∀ n, malloc_ok n = true) → data_size ≠ 0 →
      (∀ f ∈ fs, deserializer f f.length ≠ none) →
      ∃ st1 qs,
        ll_from_json_string malloc_ok deserializer data_size fuel (reference_text fs) st =
          some (0, st1) ∧
        st1.calls = st.calls ++ fs.map (fun f => (f, f.length)) ∧
        WellFormed st1.heap st1.head st1.tail (ps ++ qs) ∧
        qs.length = fs.length ∧
        qs.map (dataAt st1.heap) = fs.map (fun f => deserializer f f.length) ∧
        (∀ p, p < st.heap.length → dataAt st1.heap p = dataAt st.heap p) ∧
        st1.length = st.length + fs.length) := by
  have htext : reference_text fs = ['['] ++ join_fragments fs ++ [']'] := rfl
  have hpre : '{' ∉ ['['] := by decide
  have hlen : fs.length < fuel := by
    have h1 : ∀ gs : List (List Char), gs.length ≤ (join_fragments gs).length + 1 := by
      intro gs
      induction gs with
      | nil => simp
      | cons g rest ih =>
        rw [join_fragments_cons]
        by_cases hr : rest = []
        · subst hr; simp
        · simp only [hr, if_false, List.length_append, List.length_cons, List.length_nil]
          omega
    have h2 := h1 fs
    rw [htext] at hfuel
    simp only [List.length_append, List.length_cons, List.length_nil] at hfuel
    omega
  have hscan : scan_objects fuel (reference_text fs) = fs := by
    rw [htext]
    exact scan_objects_fragments fs ['['] fuel hpre hfs hlen
  refine ⟨hscan, ?_, ?_⟩
  · by_cases hz : data_size = 0
    · exact ⟨-1, st, 0, by simp [ll_from_json_string, hz], by simp, by simp⟩
    · obtain ⟨rc, st1, qs, c, hr, -, -, -, -, -, -, -, hcalls, -, -, hc, -⟩ :=
        from_json_loop_spec malloc_ok deserializer data_size fuel (reference_text fs) st ps
          hwf hfuel
      rw [hscan] at hcalls hc
      exact ⟨rc, st1, c, by simp only [ll_from_json_string, hz, if_false, hr], hc, hcalls⟩
  · intro hm hz hdec
    rw [htext] at hfuel
    obtain ⟨st1, qs, hr, hwf1, hdata, hold, -, hcount, hcalls⟩ :=
      from_json_loop_fragments malloc_ok hm deserializer data_size fs ['['] st ps fuel hpre
        (fun f hf => ⟨hfs f hf, hdec f hf⟩) hwf hfuel
    refine ⟨st1, qs, by simp only [ll_from_json_string, hz, if_false, htext, hr], hcalls,
      hwf1, ?_, hdata, hold, hcount⟩
    have := congrArg List.length hdata
    simpa using this

theorem object_boundaries_witness :
    (∀ f ∈ nestedFragments, IsFragment f) ∧
    scan_objects 40 (reference_text nestedFragments) = nestedFragments ∧
    ∃ st1 qs,
      ll_from_json_string always sizeOnly 8 40 (reference_text nestedFragments)
        emptyNumbers = some (0, st1) ∧
      st1.calls = emptyNumbers.calls ++ nestedFragments.map (fun f => (f, f.length)) ∧
      WellFormed st1.heap st1.head st1.tail ([] ++ qs) ∧
      qs.length = nestedFragments.length ∧
      qs.map (dataAt st1.heap) = nestedFragments.map (fun f => sizeOnly f f.length) ∧
      (∀ p, p < emptyNumbers.heap.length → dataAt st1.heap p = dataAt emptyNumbers.heap p) ∧
      st1.length = emptyNumbers.length + nestedFragments.length :=
  ⟨by decide,
    (object_boundaries always sizeOnly 8 40 nestedFragments emptyNumbers [] (by decide)
      (emptyState_wf [] 0) (by decide)).1,
    (object_boundaries always sizeOnly 8 40 nestedFragments emptyNumbers [] (by decide)
      (emptyState_wf [] 0) (by decide)).2.2 (fun _ => rfl) (by decide)
      (fun f _ => by simp [sizeOnly])⟩

/-! ## The capacity of the encoder's buffer -/

theorem append_fragment_log {α : Type} {malloc_ok : Nat → Bool}
    (hm : ∀ n, malloc_ok n = true) {serializer : json_serializer α} {data : Option α}
    {f : List Char} (hser : serializer data 512 = some f) (hlen : f.length ≤ 511)
    {st : EncState} (hcap : st.used_size + 1 ≤ st.total_size) (hbig : 2048 ≤ st.total_size) :
    ∃ st1 w, append_fragment malloc_ok serializer data st = some st1 ∧
      st1.writes = st.writes ++ [w] ∧ w.used_size = st.used_size ∧ w.len = f.length ∧
      (w.total_size = st.total_size ∨ w.total_size = st.total_size * 2) ∧
      st1.total_size = w.total_size ∧ st1.used_size = st.used_size + f.length ∧
      st1.used_size + 2 ≤ st1.total_size ∧ 2048 ≤ st1.total_size := by
  unfold append_fragment
  rw [hser]
  by_cases hgrow : st.used_size + f.length + 2 > st.total_size
  · refine ⟨{ EncState.strcat { st with total_size := st.total_size * 2 } f with
        used_size := st.used_size + f.length }, ⟨st.used_size, f.length, st.total_size * 2⟩,
      by simp only [hgrow, if_true, EncState.realloc, hm], rfl, rfl, rfl, Or.inr rfl, rfl, rfl,
      ?_, ?_⟩
    · show st.used_size + f.length + 2 ≤ st.total_size * 2
      omega
    · show 2048 ≤ st.total_size * 2
      omega
  · refine ⟨{ st.strcat f with used_size := st.used_size + f.length },
      ⟨st.used_size, f.length, st.total_size⟩,
      by simp only [hgrow, if_false], rfl, rfl, rfl, Or.inl rfl, rfl, rfl, ?_, hbig⟩
    show st.used_size + f.length + 2 ≤ st.total_size
    omega

theorem append_separator_log (malloc_ok : Nat → Bool) {st : EncState}
    (hcap : st.used_size + 2 ≤ st.total_size) :
    ∃ st1 w, append_separator malloc_ok st = some st1 ∧
      st1.writes = st.writes ++ [w] ∧ w.used_size = st.used_size ∧ w.len = 1 ∧
      w.total_size = st.total_size ∧ st1.total_size = st.total_size ∧
      st1.used_size = st.used_size + 1 := by
  unfold append_separator
  have hno : ¬ st.used_size + 1 > st.total_size := by omega
  exact ⟨{ st.strcat [','] with used_size := st.used_size + 1 },
    ⟨st.used_size, 1, st.total_size⟩, by simp only [hno, if_false], rfl, rfl, rfl, rfl, rfl,
    rfl⟩

theorem close_array_log (malloc_ok : Nat → Bool) {st : EncState}
    (hcap : st.used_size + 2 ≤ st.total_size) :
    close_array malloc_ok st =
      { ret := 0, json_str := some (st.json_str ++ [']']),
        writes := st.writes ++ [⟨st.used_size, 1, st.total_size⟩] } := by
  unfold close_array
  have hno : ¬ st.used_size + 1 > st.total_size := by omega
  simp only [hno, if_false]
  rfl

theorem to_json_loop_capacity {α : Type} {malloc_ok : Nat → Bool}
    (hm : ∀ n, malloc_ok n = true) (serializer : json_serializer α) (h : Heap α) :
    ∀ (ps : List Nat) (p : Nat) (pv : Option Nat) (frags : List (List Char)) (fuel : Nat)
      (st : EncState), seg h pv (p :: ps) none → (p :: ps).length ≤ fuel →
      (p :: ps).map (fun q => serializer (dataAt h q) 512) = frags.map some →
      (∀ f ∈ frags, f.length ≤ 511) →
      st.used_size + 1 ≤ st.total_size → 2048 ≤ st.total_size →
      ∃ out ws, to_json_loop malloc_ok serializer h fuel (some p) st = some out ∧
        out.ret = 0 ∧ out.writes = st.writes ++ ws ∧
        CapacityKept st.used_size st.total_size frags ws := by
  intro ps
  induction ps with
  | nil =>
    intro p pv frags fuel st hs hf hfr hlen hcap hbig
    obtain ⟨nd, hr, -, hn, -⟩ := hs
    cases fuel with
    | zero => simp at hf
    | succ fuel =>
      cases frags with
      | nil => simp at hfr
      | cons f frags1 =>
        obtain ⟨hfr0, hfr1⟩ := List.cons.inj hfr
        obtain rfl : frags1 = [] := by simpa using hfr1.symm
        simp only [dataAt_of_read hr] at hfr0
        obtain ⟨st1, w, e1, hw, hu, hl, ht, ht1, hu1, hc1, -⟩ :=
          append_fragment_log hm hfr0 (hlen f (List.mem_singleton_self f)) hcap hbig
        have e2 := close_array_log malloc_ok hc1
        refine ⟨close_array malloc_ok st1, [w, ⟨st1.used_size, 1, st1.total_size⟩],
          ?_, ?_, ?_, ?_⟩
        · simp only [to_json_loop, hr, Option.bind_eq_bind, Option.some_bind, e1]
          simp only [headOr] at hn
          rw [hn]
        · rw [e2]
        · rw [e2]; simp [hw]
        · refine ⟨hu, hl, ht, ?_, ?_, rfl, ht1, ?_, rfl⟩
          · rw [hu, hl, ← hu1, ← ht1]; exact hc1
          · show st1.used_size = w.used_size + w.len
            rw [hu, hl, hu1]
          · show st1.used_size + 1 + 1 ≤ st1.total_size
            omega
  | cons q ps ih =>
    intro p pv frags fuel st hs hf hfr hlen hcap hbig
    obtain ⟨nd, hr, -, hn, hrest⟩ := hs
    cases fuel with
    | zero => simp at hf
    | succ fuel =>
      cases frags with
      | nil => simp at hfr
      | cons f frags0 =>
        obtain ⟨hfr0, hfr1⟩ := List.cons.inj hfr
        simp only [dataAt_of_read hr] at hfr0
        obtain ⟨st1, w, e1, hw, hu, hl, ht, ht1, hu1, hc1, hb1⟩ :=
          append_fragment_log hm hfr0 (hlen f (List.mem_cons_self _ _)) hcap hbig
        obtain ⟨st2, w2, e2, hw2, hu2, hl2, ht2, ht2', hu2'⟩ :=
          append_separator_log malloc_ok hc1
        obtain ⟨out, ws, e3, hret, hws, hkept⟩ := ih q (some p) frags0 fuel st2 hrest
          (by simpa using hf) hfr1 (fun x hx => hlen x (List.mem_cons_of_mem _ hx))
          (by omega) (by omega)
        refine ⟨out, w :: w2 :: ws, ?_, hret, ?_, ?_⟩
        · simp only [to_json_loop, hr, Option.bind_eq_bind, Option.some_bind, e1]
          simp only [headOr] at hn
          rw [hn]
          simp only [e2, e3]
        · rw [hws, hw2, hw]; simp
        · refine ⟨hu, hl, ht, ?_, ?_, hl2, ?_, ?_, ?_⟩
          · rw [hu, hl, ← hu1, ← ht1]; exact hc1
          · rw [hu2, hu1, hu, hl]
          · rw [ht2, ht1]
          · rw [hu2, hl2, ht2]; omega
          · rw [hu2, hl2, ht2, ← hu2', ← ht2']; exact hkept

/-- C24: let the serializer succeed on every element of a well-formed non-empty collection,
with fragments of at most 511 characters, and let the allocations succeed.  Then
`ll_to_json_string` returns 0 and its appends are the opening bracket into the buffer of 2048
bytes followed by one pair of appends per fragment.  Before the append of a fragment the
buffer is doubled at most once, and after it `used_size + 2 ≤ total_size`; the separator, or
the closing bracket after the last fragment, is then appended without a reallocation, and
after it `used_size + 1 ≤ total_size`, so that every append fits together with the
terminator. -/
theorem ll_to_json_string_capacity {α : Type} (malloc_ok : Nat → Bool)
    (serializer : json_serializer α) (h : Heap α) (head tail : Option Nat) (ps : List Nat)
    (frags : List (List Char)) (fuel : Nat) (hm : ∀ n, malloc_ok n = true)
    (hwf : WellFormed h head tail ps) (hne : ps ≠ []) (hfuel : ps.length ≤ fuel)
    (hfr : ps.map (fun q => serializer (dataAt h q) 512) = frags.map some)
    (hlen : ∀ f ∈ frags, f.length ≤ 511) :
    ∃ out ws, ll_to_json_string malloc_ok serializer h fuel head = some out ∧
      out.ret = 0 ∧ out.writes = ⟨0, 1, 2048⟩ :: ws ∧ CapacityKept 1 2048 frags ws ∧
      ws.length = 2 * frags.length ∧ ∀ w ∈ out.writes, w.fits := by
  cases ps with
  | nil => exact absurd rfl hne
  | cons p rest =>
    obtain ⟨out, ws, e, hret, hws, hkept⟩ := to_json_loop_capacity hm serializer h rest p none
      frags fuel ⟨2048, 1, ['['], [⟨0, 1, 2048⟩]⟩ hwf.links hfuel hfr hlen (by decide)
      (by decide)
    obtain ⟨ws1, e1, hfit⟩ := to_json_loop_ok hm serializer h rest p none frags fuel
      ⟨2048, 1, ['['], [⟨0, 1, 2048⟩]⟩ hwf.links hfuel hfr hlen (by decide) (by decide)
      (by intro w hw; rw [List.mem_singleton.mp hw]; decide)
    have hlen2 : ∀ (fs : List (List Char)) (u t : Nat) (l : List Write),
        CapacityKept u t fs l → l.length = 2 * fs.length := by
      intro fs
      induction fs with
      | nil => intro u t l hk; simp only [CapacityKept] at hk; simp [hk]
      | cons f fs ih =>
        intro u t l hk
        match l, hk with
        | w1 :: w2 :: l1, hk =>
          have := ih _ _ l1 hk.2.2.2.2.2.2.2.2
          simp only [List.length_cons]; omega
    refine ⟨out, ws, ?_, hret, hws, hkept, hlen2 _ _ _ _ hkept, ?_⟩
    · rw [hwf.head_eq]
      simp only [ll_to_json_string, List.head?_cons, hm, if_true]
      exact e
    · rw [e] at e1
      cases e1
      exact hfit

set_option maxRecDepth 100000 in
theorem ll_to_json_string_capacity_witness :
    ∃ out ws, ll_to_json_string always serialize_record fiveRecords 5 (some 0) = some out ∧
      out.ret = 0 ∧ out.writes = ⟨0, 1, 2048⟩ :: ws ∧
      CapacityKept 1 2048 (List.replicate 5 (record_text (recordOf 463))) ws ∧
      ws.length = 2 * (List.replicate 5 (record_text (recordOf 463))).length ∧
      ∀ w ∈ out.writes, w.fits :=
  ll_to_json_string_capacity always serialize_record fiveRecords (some 0) (some 4)
    [0, 1, 2, 3, 4] (List.replicate 5 (record_text (recordOf 463))) 5 (fun _ => rfl)
    fiveRecords_wf (by decide) (by decide) (by decide) (by decide)

/-! ## The scan stays inside the text -/

theorem c_str_get {s t : List Char} (h : t <:+ s) :
    (c_str s)[s.length - t.length]? = some (t.headD NUL) := by
  obtain ⟨pre, rfl⟩ := h
  have e : (pre ++ t).length - t.length = pre.length := by simp
  rw [e, c_str, List.append_assoc, List.getElem?_append_right (le_refl _)]
  cases t <;> simp

theorem pos_succ {s t : List Char} {c : Char} (h : c :: t <:+ s) :
    s.length - (c :: t).length + 1 = s.length - t.length := by
  have := h.length_le
  simp only [List.length_cons] at this ⊢
  omega

theorem skip_to_brace_at_eq (s : List Char) (hs : NUL ∉ s) :
    ∀ (t : List Char) (fuel : Nat), t <:+ s → t.length < fuel →
      skip_to_brace_at (c_str s) fuel (s.length - t.length) =
        some (s.length - (skip_to_brace t).length) := by
  intro t
  induction t with
  | nil =>
    intro fuel h hf
    cases fuel with
    | zero => simp at hf
    | succ fuel =>
      simp only [skip_to_brace_at, c_str_get h, List.headD_nil, Option.bind_eq_bind,
        Option.some_bind, ne_eq, not_true_eq_false, and_false, if_false, skip_to_brace]
  | cons c t ih =>
    intro fuel h hf
    cases fuel with
    | zero => simp at hf
    | succ fuel =>
      have hc : c ≠ NUL := by
        rintro rfl
        exact hs (h.subset (List.mem_cons_self _ _))
      have ht : t <:+ s := (List.suffix_cons c t).trans h
      simp only [skip_to_brace_at, c_str_get h, List.headD_cons, Option.bind_eq_bind,
        Option.some_bind]
      by_cases hb : c = '{'
      · simp [hb, skip_to_brace]
      · simp only [ne_eq, hb, not_false_eq_true, hc, and_self, if_true, skip_to_brace,
          if_false]
        rw [pos_succ h]
        exact ih fuel ht (by simpa using hf)

theorem brace_loop_at_eq (s : List Char) (hs : NUL ∉ s) :
    ∀ (t : List Char) (c : Char) (bc : Int) (fuel : Nat), c :: t <:+ s → t.length < fuel →
      brace_loop_at (c_str s) fuel bc (s.length - (c :: t).length) =
        some ((brace_loop bc (c :: t)).1, s.length - (brace_loop bc (c :: t)).2.length) := by
  intro t
  induction t with
  | nil =>
    intro c bc fuel h hf
    cases fuel with
    | zero => simp at hf
    | succ fuel =>
      have hnil : ([] : List Char) <:+ s := List.nil_suffix
      have hget := c_str_get hnil
      simp only [List.length_nil, Nat.sub_zero, List.headD_nil] at hget
      have hp := pos_succ h
      simp only [List.length_nil, Nat.sub_zero] at hp
      simp only [brace_loop_at, c_str_get h, List.headD_cons, Option.bind_eq_bind,
        Option.some_bind, hp, hget, ne_eq, not_true_eq_false, if_false, brace_loop,
        and_false, List.length_nil, Nat.sub_zero]
      split <;> rfl
  | cons d t ih =>
    intro c bc fuel h hf
    cases fuel with
    | zero => simp at hf
    | succ fuel =>
      have ht : d :: t <:+ s := (List.suffix_cons c (d :: t)).trans h
      have hd : d ≠ NUL := by
        rintro rfl
        exact hs (ht.subset (List.mem_cons_self _ _))
      have hget := c_str_get ht
      rw [← pos_succ h] at hget
      simp only [List.headD_cons] at hget
      simp only [brace_loop_at, c_str_get h, List.headD_cons, Option.bind_eq_bind,
        Option.some_bind, hget, ne_eq, hd, not_false_eq_true, if_true, brace_loop]
      by_cases hgo : brace_step bc c > 0
      · simp only [hgo, if_true, ne_eq, not_false_eq_true, and_self, reduceCtorEq]
        rw [pos_succ h]
        exact ih d (brace_step bc c) fuel ht (by simpa using hf)
      · simp only [hgo, if_false, false_and]
        rw [pos_succ h]

theorem skip_to_brace_suffix (t : List Char) : skip_to_brace t <:+ t := by
  induction t with
  | nil => exact List.suffix_refl _
  | cons c t ih =>
    by_cases hc : c = '{'
    · simp only [skip_to_brace, hc, if_true]; exact List.suffix_refl _
    · simp only [skip_to_brace, hc, if_false]; exact ih.trans (List.suffix_cons c t)

theorem brace_loop_suffix : ∀ (t : List Char) (bc : Int), (brace_loop bc t).2 <:+ t := by
  intro t
  induction t with
  | nil => intro bc; exact List.suffix_refl _
  | cons c t ih =>
    intro bc
    simp only [brace_loop]
    split
    · exact (ih _).trans (List.suffix_cons c t)
    · exact List.suffix_cons c t

theorem drop_of_suffix {s t : List Char} (h : t <:+ s) : s.drop (s.length - t.length) = t :=
  (List.suffix_iff_eq_drop.mp h).symm

theorem strncpy_eq (s : List Char) (hs : NUL ∉ s) {sl : List Char} (h : sl <:+ s) (n : Nat)
    (hn : n ≤ sl.length) : strncpy (c_str s) (s.length - sl.length) n = sl.take n := by
  unfold strncpy c_str
  rw [List.drop_append_of_le_length (by omega), drop_of_suffix h,
    List.take_append_of_le_length hn, List.takeWhile_eq_self_iff]
  intro c hc
  have hmem : c ∈ s := h.subset (List.mem_of_mem_take hc)
  have : c ≠ NUL := by rintro rfl; exact hs hmem
  simpa using this

/-- The scan on the bytes finds what the scan on the remaining characters finds, at positions
inside the text. -/
theorem next_object_at_eq (s : List Char) (hs : NUL ∉ s) (t : List Char) (h : t <:+ s)
    (fuel : Nat) (hf : s.length < fuel) :
    (next_object t = Scan.done ∧
      next_object_at (c_str s) fuel (s.length - t.length) = some (ScanAt.done s.length)) ∨
    (next_object t = Scan.mismatch ∧
      next_object_at (c_str s) fuel (s.length - t.length) =
        some (ScanAt.mismatch s.length)) ∨
    (∃ obj ptr1 start, next_object t = Scan.object obj obj.length ptr1 ∧ ptr1 <:+ s ∧
      next_object_at (c_str s) fuel (s.length - t.length) =
        some (ScanAt.object start (s.length - ptr1.length)) ∧
      s.length - t.length ≤ start ∧ start < s.length - ptr1.length ∧
      s.length - ptr1.length - start = obj.length ∧
      strncpy (c_str s) start (s.length - ptr1.length - start) = obj) := by
  have hsl : skip_to_brace t <:+ s := (skip_to_brace_suffix t).trans h
  have htl := h.length_le
  have hskip := skip_to_brace_at_eq s hs t fuel h (by omega)
  have hget := c_str_get hsl
  rcases skip_to_brace_spec t with h0 | ⟨rest, h1⟩
  · left
    rw [h0] at hget hskip
    simp only [List.length_nil, Nat.sub_zero, List.headD_nil] at hget hskip
    refine ⟨by simp [next_object, h0], ?_⟩
    simp only [next_object_at, hskip, Option.bind_eq_bind, Option.some_bind, hget, if_true]
  · right
    rw [h1] at hget hskip hsl
    simp only [List.headD_cons] at hget
    have hsll := hsl.length_le
    have hloop := brace_loop_at_eq s hs rest '{' 0 fuel hsl
      (by simp only [List.length_cons] at hsll; omega)
    obtain ⟨-, -, b3, b4⟩ := brace_loop_start rest
    have hnul : ¬ ('{' = NUL) := by decide
    have hat : next_object_at (c_str s) fuel (s.length - t.length) =
        (if (brace_loop 0 ('{' :: rest)).1 ≠ 0 then
          some (ScanAt.mismatch (s.length - (brace_loop 0 ('{' :: rest)).2.length))
        else some (ScanAt.object (s.length - ('{' :: rest).length)
          (s.length - (brace_loop 0 ('{' :: rest)).2.length))) := by
      simp only [next_object_at, hskip, Option.bind_eq_bind, Option.some_bind, hget, hnul,
        if_false, hloop]
    by_cases hz : (brace_loop 0 ('{' :: rest)).1 = 0
    · right
      have hp1 : (brace_loop 0 ('{' :: rest)).2 <:+ s := (brace_loop_suffix _ _).trans hsl
      have hskl := (skip_to_brace_suffix t).length_le
      rw [h1] at hskl
      simp only [List.length_cons] at hsll hskl
      refine ⟨('{' :: rest).take (('{' :: rest).length - (brace_loop 0 ('{' :: rest)).2.length),
        (brace_loop 0 ('{' :: rest)).2, s.length - ('{' :: rest).length, ?_, hp1, ?_, ?_, ?_,
        ?_, ?_⟩
      · simp only [next_object, h1, hz, ne_eq, not_true_eq_false, if_false]
        congr 1
        simp only [List.length_take, List.length_cons]
        omega
      · rw [hat]; simp only [hz, ne_eq, not_true_eq_false, if_false]
      · simp only [List.length_cons]; omega
      · simp only [List.length_cons]; omega
      · simp only [List.length_take, List.length_cons]; omega
      · have e : s.length - (brace_loop 0 ('{' :: rest)).2.length -
            (s.length - ('{' :: rest).length) =
            ('{' :: rest).length - (brace_loop 0 ('{' :: rest)).2.length := by
          simp only [List.length_cons]; omega
        rw [e]
        exact strncpy_eq s hs hsl _ (Nat.sub_le _ _)
    · left
      refine ⟨by simp [next_object, h1, hz], ?_⟩
      rw [hat]
      simp only [ne_eq, hz, not_false_eq_true, if_true, b3 hz, List.length_nil, Nat.sub_zero]

/-- The decoding loop on the bytes is the decoding loop on the remaining characters. -/
theorem from_json_loop_at_eq {α : Type} (malloc_ok : Nat → Bool)
    (deserializer : json_deserializer α) (data_size : Nat) (s : List Char) (hs : NUL ∉ s) :
    ∀ (fuel : Nat) (t : List Char) (st : DecState α), t <:+ s →
      from_json_loop_at malloc_ok deserializer data_size (c_str s) fuel
          (s.length - t.length) st =
        from_json_loop malloc_ok deserializer data_size fuel t st := by
  intro fuel
  induction fuel with
  | zero => intro t st _; rfl
  | succ fuel ih =>
    intro t st h
    have hget := c_str_get h
    cases t with
    | nil =>
      simp only [List.headD_nil] at hget
      simp only [from_json_loop_at, hget, Option.bind_eq_bind, Option.some_bind, if_true,
        from_json_loop]
    | cons c r =>
      simp only [List.headD_cons] at hget
      have hc : c ≠ NUL := by
        rintro rfl
        exact hs (h.subset (List.mem_cons_self _ _))
      have hlen : (c_str s).length = s.length + 1 := by simp [c_str]
      rcases next_object_at_eq s hs (c :: r) h (c_str s).length (by omega) with
        ⟨hn, ha⟩ | ⟨hn, ha⟩ | ⟨obj, ptr1, start, hn, hp1, ha, -, -, hsz, hcpy⟩
      · simp only [from_json_loop_at, hget, Option.bind_eq_bind, Option.some_bind, hc,
          if_false, ha, from_json_loop, hn]
      · simp only [from_json_loop_at, hget, Option.bind_eq_bind, Option.some_bind, hc,
          if_false, ha, from_json_loop, hn]
      · rw [hsz] at hcpy
        simp only [from_json_loop_at, hget, Option.bind_eq_bind, Option.some_bind, hc,
          if_false, ha, from_json_loop, hn, hsz, hcpy]
        cases store_object malloc_ok deserializer data_size st obj obj.length with
        | none => rfl
        | some step =>
          cases step with
          | fail st1 => rfl
          | next st1 => exact ih ptr1 st1 hp1

theorem brace_loop_length (bc : Int) (c : Char) (t : List Char) :
    (brace_loop bc (c :: t)).2.length ≤ t.length := by
  simp only [brace_loop]
  split
  · exact (brace_loop_suffix t _).length_le
  · exact le_refl _

/-- C25: let a text without an inner terminator be stored as a C string, and let the scan of
`ll_from_json_string` be run on its bytes, where a read outside the array has no result.
From every position up to the terminator the scan for the next object has a result, so it
reads inside the array only and terminates: it stops at the terminator, or it cuts out an
object that starts at or after the position, has at least one character and ends at or before
the terminator.  The brace-matching loop, entered on a character of the text, stops after at
least one step at or before the terminator.  The whole function on the bytes returns what the
function on the characters returns, whatever the codec and the allocator do; on a well-formed
collection it returns, given fuel for the length of the text. -/
theorem scan_stays_inside {α : Type} (malloc_ok : Nat → Bool)
    (deserializer : json_deserializer α) (data_size : Nat) (s : List Char) (hs : NUL ∉ s) :
    (∀ ptr, ptr ≤ s.length →
      ∃ r, next_object_at (c_str s) (c_str s).length ptr = some r ∧ r.inside ptr s.length) ∧
    (∀ ptr brace_count, ptr < s.length →
      ∃ r, brace_loop_at (c_str s) (c_str s).length brace_count ptr = some r ∧
        ptr < r.2 ∧ r.2 ≤ s.length) ∧
    (∀ fuel (st : DecState α),
      ll_from_json_string_at malloc_ok deserializer data_size fuel (c_str s) st =
        ll_from_json_string malloc_ok deserializer data_size fuel s st) ∧
    (∀ fuel (st : DecState α) ps, WellFormed st.heap st.head st.tail ps → s.length < fuel →
      ∃ rc st1,
        ll_from_json_string_at malloc_ok deserializer data_size fuel (c_str s) st =
          some (rc, st1)) := by
  have hlen : (c_str s).length = s.length + 1 := by simp [c_str]
  have hpos : ∀ ptr, ptr ≤ s.length → s.length - (s.drop ptr).length = ptr := by
    intro ptr hp
    simp only [List.length_drop]
    omega
  have heq : ∀ fuel (st : DecState α),
      ll_from_json_string_at malloc_ok deserializer data_size fuel (c_str s) st =
        ll_from_json_string malloc_ok deserializer data_size fuel s st := by
    intro fuel st
    have := from_json_loop_at_eq malloc_ok deserializer data_size s hs fuel s st
      (List.suffix_refl s)
    rw [Nat.sub_self] at this
    simp only [ll_from_json_string_at, ll_from_json_string, this]
  refine ⟨?_, ?_, heq, ?_⟩
  · intro ptr hp
    have h := next_object_at_eq s hs (s.drop ptr) (List.drop_suffix ptr s) (c_str s).length
      (by omega)
    rw [hpos ptr hp] at h
    rcases h with ⟨-, ha⟩ | ⟨-, ha⟩ | ⟨obj, ptr1, start, -, -, ha, h1, h2, -, -⟩
    · exact ⟨_, ha, rfl⟩
    · exact ⟨_, ha, rfl⟩
    · exact ⟨_, ha, h1, h2, Nat.sub_le _ _⟩
  · intro ptr bc hp
    obtain ⟨c, t, ht⟩ : ∃ c t, s.drop ptr = c :: t := by
      cases hd : s.drop ptr with
      | nil =>
        have := congrArg List.length hd
        simp only [List.length_drop, List.length_nil] at this
        omega
      | cons c t => exact ⟨c, t, rfl⟩
    have hsuf : c :: t <:+ s := ht ▸ List.drop_suffix ptr s
    have htl : t.length + 1 = s.length - ptr := by
      have := congrArg List.length ht
      simp only [List.length_drop, List.length_cons] at this
      omega
    have h := brace_loop_at_eq s hs t c bc (c_str s).length hsuf (by omega)
    have e : s.length - (c :: t).length = ptr := by
      simp only [List.length_cons]; omega
    rw [e] at h
    have hb := brace_loop_length bc c t
    refine ⟨_, h, ?_, Nat.sub_le _ _⟩
    show ptr < s.length - (brace_loop bc (c :: t)).2.length
    omega
  · intro fuel st ps hwf hf
    rw [heq]
    by_cases hz : data_size = 0
    · exact ⟨-1, st, by simp [ll_from_json_string, hz]⟩
    · obtain ⟨rc, st1, -, -, hr, -⟩ :=
        from_json_loop_spec malloc_ok deserializer data_size fuel s st ps hwf hf
      exact ⟨rc, st1, by simp only [ll_from_json_string, hz, if_false, hr]⟩

theorem scan_stays_inside_witness :
    NUL ∉ scenarioText ∧
    (∀ ptr, ptr ≤ scenarioText.length →
      ∃ r, next_object_at (c_str scenarioText) (c_str scenarioText).length ptr = some r ∧
        r.inside ptr scenarioText.length) ∧
    (∀ ptr brace_count, ptr < scenarioText.length →
      ∃ r, brace_loop_at (c_str scenarioText) (c_str scenarioText).length brace_count ptr =
          some r ∧
        ptr < r.2 ∧ r.2 ≤ scenarioText.length) ∧
    (∀ fuel (st : DecState Record),
      ll_from_json_string_at always (deserialize_record always) 16 fuel
          (c_str scenarioText) st =
        ll_from_json_string always (deserialize_record always) 16 fuel scenarioText st) ∧
    (∀ fuel (st : DecState Record) ps, WellFormed st.heap st.head st.tail ps →
      scenarioText.length < fuel →
      ∃ rc st1,
        ll_from_json_string_at always (deserialize_record always) 16 fuel
          (c_str scenarioText) st = some (rc, st1)) :=
  ⟨by decide, scan_stays_inside always (deserialize_record always) 16 scenarioText (by decide)⟩

/-! ## Cursor moves are inverse to each other -/

theorem cmd_next_at {α : Type} (s : ListState α) (l r : List Nat) (c : Nat)
    (hwf : WellFormed s.heap s.head s.tail (l ++ c :: r)) (hc : s.current = some c) :
    cmd_next s = some { s with current := some (r.head?.getD c) } := by
  obtain ⟨-, nd, hr, -, hn, -⟩ := seg_split hwf.links
  rw [headOr_none] at hn
  cases hh : r.head? <;> simp [cmd_next, ll_next_node, hc, hr, hn, hh]

theorem cmd_prev_at {α : Type} (s : ListState α) (l r : List Nat) (c : Nat)
    (hwf : WellFormed s.heap s.head s.tail (l ++ c :: r)) (hc : s.current = some c) :
    cmd_prev s = some { s with current := some (l.getLast?.getD c) } := by
  obtain ⟨-, nd, hr, hp, -, -⟩ := seg_split hwf.links
  rw [lastOr_none] at hp
  cases hh : l.getLast? <;> simp [cmd_prev, ll_prev_node, hc, hr, hp, hh]

theorem cmd_next_times_at {α : Type} :
    ∀ (k : Nat) (s : ListState α) (l r : List Nat) (c : Nat),
      WellFormed s.heap s.head s.tail (l ++ c :: r) → s.current = some c →
      cmd_next_times k s =
        some { s with current :=
          (l ++ c :: r)[min (l.length + k) ((l ++ c :: r).length - 1)]? } := by
  intro k
  induction k with
  | zero =>
    intro s l r c _ hc
    have e : min (l.length + 0) ((l ++ c :: r).length - 1) = l.length := by
      simp only [List.length_append, List.length_cons]; omega
    rw [e, List.getElem?_append_right (le_refl _)]
    simp only [Nat.sub_self, List.getElem?_cons_zero, cmd_next_times, ← hc]
  | succ k ih =>
    intro s l r c hwf hc
    rw [cmd_next_times, cmd_next_at s l r c hwf hc]
    cases r with
    | nil =>
      have hs : ({ s with current := some ((([] : List Nat).head?).getD c) } : ListState α)
          = s := by
        cases s; simp only at hc; simp [hc]
      rw [hs, Option.some_bind, ih s l [] c hwf hc]
      have e1 : min (l.length + k) ((l ++ [c]).length - 1) = l.length := by
        simp only [List.length_append, List.length_cons, List.length_nil]; omega
      have e2 : min (l.length + (k + 1)) ((l ++ [c]).length - 1) = l.length := by
        simp only [List.length_append, List.length_cons, List.length_nil]; omega
      rw [e1, e2]
    | cons d r1 =>
      have hwf1 : WellFormed s.heap s.head s.tail ((l ++ [c]) ++ d :: r1) := by
        simpa using hwf
      have h1 := ih { s with current := some d } (l ++ [c]) r1 d hwf1 rfl
      simp only [List.head?_cons, Option.getD_some, Option.some_bind]
      rw [h1]
      have e1 : (l ++ [c]) ++ d :: r1 = l ++ c :: d :: r1 := by simp
      have e2 : (l ++ [c]).length + k = l.length + (k + 1) := by
        simp only [List.length_append, List.length_cons, List.length_nil]; omega
      rw [e1, e2]

/-- C26: on a well-formed collection with the cursor on the node `c` at position `i` (the
nodes `l` before it, the nodes `r` after it, `n` nodes in all): when `c` has a forward
neighbour, `ll_next_node` followed by `ll_prev_node` leaves every variable as it was, the
cursor on `c`; when `c` has a backward neighbour, so does `ll_prev_node` followed by
`ll_next_node`; and after `k` calls of `ll_next_node` the cursor is on the node at position
`min (i + k) (n - 1)`, nothing else being changed. -/
theorem cursor_moves_inverse {α : Type} (s : ListState α) (l r : List Nat) (c : Nat)
    (hwf : WellFormed s.heap s.head s.tail (l ++ c :: r)) (hc : s.current = some c) :
    (r ≠ [] → (cmd_next s).bind cmd_prev = some s) ∧
    (l ≠ [] → (cmd_prev s).bind cmd_next = some s) ∧
    (∀ k, cmd_next_times k s =
      some { s with current :=
        (l ++ c :: r)[min (l.length + k) ((l ++ c :: r).length - 1)]? }) := by
  have hs : ({ s with current := some c } : ListState α) = s := by
    cases s; simp only at hc; simp [hc]
  refine ⟨?_, ?_, fun k => cmd_next_times_at k s l r c hwf hc⟩
  · intro hr
    obtain ⟨d, r1, rfl⟩ := List.exists_cons_of_ne_nil hr
    have hwf1 : WellFormed s.heap s.head s.tail ((l ++ [c]) ++ d :: r1) := by
      simpa using hwf
    have h1 := cmd_prev_at { s with current := some d } (l ++ [c]) r1 d hwf1 rfl
    have e : (l ++ [c]).getLast? = some c := by simp
    rw [e] at h1
    rw [cmd_next_at s l (d :: r1) c hwf hc, Option.some_bind]
    simp only [List.head?_cons, Option.getD_some] at h1 ⊢
    rw [h1, hs]
  · intro hl
    obtain ⟨l1, b, rfl⟩ : ∃ l1 b, l = l1 ++ [b] := by
      rcases List.eq_nil_or_concat l with h | ⟨l1, b, h⟩
      · exact absurd h hl
      · exact ⟨l1, b, by simpa using h⟩
    have hwf1 : WellFormed s.heap s.head s.tail (l1 ++ b :: c :: r) := by
      simpa using hwf
    have h1 := cmd_next_at { s with current := some b } l1 (c :: r) b hwf1 rfl
    have e : (l1 ++ [b]).getLast? = some b := by simp
    rw [cmd_prev_at s (l1 ++ [b]) r c hwf hc, Option.some_bind, e]
    simp only [List.head?_cons, Option.getD_some] at h1 ⊢
    rw [h1, hs]

theorem cursor_moves_inverse_witness :
    (cmd_next (threeNodesAt 1)).bind cmd_prev = some (threeNodesAt 1) ∧
    (cmd_prev (threeNodesAt 1)).bind cmd_next = some (threeNodesAt 1) ∧
    cmd_next_times 1 (threeNodesAt 1) = some (threeNodesAt 2) ∧
    cmd_next_times 5 (threeNodesAt 1) = some (threeNodesAt 2) :=
  ⟨(cursor_moves_inverse (threeNodesAt 1) [0] [2] 1 threeNodes_wf rfl).1 (by decide),
    (cursor_moves_inverse (threeNodesAt 1) [0] [2] 1 threeNodes_wf rfl).2.1 (by decide),
    (cursor_moves_inverse (threeNodesAt 1) [0] [2] 1 threeNodes_wf rfl).2.2 1,
    (cursor_moves_inverse (threeNodesAt 1) [0] [2] 1 threeNodes_wf rfl).2.2 5⟩

/-! ## The date input -/

theorem days_in_month_eq (m y : Int) (h1 : 1 ≤ m) (h2 : m ≤ 12) :
    (days_in_month y)[m.toNat]? = some (days_of_month m y) := by
  have hleap : ((y.tmod 4 = 0 ∧ y.tmod 100 ≠ 0) ∨ y.tmod 400 = 0) ↔ IsLeap y := by
    unfold IsLeap
    rw [Int.dvd_iff_tmod_eq_zero, Int.dvd_iff_tmod_eq_zero, Int.dvd_iff_tmod_eq_zero]
  unfold days_in_month days_of_month
  by_cases hl : IsLeap y
  · rw [if_pos (hleap.mpr hl)]
    interval_cases m <;> simp [hl]
  · rw [if_neg (fun h => hl (hleap.mp h))]
    interval_cases m <;> simp [hl]

theorem get_date_checks (date : List Char) (d m y day month year : Int)
    (hparse : sscanf_date (rtrim date) = some (d, m, y, (rtrim date).length)) :
    get_date date day month year =
      some (if ValidDate d m y then (1, d, m, y) else (0, day, month, year)) := by
  simp only [get_date, hparse, ne_eq, not_true_eq_false, if_false]
  by_cases hy : y < 1
  · have hv : ¬ ValidDate d m y := fun h => by have := h.1; omega
    simp only [hy, if_true, hv, if_false]
  by_cases hm : m < 1 ∨ m > 12
  · have hv : ¬ ValidDate d m y := fun h => by
      have h1 := h.2.1
      have h2 := h.2.2.1
      omega
    simp only [hy, if_false, hm, if_true, hv]
  have hm1 : 1 ≤ m := by omega
  have hm2 : m ≤ 12 := by omega
  simp only [hy, if_false, hm, days_in_month_eq m y hm1 hm2, Option.bind_eq_bind,
    Option.some_bind]
  by_cases hd : d < 1 ∨ d > days_of_month m y
  · have hv : ¬ ValidDate d m y := fun h => by
      have h1 := h.2.2.2.1
      have h2 := h.2.2.2.2
      omega
    simp only [hd, if_true, hv, if_false]
  · have hv : ValidDate d m y := ⟨by omega, hm1, hm2, by omega, by omega⟩
    simp only [hd, if_false, hv, if_true]

theorem get_date_no_parse (date : List Char) (day month year : Int)
    (hno : ∀ d m y, sscanf_date (rtrim date) ≠ some (d, m, y, (rtrim date).length)) :
    get_date date day month year = some (0, day, month, year) := by
  unfold get_date
  cases hs : sscanf_date (rtrim date) with
  | none => rfl
  | some r =>
    obtain ⟨d, m, y, n⟩ := r
    have hn : n ≠ (rtrim date).length := by
      intro e
      exact hno d m y (by rw [hs, e])
    simp only [ne_eq, hn, not_false_eq_true, if_true]

theorem dec_digits_not_space (fuel n : Nat) (acc : List Char) {c : Char}
    (hc : c ∈ dec_digits fuel n acc) : isspace c = false ∨ c ∈ acc := by
  induction fuel generalizing n acc with
  | zero => exact Or.inr hc
  | succ fuel ih =>
    by_cases hn : n < 10
    · simp only [dec_digits, hn, if_true, List.mem_cons] at hc
      rcases hc with rfl | hc
      · exact Or.inl (digit_char_spec n hn).2.2.1
      · exact Or.inr hc
    · simp only [dec_digits, hn, if_false] at hc
      rcases ih _ _ hc with h | h
      · exact Or.inl h
      · rcases List.mem_cons.mp h with rfl | h
        · exact Or.inl (digit_char_spec (n % 10) (Nat.mod_lt _ (by decide))).2.2.1
        · exact Or.inr h

theorem fmt_d_not_space (v : Int) {c : Char} (hc : c ∈ fmt_d v) : isspace c = false := by
  cases v with
  | ofNat n =>
    rcases dec_digits_not_space _ _ _ hc with h | h
    · exact h
    · simp at h
  | negSucc n =>
    simp only [fmt_d, List.mem_cons] at hc
    rcases hc with rfl | hc
    · decide
    · rcases dec_digits_not_space _ _ _ hc with h | h
      · exact h
      · simp at h

theorem fmt_d_ne_nil (v : Int) : fmt_d v ≠ [] := by
  cases v with
  | ofNat n =>
    obtain ⟨c, tl, e, -⟩ := dec_digits_head (n + 1) n [] (by omega)
    simp only [fmt_d, e]
    exact List.cons_ne_nil _ _
  | negSucc n => simp [fmt_d]

theorem dropWhile_append_all (p : Char → Bool) :
    ∀ (a b : List Char), (∀ x ∈ a, p x = true) → (a ++ b).dropWhile p = b.dropWhile p := by
  intro a
  induction a with
  | nil => intro b _; rfl
  | cons x a ih =>
    intro b h
    simp only [List.cons_append, List.dropWhile_cons, h x (List.mem_cons_self _ _), if_true]
    exact ih b (fun y hy => h y (List.mem_cons_of_mem _ hy))

theorem rtrim_append (t w : List Char) (hw : IsSpace w) : rtrim (t ++ w) = rtrim t := by
  unfold rtrim
  rw [List.reverse_append, dropWhile_append_all isspace _ _
    (fun x hx => hw x (List.mem_reverse.mp hx))]

theorem rtrim_self (init : List Char) (c : Char) (hc : isspace c = false) :
    rtrim (init ++ [c]) = init ++ [c] := by
  unfold rtrim
  rw [List.reverse_append, List.reverse_singleton, List.singleton_append,
    List.dropWhile_cons, hc]
  simp

theorem rtrim_date_line (d m y : Int) (w : List Char) (hw : IsSpace w) :
    rtrim (date_line d m y ++ w) = date_line d m y := by
  rw [rtrim_append _ _ hw]
  obtain ⟨init, c, e⟩ : ∃ init c, fmt_d y = init ++ [c] := by
    rcases List.eq_nil_or_concat (fmt_d y) with h | ⟨init, c, h⟩
    · exact absurd h (fmt_d_ne_nil y)
    · exact ⟨init, c, by simpa using h⟩
  have hc : isspace c = false := fmt_d_not_space y (by rw [e]; simp)
  have hline : date_line d m y =
      ((toString d).toList ++ '.' :: ((toString m).toList ++ '.' :: init)) ++ [c] := by
    unfold date_line
    rw [← fmt_d_eq_toString y, e]
    simp
  rw [hline]
  exact rtrim_self _ c hc

theorem sscanf_date_line (d m y : Int)
    (hd : -2 ^ 31 ≤ d ∧ d < 2 ^ 31) (hm : -2 ^ 31 ≤ m ∧ m < 2 ^ 31)
    (hy : -2 ^ 31 ≤ y ∧ y < 2 ^ 31) :
    sscanf_date (date_line d m y) = some (d, m, y, (date_line d m y).length) := by
  have hdot : ∀ rest : List Char, noDigitAhead ('.' :: rest) := by
    intro rest c hc
    simp at hc
    subst hc
    decide
  have hnil : noDigitAhead [] := by intro c hc; simp at hc
  have e1 := scan_int_fmt_d d ('.' :: (fmt_d m ++ '.' :: fmt_d y)) (hdot _)
  have e2 := scan_int_fmt_d m ('.' :: fmt_d y) (hdot _)
  have e3 := scan_int_fmt_d y [] hnil
  rw [List.append_nil] at e3
  unfold date_line
  rw [← fmt_d_eq_toString, ← fmt_d_eq_toString, ← fmt_d_eq_toString]
  simp only [sscanf_date, e1, e2, e3, Option.bind_eq_bind, Option.some_bind, scan_lit, if_true,
    List.length_nil, Nat.sub_zero]
  rw [store_of_range 32 d (by decide) (by decide) (by norm_num; omega) (by norm_num; omega),
    store_of_range 32 m (by decide) (by decide) (by norm_num; omega) (by norm_num; omega),
    store_of_range 32 y (by decide) (by decide) (by norm_num; omega) (by norm_num; omega)]

theorem ll_free_list_steps_add {α : Type} :
    ∀ (a b : Nat) (m : FreeMachine α),
      ll_free_list_steps (a + b) m = (ll_free_list_steps a m).bind (ll_free_list_steps b) := by
  intro a
  induction a with
  | zero => intro b m; simp [ll_free_list_steps]
  | succ a ih =>
    intro b m
    rw [Nat.add_right_comm]
    simp only [ll_free_list_steps]
    cases ll_free_list_step m with
    | none => rfl
    | some m1 => simp only [Option.some_bind, ih]

theorem ll_free_list_steps_one {α : Type} (m : FreeMachine α) :
    ll_free_list_steps 1 m = ll_free_list_step m := by
  simp only [ll_free_list_steps]
  cases ll_free_list_step m <;> rfl

theorem ll_free_list_steps_halted {α : Type} :
    ∀ (n : Nat) (m : FreeMachine α), m.stack = [] → ll_free_list_steps n m = some m := by
  intro n
  induction n with
  | zero => intro m _; rfl
  | succ n ih =>
    intro m hm
    have hstep : ll_free_list_step m = some m := by
      simp only [ll_free_list_step, hm]
    simp only [ll_free_list_steps, hstep, Option.some_bind]
    exact ih m hm

theorem free_node_some {α : Type} (s : FreeState α) (p : Nat) (nd : Node α)
    (hr : s.heap.read p = some nd) :
    ∃ s2, free_node s p = some s2 ∧ s2.heap = s.heap.free p := by
  simp only [free_node, hr, Option.bind_eq_bind, Option.some_bind]
  exact ⟨_, rfl, rfl⟩

theorem assign_null_some {α : Type} (head_var : Option Nat) (s0 s2 : FreeState α)
    (loc : HeadPtr) (v : Option Nat)
    (hd : FreeMem.deref ⟨head_var, s0⟩ loc = some v)
    (hsame : ∀ q, loc = HeadPtr.next_of q → s2.heap.read q = s0.heap.read q) :
    ∃ mem1, FreeMem.assign_null ⟨head_var, s2⟩ loc = some mem1 := by
  cases loc with
  | var => exact ⟨_, rfl⟩
  | next_of q =>
    simp only [FreeMem.deref, Option.map_eq_some'] at hd
    obtain ⟨nq, hq, -⟩ := hd
    simp only [FreeMem.assign_null, hsame q rfl, hq, Option.bind_eq_bind, Option.some_bind]
    exact ⟨_, rfl⟩

theorem deref_same {α : Type} (head_var : Option Nat) (s0 s2 : FreeState α)
    (loc : HeadPtr)
    (hsame : ∀ q, loc = HeadPtr.next_of q → s2.heap.read q = s0.heap.read q) :
    FreeMem.deref ⟨head_var, s2⟩ loc = FreeMem.deref ⟨head_var, s0⟩ loc := by
  cases loc with
  | var => rfl
  | next_of q => simp only [FreeMem.deref, hsame q rfl]

theorem step_enter_last {α : Type} (loc : HeadPtr) (callers : List Frame) (peak : Nat)
    (mem : FreeMem α) (p : Nat) (nd : Node α) (hd : mem.deref loc = some (some p))
    (hr : mem.state.heap.read p = some nd) (hn : nd.next = none) :
    ll_free_list_step ⟨⟨loc, false⟩ :: callers, peak, mem⟩ =
      some ⟨⟨loc, true⟩ :: callers, peak, mem⟩ := by
  simp [ll_free_list_step, hd, hr, hn]

theorem step_enter_call {α : Type} (loc : HeadPtr) (callers : List Frame) (peak : Nat)
    (mem : FreeMem α) (p nx : Nat) (nd : Node α) (hd : mem.deref loc = some (some p))
    (hr : mem.state.heap.read p = some nd) (hn : nd.next = some nx) :
    ll_free_list_step ⟨⟨loc, false⟩ :: callers, peak, mem⟩ =
      some ⟨⟨HeadPtr.next_of p, false⟩ :: ⟨loc, true⟩ :: callers,
        max peak (callers.length + 2), mem⟩ := by
  simp [ll_free_list_step, hd, hr, hn]

theorem step_resume {α : Type} (loc : HeadPtr) (callers : List Frame) (peak : Nat)
    (mem mem1 : FreeMem α) (p : Nat) (s1 : FreeState α)
    (hd : mem.deref loc = some (some p)) (hf : free_node mem.state p = some s1)
    (ha : FreeMem.assign_null ⟨mem.head_var, s1⟩ loc = some mem1) :
    ll_free_list_step ⟨⟨loc, true⟩ :: callers, peak, mem⟩ =
      some ⟨callers, peak, mem1⟩ := by
  simp [ll_free_list_step, hd, hf, ha]

theorem ll_free_list_node {α : Type} (depth : Nat) (s s2c : FreeState α) (p nx : Nat)
    (nd nd1 : Node α) (hr : s.heap.read p = some nd) (hn : nd.next = some nx)
    (hfun : ll_free_list depth s (some nx) = some (s2c, none))
    (hrp : s2c.heap.read p = some nd1) :
    ll_free_list (depth + 1) s (some p) =
      (free_node ⟨s2c.heap.write p { nd1 with next := none }, s2c.released, s2c.freed⟩ p).bind
        (fun s2 => some (s2, none)) := by
  simp only [ll_free_list, hr, Option.bind_eq_bind, Option.some_bind, hn, hfun, hrp]

/-- The machine run of one activation and of the activations it calls: started on the node
`p` of a chain `p :: rest`, it returns after twice as many steps as the chain has nodes, with
the memory the function `ll_free_list` computes followed by the store `*head = NULL`, and the
stack has grown by one activation per node of the chain. -/
theorem free_list_machine {α : Type} :
    ∀ (rest : List Nat) (p : Nat) (pv : Option Nat) (loc : HeadPtr) (callers : List Frame)
      (peak : Nat) (mem : FreeMem α),
      mem.deref loc = some (some p) →
      seg mem.state.heap pv (p :: rest) none → (p :: rest).Nodup →
      (∀ q, loc = HeadPtr.next_of q → q ∉ p :: rest) →
      callers.length + 1 ≤ peak →
      ∃ s2 mem1, ll_free_list (rest.length + 1) mem.state (some p) = some (s2, none) ∧
        FreeMem.assign_null ⟨mem.head_var, s2⟩ loc = some mem1 ∧
        ll_free_list_steps (2 * (rest.length + 1)) ⟨⟨loc, false⟩ :: callers, peak, mem⟩ =
          some ⟨callers, max peak (callers.length + rest.length + 1), mem1⟩ := by
  intro rest
  induction rest with
  | nil =>
    intro p pv loc callers peak mem hd hs hnd hloc hpeak
    obtain ⟨nd, hr, -, hn, -⟩ := hs
    simp only [headOr] at hn
    obtain ⟨s2, hf, hheap⟩ := free_node_some mem.state p nd hr
    have hsame : ∀ q, loc = HeadPtr.next_of q → s2.heap.read q = mem.state.heap.read q := by
      intro q hq
      rw [hheap]
      exact read_free_ne (fun e => hloc q hq (by rw [e]; exact List.mem_singleton_self _))
    obtain ⟨mem1, ha⟩ := assign_null_some mem.head_var mem.state s2 loc (some p) hd hsame
    refine ⟨s2, mem1, ?_, ha, ?_⟩
    · simp only [List.length_nil, Nat.zero_add, ll_free_list, hr, Option.bind_eq_bind,
        Option.some_bind, hn, hf]
    · have e : 2 * (([] : List Nat).length + 1) = 1 + 1 := rfl
      rw [e, ll_free_list_steps_add, ll_free_list_steps_one,
        step_enter_last loc callers peak mem p nd hd hr hn, Option.some_bind,
        ll_free_list_steps_one, step_resume loc callers peak mem mem1 p s2 hd hf ha]
      have : max peak (callers.length + ([] : List Nat).length + 1) = peak := by
        simp only [List.length_nil, Nat.add_zero]; omega
      rw [this]
  | cons nx rest ih =>
    intro p pv loc callers peak mem hd hs hnd hloc hpeak
    obtain ⟨nd, hr, -, hn, hrest⟩ := hs
    simp only [headOr] at hn
    have hp : p ∉ nx :: rest := (List.nodup_cons.mp hnd).1
    have hnd1 : (nx :: rest).Nodup := (List.nodup_cons.mp hnd).2
    have hd1 : mem.deref (HeadPtr.next_of p) = some (some nx) := by
      simp only [FreeMem.deref, hr, Option.map_some', hn]
    obtain ⟨s2c, memc, hfunc, hassc, hstepsc⟩ := ih nx (some p) (HeadPtr.next_of p)
      (⟨loc, true⟩ :: callers) (max peak (callers.length + 2)) mem hd1 hrest hnd1
      (fun q hq => by cases hq; exact hp) (by simp only [List.length_cons]; omega)
    -- the memory when the nested call has returned
    obtain ⟨s1x, hspec, -, -, -, hframe⟩ :=
      free_list_spec (nx :: rest) (some p) (rest.length + 1) mem.state hrest hnd1
        (by simp)
    simp only [List.head?_cons] at hspec
    rw [hfunc] at hspec
    obtain rfl : s2c = s1x := by
      have := Option.some.inj hspec
      exact (Prod.mk.inj this).1
    have hrp : s2c.heap.read p = some nd := by rw [hframe p hp]; exact hr
    have hmemc : memc = ⟨mem.head_var, ⟨s2c.heap.write p { nd with next := none },
        s2c.released, s2c.freed⟩⟩ := by
      simp only [FreeMem.assign_null, hrp, Option.bind_eq_bind, Option.some_bind] at hassc
      exact (Option.some.inj hassc).symm
    have hplt : p < s2c.heap.length := read_lt hrp
    have hrp1 : memc.state.heap.read p = some { nd with next := none } := by
      rw [hmemc]; exact read_write_same _ hplt
    obtain ⟨s2, hf, hheap⟩ := free_node_some memc.state p _ hrp1
    have hsame : ∀ q, loc = HeadPtr.next_of q → s2.heap.read q = mem.state.heap.read q := by
      intro q hq
      have hq1 := hloc q hq
      have hqp : q ≠ p := fun e => hq1 (by rw [e]; exact List.mem_cons_self _ _)
      have hq2 : q ∉ nx :: rest := fun h => hq1 (List.mem_cons_of_mem _ h)
      rw [hheap, read_free_ne (Ne.symm hqp), hmemc]
      show (s2c.heap.write p { nd with next := none }).read q = mem.state.heap.read q
      rw [read_write_ne _ (Ne.symm hqp), hframe q hq2]
    have hsamec : ∀ q, loc = HeadPtr.next_of q →
        memc.state.heap.read q = mem.state.heap.read q := by
      intro q hq
      have hq1 := hloc q hq
      have hqp : q ≠ p := fun e => hq1 (by rw [e]; exact List.mem_cons_self _ _)
      have hq2 : q ∉ nx :: rest := fun h => hq1 (List.mem_cons_of_mem _ h)
      rw [hmemc]
      show (s2c.heap.write p { nd with next := none }).read q = mem.state.heap.read q
      rw [read_write_ne _ (Ne.symm hqp), hframe q hq2]
    obtain ⟨mem1, ha⟩ := assign_null_some mem.head_var mem.state s2 loc (some p) hd hsame
    have hdc : memc.deref loc = some (some p) := by
      have h1 := deref_same mem.head_var mem.state memc.state loc hsamec
      have h2 : (⟨mem.head_var, memc.state⟩ : FreeMem α) = memc := by rw [hmemc]
      have h3 : (⟨mem.head_var, mem.state⟩ : FreeMem α) = mem := rfl
      rw [h2, h3] at h1
      rw [h1]; exact hd
    have hhv : memc.head_var = mem.head_var := by rw [hmemc]
    refine ⟨s2, mem1, ?_, ha, ?_⟩
    · have hst : memc.state = ⟨s2c.heap.write p { nd with next := none }, s2c.released,
          s2c.freed⟩ := by rw [hmemc]
      rw [hst] at hf
      rw [List.length_cons, ll_free_list_node (rest.length + 1) mem.state s2c p nx nd nd hr hn
        hfunc hrp, hf]
      rfl
    · have e : 2 * ((nx :: rest).length + 1) = 1 + (2 * (rest.length + 1) + 1) := by
        simp only [List.length_cons]; omega
      rw [e, ll_free_list_steps_add 1, ll_free_list_steps_one,
        step_enter_call loc callers peak mem p nx nd hd hr hn, Option.some_bind,
        ll_free_list_steps_add (2 * (rest.length + 1)) 1, hstepsc, Option.some_bind,
        ll_free_list_steps_one,
        step_resume loc callers _ memc mem1 p s2 hdc hf (by rw [hhv]; exact ha)]
      have hpk : max (max peak (callers.length + 2))
          ((⟨loc, true⟩ :: callers : List Frame).length + rest.length + 1) =
          max peak (callers.length + (nx :: rest).length + 1) := by
        simp only [List.length_cons]; omega
      rw [hpk]

/-- The machine run of a whole call on a well-formed collection. -/
theorem free_list_machine_run {α : Type} (s : FreeState α) (head tail : Option Nat)
    (ps : List Nat) (n : Nat) (hwf : WellFormed s.heap head tail ps)
    (hn : 2 * ps.length + 1 ≤ n) :
    ∃ m, ll_free_list_steps n (ll_free_list_call s head) = some m ∧ m.stack = [] ∧
      m.mem.head_var = none ∧ m.peak = max 1 ps.length ∧
      ll_free_list ps.length s head = some (m.mem.state, none) := by
  cases ps with
  | nil =>
    have hh : head = none := hwf.head_eq
    subst hh
    obtain ⟨k, rfl⟩ : ∃ k, n = 1 + k :=
      ⟨n - 1, by simp only [List.length_nil] at hn; omega⟩
    have hstep : ll_free_list_step (ll_free_list_call s none) =
        some ⟨[], 1, ⟨none, s⟩⟩ := by
      simp [ll_free_list_step, ll_free_list_call, FreeMem.deref]
    refine ⟨⟨[], 1, ⟨none, s⟩⟩, ?_, rfl, rfl, rfl, rfl⟩
    rw [ll_free_list_steps_add, ll_free_list_steps_one, hstep, Option.some_bind]
    exact ll_free_list_steps_halted k _ rfl
  | cons p rest =>
    have hh : head = some p := hwf.head_eq
    subst hh
    obtain ⟨s2, mem1, hfun, hass, hsteps⟩ := free_list_machine rest p none HeadPtr.var [] 1
      ⟨some p, s⟩ rfl hwf.links hwf.nodup (fun q hq => by cases hq) (le_refl _)
    have hmem1 : mem1 = ⟨none, s2⟩ := by
      simp only [FreeMem.assign_null] at hass
      exact (Option.some.inj hass).symm
    obtain ⟨k, rfl⟩ : ∃ k, n = 2 * (rest.length + 1) + k :=
      ⟨n - 2 * (rest.length + 1), by simp only [List.length_cons] at hn; omega⟩
    refine ⟨⟨[], max 1 (([] : List Frame).length + rest.length + 1), mem1⟩,
      ?_, rfl, ?_, ?_, ?_⟩
    · rw [ll_free_list_steps_add]
      have : ll_free_list_call s (some p) =
          ⟨[⟨HeadPtr.var, false⟩], 1, ⟨some p, s⟩⟩ := rfl
      rw [this, hsteps, Option.some_bind]
      exact ll_free_list_steps_halted k _ rfl
    · rw [hmem1]
    · simp only [List.length_nil, List.length_cons, Nat.zero_add]
    · rw [hmem1]; exact hfun

theorem step_height {α : Type} (m m1 : FreeMachine α) (h : ll_free_list_step m = some m1) :
    m.peak ≤ m1.peak ∧ (m.stack.length ≤ m.peak → m1.stack.length ≤ m1.peak) := by
  obtain ⟨stack, peak, mem⟩ := m
  cases stack with
  | nil =>
    simp only [ll_free_list_step] at h
    cases h
    exact ⟨le_refl _, fun h => h⟩
  | cons f callers =>
    simp only [ll_free_list_step] at h
    split at h
    · simp only [Option.bind_eq_bind, Option.bind_eq_some] at h
      obtain ⟨hv, -, p, -, s1, -, mem1, -, h⟩ := h
      cases h
      exact ⟨le_refl _, fun hl => by
        simp only [List.length_cons] at hl
        show callers.length ≤ peak
        omega⟩
    · simp only [Option.bind_eq_bind, Option.bind_eq_some] at h
      obtain ⟨hv, -, h⟩ := h
      cases hv with
      | none =>
        cases h
        exact ⟨le_refl _, fun hl => by
        simp only [List.length_cons] at hl
        show callers.length ≤ peak
        omega⟩
      | some p =>
        simp only [Option.bind_eq_bind, Option.bind_eq_some] at h
        obtain ⟨nd, -, h⟩ := h
        cases hn : nd.next with
        | none =>
          simp only [hn] at h
          cases h
          exact ⟨le_refl _, fun hl => by simpa using hl⟩
        | some nx =>
          simp only [hn] at h
          cases h
          exact ⟨le_max_left _ _, fun _ => by simp only [List.length_cons]; omega⟩

theorem steps_height {α : Type} :
    ∀ (k : Nat) (m m1 : FreeMachine α), ll_free_list_steps k m = some m1 →
      m.peak ≤ m1.peak ∧ (m.stack.length ≤ m.peak → m1.stack.length ≤ m1.peak) := by
  intro k
  induction k with
  | zero =>
    intro m m1 h
    simp only [ll_free_list_steps] at h
    cases h
    exact ⟨le_refl _, fun h => h⟩
  | succ k ih =>
    intro m m1 h
    simp only [ll_free_list_steps, Option.bind_eq_some] at h
    obtain ⟨m0, h0, h1⟩ := h
    obtain ⟨a1, a2⟩ := step_height m m0 h0
    obtain ⟨b1, b2⟩ := ih m0 m1 h1
    exact ⟨le_trans a1 b1, fun hl => b2 (a2 hl)⟩

/-- The activations pile up: from an activation at its beginning on the first node of a chain,
as many steps as the chain has further nodes put one activation per node on the stack. -/
theorem free_list_descend {α : Type} :
    ∀ (rest : List Nat) (p : Nat) (pv : Option Nat) (loc : HeadPtr) (callers : List Frame)
      (peak : Nat) (mem : FreeMem α),
      mem.deref loc = some (some p) → seg mem.state.heap pv (p :: rest) none →
      ∃ mk, ll_free_list_steps rest.length ⟨⟨loc, false⟩ :: callers, peak, mem⟩ =
          some mk ∧
        mk.stack.length = callers.length + 1 + rest.length := by
  intro rest
  induction rest with
  | nil =>
    intro p pv loc callers peak mem _ _
    exact ⟨_, rfl, by simp⟩
  | cons nx rest ih =>
    intro p pv loc callers peak mem hd hs
    obtain ⟨nd, hr, -, hn, hrest⟩ := hs
    simp only [headOr] at hn
    have hd1 : mem.deref (HeadPtr.next_of p) = some (some nx) := by
      simp only [FreeMem.deref, hr, Option.map_some', hn]
    obtain ⟨mk, hk, hlen⟩ := ih nx (some p) (HeadPtr.next_of p) (⟨loc, true⟩ :: callers)
      (max peak (callers.length + 2)) mem hd1 hrest
    refine ⟨mk, ?_, by rw [hlen]; simp only [List.length_cons]; omega⟩
    have e : (nx :: rest).length = 1 + rest.length := by
      simp only [List.length_cons]; omega
    rw [e, ll_free_list_steps_add, ll_free_list_steps_one,
      step_enter_call loc callers peak mem p nx nd hd hr hn, Option.some_bind]
    exact hk

/-- The height of the call stack during the run of a whole call on a well-formed collection
of `n` nodes: it reaches `n` (1 for the empty collection) and never exceeds it. -/
theorem free_list_machine_height {α : Type} (s : FreeState α) (head tail : Option Nat)
    (ps : List Nat) (hwf : WellFormed s.heap head tail ps) :
    (∃ k mk, ll_free_list_steps k (ll_free_list_call s head) = some mk ∧
      mk.stack.length = max 1 ps.length) ∧
    (∀ k mk, ll_free_list_steps k (ll_free_list_call s head) = some mk →
      mk.stack.length ≤ max 1 ps.length) := by
  constructor
  · cases ps with
    | nil => exact ⟨0, _, rfl, rfl⟩
    | cons p rest =>
      have hh : head = some p := hwf.head_eq
      subst hh
      obtain ⟨mk, hk, hlen⟩ := free_list_descend rest p none HeadPtr.var [] 1
        ⟨some p, s⟩ rfl hwf.links
      refine ⟨rest.length, mk, hk, ?_⟩
      rw [hlen]
      simp only [List.length_nil, List.length_cons]
      omega
  · intro k mk hk
    obtain ⟨m, hm, hst, -, hpk, -⟩ := free_list_machine_run s head tail ps
      (2 * ps.length + 1 + k) hwf (by omega)
    have hcomm : 2 * ps.length + 1 + k = k + (2 * ps.length + 1) := by omega
    rw [hcomm, ll_free_list_steps_add, hk, Option.some_bind] at hm
    obtain ⟨-, h1⟩ := steps_height k _ mk hk
    obtain ⟨h2, -⟩ := steps_height _ mk m hm
    have h3 : mk.stack.length ≤ mk.peak := h1 (le_refl _)
    rw [hpk] at h2
    omega

/-- C22, as stated, fails: the teardown is recursive and no constant bounds the depth of its
call stack.  For every bound there is a well-formed collection during whose teardown more
activations of `ll_free_list` than the bound are on the stack at once; on the three-node
collection three activations are on the stack after two steps, and the run ends with three
as the greatest height. -/
theorem ll_free_list_stack_unbounded :
    (∀ bound : Nat, ∃ n k mk,
      WellFormed (chainOf n) (List.range n).head? (List.range n).getLast? (List.range n) ∧
      ll_free_list_steps k
        (ll_free_list_call ⟨chainOf n, [], []⟩ (List.range n).head?) = some mk ∧
      bound < mk.stack.length) ∧
    (ll_free_list_steps 2 (ll_free_list_call ⟨threeNodes, [], []⟩ (some 0))).map
      (fun m => m.stack.length) = some 3 ∧
    (ll_free_list_steps 7 (ll_free_list_call ⟨threeNodes, [], []⟩ (some 0))).map
      (fun m => (m.stack, m.peak)) = some ([], 3) := by
  refine ⟨?_, by decide, by decide⟩
  intro bound
  have hwf := chainOf_wf (bound + 1)
  obtain ⟨⟨k, mk, hk, hlen⟩, -⟩ := free_list_machine_height
    ⟨chainOf (bound + 1), [], []⟩ _ _ (List.range (bound + 1)) hwf
  refine ⟨bound + 1, k, mk, hwf, hk, ?_⟩
  rw [hlen]
  simp only [List.length_range]
  omega

/-- C22 (amended): `ll_free_list` is recursive.  An activation on a node that has a successor
calls `ll_free_list` on the successor and frees its own node when that call has returned, so
during the teardown of a well-formed collection of `n` nodes the call stack reaches the
height `n` (1 for the empty collection) and never exceeds it: the depth of the stack is the
length of the collection.  The run ends after `2 n + 1` steps of the activations at most,
with the stack empty, head empty and the memory that the function `ll_free_list` of the other
theorems computes. -/
theorem ll_free_list_stack {α : Type} (s : FreeState α) (head tail : Option Nat)
    (ps : List Nat) (n : Nat) (hwf : WellFormed s.heap head tail ps)
    (hn : 2 * ps.length + 1 ≤ n) :
    (∃ m, ll_free_list_steps n (ll_free_list_call s head) = some m ∧ m.stack = [] ∧
      m.mem.head_var = none ∧ m.peak = max 1 ps.length ∧
      ll_free_list ps.length s head = some (m.mem.state, none)) ∧
    (∃ k mk, ll_free_list_steps k (ll_free_list_call s head) = some mk ∧
      mk.stack.length = max 1 ps.length) ∧
    (∀ k mk, ll_free_list_steps k (ll_free_list_call s head) = some mk →
      mk.stack.length ≤ max 1 ps.length) :=
  ⟨free_list_machine_run s head tail ps n hwf hn,
    free_list_machine_height s head tail ps hwf⟩

theorem ll_free_list_stack_witness :
    (∃ m, ll_free_list_steps 7 (ll_free_list_call ⟨threeNodes, [], []⟩ (some 0)) = some m ∧
      m.stack = [] ∧ m.mem.head_var = none ∧ m.peak = max 1 [0, 1, 2].length ∧
      ll_free_list [0, 1, 2].length ⟨threeNodes, [], []⟩ (some 0) =
        some (m.mem.state, none)) ∧
    (∃ k mk, ll_free_list_steps k (ll_free_list_call ⟨threeNodes, [], []⟩ (some 0)) =
        some mk ∧
      mk.stack.length = max 1 [0, 1, 2].length) ∧
    (∀ k mk, ll_free_list_steps k (ll_free_list_call ⟨threeNodes, [], []⟩ (some 0)) =
        some mk →
      mk.stack.length ≤ max 1 [0, 1, 2].length) :=
  ll_free_list_stack ⟨threeNodes, [], []⟩ (some 0) (some 2) [0, 1, 2] 7 threeNodes_wf
    (by decide)

end DiaryCli
